import Mathlib

/-!
# lav: a per-user version manager (verification development)

A shallow embedding of `main.go` and of the selector model of `selector.go`.  All
program state lives on the filesystem, so the embedding consists of

* a model of the operating-system primitives the program calls (packages `os`,
  `io`, `sort` and `path/filepath`): a filesystem is a finite map from canonical
  absolute paths to nodes (regular files, directories, symbolic links), and
  every primitive resolves its path argument component by component,
  following symbolic links the way the kernel does, with the kernel's bound on
  the number of links followed;
* the functions of `main.go`, translated statement by statement on top of
  these primitives, with the filesystem passed explicitly.  A function that
  returns a Go `error` returns a pair here: the error (`none` for `nil`) and the
  filesystem it leaves behind, since nothing is rolled back on failure;
* `getBaseDir` as a function of the three values it reads from the environment,
  and `Update` of the version selector as a function of the model and the
  message.

Conventions.  A path is the list of its components below the root.  The
string arguments `app`, `version` and file names are single path components
(they contain no separator), and paths handed to the program are absolute.
The strings `getBaseDir` reads are arbitrary; a string is then the list of its
pieces between separators.
The process is assumed to have permission for every access, and the umask is
not modelled.  Hard links are not modelled.

The theorems whose comment starts with a number C1, C2, ... are the properties
of the specification.  Where a property needs a side condition, the theorem
states it and a counterexample shows the property failing without it.
-/

namespace Lav

/-! ## Paths -/

/-- An absolute path: its components, outermost first. -/
abbrev Path := List String

/-- A proper entry name: neither empty, nor one of the two dot entries, nor
a bare separator. -/
def isName (c : String) : Prop := c ≠ "" ∧ c ≠ "." ∧ c ≠ ".." ∧ c ≠ "/"

instance (c : String) : Decidable (isName c) := by unfold isName; infer_instance

/-- One step of `filepath.Clean` on an absolute path; an element that is
empty, a dot or a bare separator adds nothing. -/
def cleanStep (acc : Path) (c : String) : Path :=
  if c = "" ∨ c = "." ∨ c = "/" then acc
  else if c = ".." then acc.dropLast else acc ++ [c]

/-- `filepath.Join(base, elems...)` for an absolute `base`: the elements are
appended and the result is cleaned lexically. -/
def join (base : Path) (elems : List String) : Path :=
  (base ++ elems).foldl cleanStep []

/-- One step of `filepath.Clean` on a relative path: a leading run of `..`
is kept. -/
def cleanRelStep (acc : List String) (c : String) : List String :=
  if c = "" ∨ c = "." ∨ c = "/" then acc
  else if c = ".." then
    match acc.getLast? with
    | none => acc ++ [".."]
    | some l => if l = ".." then acc ++ [".."] else acc.dropLast
  else acc ++ [c]

/-- `filepath.Join(elems...)` when the first element is relative; the result
is given as its list of components. -/
def joinRel (elems : List String) : List String :=
  let r := elems.foldl cleanRelStep []
  if r = [] then ["."] else r

/-- The string a list of components stands for. -/
def pathString (comps : List String) : String := "/".intercalate comps

/-- `filepath.Base` on a string given by its components (the pieces between
separators): trailing separators are dropped and the last piece is returned. -/
def base (t : List String) : String :=
  if t = [] ∨ t = [""] then "."
  else match (t.reverse.dropWhile (fun c => c = "")).head? with
    | some c => c
    | none => "/"

/-- `filepath.Base` of an absolute path: its last component, and the
separator for the root. -/
def pathBase (p : Path) : String :=
  match p.getLast? with
  | some c => c
  | none => "/"

/-! ## Filesystem -/

/-- A filesystem node.  A link stores its target string as the list of pieces
between separators, so an absolute target starts with the empty piece. -/
inductive Node where
  | file (data : List Nat) (mode : Nat)
  | dir (mode : Nat)
  | link (target : List String)
  deriving DecidableEq, Repr

/-- Error numbers reported by the system calls. -/
inductive Errno where
  | ENOENT | ENOTDIR | EEXIST | ELOOP | EISDIR | EINVAL | ENOTEMPTY | ENAMETOOLONG | EBUSY
  deriving DecidableEq, Repr

/-- Go error values: an error of package `os` carrying an error number, a
message built by `fmt.Errorf`, a message wrapping a cause (`%w`), and the
failure of `os.UserHomeDir`. -/
inductive Err where
  | sys (e : Errno)
  | msg (s : String)
  | wrap (s : String) (cause : Err)
  | home
  deriving DecidableEq, Repr

deriving instance DecidableEq for Except

/-- `os.IsNotExist`: true exactly for an `os` error whose number is ENOENT. -/
def isNotExist : Err → Bool
  | .sys .ENOENT => true
  | _ => false

/-- A filesystem: bindings from canonical paths to nodes; the first binding
of a path is the valid one and `none` records a removed entry. -/
abbrev FS := List (Path × Option Node)

/-- Look-up of a binding. -/
def assoc : FS → Path → Option Node
  | [], _ => none
  | (q, v) :: rest, p => if q = p then v else assoc rest p

/-- The node at a canonical path; the root always is a directory. -/
def FS.get (fs : FS) (p : Path) : Option Node :=
  if p = [] then some (.dir 0o755) else assoc fs p

/-- Bind a canonical path to a node (or remove it). -/
def FS.set (fs : FS) (p : Path) (v : Option Node) : FS := (p, v) :: fs

/-- Names of the entries of directory `d`, without duplicates; a directory
only lists proper names. -/
def FS.children (fs : FS) (d : Path) : List String :=
  ((fs.filterMap fun b =>
      if b.1.dropLast = d then b.1.getLast? else none).dedup).filter
    fun n => decide (isName n) && (fs.get (d ++ [n])).isSome

/-- Path resolution along a list of components from the canonical directory
`cur`.  A link met on the way is handed to `onLink` together with the
directory it is relative to and the components still to be resolved.  The
result is the canonical path of the final entry, which may be absent. -/
def walkAux (fs : FS) (follow : Bool) (onLink : Path → List String → Except Errno Path) :
    Path → List String → Except Errno Path
  | cur, [] => .ok cur
  | cur, c :: rest =>
    if c = "" ∨ c = "." then walkAux fs follow onLink cur rest
    else if c = ".." then walkAux fs follow onLink cur.dropLast rest
    else match fs.get (cur ++ [c]) with
      | none => if rest = [] then .ok (cur ++ [c]) else .error .ENOENT
      | some (.dir _) => walkAux fs follow onLink (cur ++ [c]) rest
      | some (.file _ _) => if rest = [] then .ok (cur ++ [c]) else .error .ENOTDIR
      | some (.link t) =>
        if rest = [] ∧ follow = false then .ok (cur ++ [c])
        else onLink (if t.head? = some "" then [] else cur) (t ++ rest)

/-- Path resolution following at most `n` links (the kernel gives up with
ELOOP beyond its limit). -/
def walk (fs : FS) (follow : Bool) : Nat → Path → List String → Except Errno Path
  | 0 => walkAux fs follow (fun _ _ => .error .ELOOP)
  | n + 1 => walkAux fs follow (walk fs follow n)

/-- The kernel limit on the number of links followed in one resolution. -/
def maxLinks : Nat := 40

/-- Resolve an absolute path to the canonical path of its final entry. -/
def resolve (fs : FS) (follow : Bool) (p : Path) : Except Errno Path :=
  walk fs follow maxLinks [] p

/-! ## Primitives of package `os` -/

/-- `os.Stat`: the node a path leads to, following links. -/
def stat (fs : FS) (p : Path) : Except Errno Node :=
  match resolve fs true p with
  | .error e => .error e
  | .ok q => match fs.get q with
    | none => .error .ENOENT
    | some n => .ok n

/-- `os.Lstat`: as `stat`, but a link in final position is not followed. -/
def lstat (fs : FS) (p : Path) : Except Errno Node :=
  match resolve fs false p with
  | .error e => .error e
  | .ok q => match fs.get q with
    | none => .error .ENOENT
    | some n => .ok n

/-- `os.Readlink`: the target of the link at a path. -/
def readlink (fs : FS) (p : Path) : Except Errno (List String) :=
  match resolve fs false p with
  | .error e => .error e
  | .ok q => match fs.get q with
    | none => .error .ENOENT
    | some (.link t) => .ok t
    | some _ => .error .EINVAL

/-- `os.Symlink(target, p)`: create a link; fails when the entry exists. -/
def symlink (fs : FS) (target : List String) (p : Path) : Except Errno FS :=
  if target = [] ∨ target = [""] then .error .ENOENT
  else match resolve fs false p with
  | .error e => .error e
  | .ok q => match fs.get q with
    | some _ => .error .EEXIST
    | none => .ok (fs.set q (some (.link target)))

/-- `os.Remove`: remove a file, a link or an empty directory. -/
def remove (fs : FS) (p : Path) : Except Errno FS :=
  match resolve fs false p with
  | .error e => .error e
  | .ok q => match fs.get q with
    | none => .error .ENOENT
    | some (.dir _) =>
      if q = [] then .error .EBUSY
      else if fs.children q = [] then .ok (fs.set q none) else .error .ENOTEMPTY
    | some _ => .ok (fs.set q none)

/-- `os.Mkdir`: create one directory; fails when the entry exists. -/
def mkdir (fs : FS) (p : Path) (mode : Nat) : Except Errno FS :=
  match resolve fs false p with
  | .error e => .error e
  | .ok q => match fs.get q with
    | some _ => .error .EEXIST
    | none => .ok (fs.set q (some (.dir mode)))

/-- `os.MkdirAll` on the first `n` components of `p`, as package `os`
implements it: nothing to do when `os.Stat` finds a directory, otherwise the
parent is made first, then `os.Mkdir` is called, and its failure is forgiven
when `os.Lstat` finds a directory. -/
def mkdirAllN (mode : Nat) (p : Path) : Nat → FS → Option Errno × FS
  | 0, fs => (none, fs)
  | n + 1, fs =>
    let q := p.take (n + 1)
    match stat fs q with
    | .ok (.dir _) => (none, fs)
    | .ok _ => (some .ENOTDIR, fs)
    | .error _ =>
      match mkdirAllN mode p n fs with
      | (some e, fs1) => (some e, fs1)
      | (none, fs1) =>
        match mkdir fs1 q mode with
        | .ok fs2 => (none, fs2)
        | .error e =>
          match lstat fs1 q with
          | .ok (.dir _) => (none, fs1)
          | _ => (some e, fs1)

/-- `os.MkdirAll`. -/
def mkdirAll (fs : FS) (p : Path) (mode : Nat) : Option Errno × FS :=
  mkdirAllN mode p p.length fs

/-- `os.Create`: open for writing, creating the file (mode 0666) or
truncating it; the canonical path of the file is returned with the new
filesystem. -/
def create (fs : FS) (p : Path) : Except Errno (FS × Path) :=
  match resolve fs true p with
  | .error e => .error e
  | .ok q => match fs.get q with
    | none => .ok (fs.set q (some (.file [] 0o666)), q)
    | some (.file _ m) => .ok (fs.set q (some (.file [] m)), q)
    | some (.dir _) => .error .EISDIR
    | some (.link _) => .error .ELOOP

/-- `os.Chmod`: set the mode of the node a path leads to. -/
def chmod (fs : FS) (p : Path) (mode : Nat) : Except Errno FS :=
  match resolve fs true p with
  | .error e => .error e
  | .ok q => match fs.get q with
    | none => .error .ENOENT
    | some (.file d _) => .ok (fs.set q (some (.file d mode)))
    | some (.dir _) => .ok (fs.set q (some (.dir mode)))
    | some (.link _) => .error .ELOOP

/-- The permission bits `FileInfo.Mode()` reports for a node. -/
def nodeMode : Node → Nat
  | .file _ m => m
  | .dir m => m
  | .link _ => 0o777

/-- A directory entry as `os.ReadDir` reports it: `isDir` comes from the
entry itself, a link to a directory is not a directory. -/
structure DirEntry where
  name : String
  isDir : Bool
  deriving DecidableEq, Repr

/-- The order of `sort.Strings`: Go compares strings byte by byte; on the
UTF-8 strings modelled here that is the lexicographic order of the code
points. -/
def strLe (a b : String) : Prop := a.data ≤ b.data

instance : DecidableRel strLe := fun a b => by unfold strLe; infer_instance

/-- The strict order belonging to `strLe`. -/
def strLt (a b : String) : Prop := a.data < b.data

instance : DecidableRel strLt := fun a b => by unfold strLt; infer_instance

instance : IsTotal String strLe := ⟨fun a b => le_total a.data b.data⟩

instance : IsTrans String strLe := ⟨fun a b _ (h1 : a.data ≤ b.data) h2 => le_trans h1 h2⟩

/-- `sort.Strings`: the strings in ascending order. -/
def sortStrings (l : List String) : List String := l.insertionSort strLe

/-- Whether a node is a directory. -/
def isDirNode : Option Node → Bool
  | some (.dir _) => true
  | _ => false

/-- The entry `os.ReadDir` reports for the name `n` in directory `q`. -/
def entryOf (fs : FS) (q : Path) (n : String) : DirEntry :=
  ⟨n, isDirNode (fs.get (q ++ [n]))⟩

/-- `os.ReadDir`: the entries of the directory a path leads to, sorted by
name. -/
def readDir (fs : FS) (p : Path) : Except Errno (List DirEntry) :=
  match resolve fs true p with
  | .error e => .error e
  | .ok q => match fs.get q with
    | none => .error .ENOENT
    | some (.dir _) => .ok ((sortStrings (fs.children q)).map (entryOf fs q))
    | some _ => .error .ENOTDIR

/-! ## main.go: discovery -/

/-- The `for` loop of `listApps`: names of the entries that are directories. -/
def dirNames (entries : List DirEntry) : List String :=
  (entries.filter fun e => e.isDir).map fun e => e.name

/-- The function `listApps`. -/
def listApps (fs : FS) (baseDir : Path) : Except Err (List String) :=
  match readDir fs baseDir with
  | .error e => .error (.sys e)
  | .ok entries => .ok (sortStrings (dirNames entries))

/-- The `for` loop of `listVersions`: directories other than `current`. -/
def versionNames (entries : List DirEntry) : List String :=
  (entries.filter fun e => e.isDir && e.name != "current").map fun e => e.name

/-- The function `listVersions`. -/
def listVersions (fs : FS) (baseDir : Path) (app : String) : Except Err (List String) :=
  let appDir := join baseDir [app]
  match readDir fs appDir with
  | .error e => .error (.sys e)
  | .ok entries => .ok (sortStrings (versionNames entries))

/-- The function `getCurrentVersion`; Go's empty string stands for "none". -/
def getCurrentVersion (fs : FS) (baseDir : Path) (app : String) : Except Err String :=
  let currentLink := join baseDir [app, "current"]
  match readlink fs currentLink with
  | .error e => if isNotExist (.sys e) then .ok "" else .error (.sys e)
  | .ok target => .ok (base target)

/-! ## main.go: the replace-symlink sequence and the switcher -/

/-- The sequence the program repeats at every link it maintains: `os.Lstat`
the path, `os.Remove` it when it is a symbolic link, then `os.Symlink`.
`wrapRemove` and `wrapCreate` are the `fmt.Errorf` wrappers of the call
site. -/
def replaceSymlink (fs : FS) (target : List String) (p : Path)
    (wrapRemove wrapCreate : Err → Err) : Option Err × FS :=
  match (match lstat fs p with
    | .ok (.link _) =>
      (match remove fs p with
       | .error e => (Except.error (wrapRemove (.sys e)) : Except Err FS)
       | .ok fs1 => .ok fs1)
    | _ => .ok fs) with
  | .error e => (some e, fs)
  | .ok fs1 =>
    match symlink fs1 target p with
    | .error e => (some (wrapCreate (.sys e)), fs1)
    | .ok fs2 => (none, fs2)

/-- The function `switchVersion`. -/
def switchVersion (fs : FS) (baseDir : Path) (app version : String) : Option Err × FS :=
  let appDir := join baseDir [app]
  let versionDir := join appDir [version]
  if (match stat fs versionDir with
      | .error e => isNotExist (.sys e)
      | .ok _ => false) then
    (some (.msg ("version " ++ version ++ " does not exist for " ++ app)), fs)
  else
    let currentLink := join appDir ["current"]
    replaceSymlink fs [version] currentLink id id

/-! ## main.go: copying -/

/-- The function `copyFile`: `os.Open` the source, `os.Create` the
destination, then `io.Copy`.  The source is read after the destination has
been created, so a source that is the destination itself is read empty. -/
def copyFile (fs : FS) (src dst : Path) : Option Err × FS :=
  match resolve fs true src with
  | .error e => (some (.sys e), fs)
  | .ok qs =>
    match fs.get qs with
    | none => (some (.sys .ENOENT), fs)
    | some _ =>
      match create fs dst with
      | .error e => (some (.sys e), fs)
      | .ok (fs1, qd) =>
        match fs1.get qs, fs1.get qd with
        | some (.file data _), some (.file _ m) => (none, fs1.set qd (some (.file data m)))
        | some (.dir _), _ => (some (.sys .EISDIR), fs1)
        | _, _ => (some (.sys .EINVAL), fs1)

/-- The `for` loop of `copyDir` over the entries of `src`; `rec` is the
recursive call for a subdirectory. -/
def copyEntries (rec : FS → Path → Path → Option Err × FS) (src dst : Path) :
    List DirEntry → FS → Option Err × FS
  | [], fs => (none, fs)
  | e :: es, fs =>
    let srcPath := join src [e.name]
    let dstPath := join dst [e.name]
    if e.isDir then
      match rec fs srcPath dstPath with
      | (some err, fs1) => (some err, fs1)
      | (none, fs1) => copyEntries rec src dst es fs1
    else
      match copyFile fs srcPath dstPath with
      | (some err, fs1) => (some err, fs1)
      | (none, fs1) =>
        match stat fs1 srcPath with
        | .error e => (some (.sys e), fs1)
        | .ok srcFileInfo =>
          match chmod fs1 dstPath (nodeMode srcFileInfo) with
          | .error e => (some (.sys e), fs1)
          | .ok fs2 => copyEntries rec src dst es fs2

/-- The function `copyDir`.  `depth` is the number of directory levels the
path-length limit of the system still admits below `src`; a path beyond it
is refused with ENAMETOOLONG. -/
def copyDir : Nat → FS → Path → Path → Option Err × FS
  | 0, fs, _, _ => (some (.sys .ENAMETOOLONG), fs)
  | depth + 1, fs, src, dst =>
    match stat fs src with
    | .error e => (some (.sys e), fs)
    | .ok srcInfo =>
      match mkdirAll fs dst (nodeMode srcInfo) with
      | (some e, fs1) => (some (.sys e), fs1)
      | (none, fs1) =>
        match readDir fs1 src with
        | .error e => (some (.sys e), fs1)
        | .ok entries => copyEntries (copyDir depth) src dst entries fs1

/-! ## main.go: the installers -/

/-- The function `installBinary`.  `home` is the result of
`os.UserHomeDir`; `binaryPath` is absolute, so `filepath.Abs` cleans it. -/
def installBinary (home : Option Path) (fs : FS) (baseDir binaryPath : Path)
    (appName version : String) : Option Err × FS :=
  let absPath := join binaryPath []
  if (match stat fs absPath with
      | .error e => isNotExist (.sys e)
      | .ok _ => false) then
    (some (.msg ("binary does not exist: " ++ pathString ("" :: absPath))), fs)
  else
    let binaryName := pathBase absPath
    let versionBinDir := join baseDir [appName, version, "bin"]
    match mkdirAll fs versionBinDir 0o755 with
    | (some e, fs1) => (some (.wrap "failed to create directory" (.sys e)), fs1)
    | (none, fs1) =>
      let destPath := join versionBinDir [binaryName]
      match copyFile fs1 absPath destPath with
      | (some e, fs2) => (some (.wrap "failed to copy binary" e), fs2)
      | (none, fs2) =>
        match chmod fs2 destPath 0o755 with
        | .error e => (some (.wrap "failed to make binary executable" (.sys e)), fs2)
        | .ok fs3 =>
          let appDir := join baseDir [appName]
          let currentLink := join appDir ["current"]
          match replaceSymlink fs3 [version] currentLink
              (.wrap "failed to remove existing symlink")
              (.wrap "failed to create current symlink") with
          | (some e, fs4) => (some e, fs4)
          | (none, fs4) =>
            match home with
            | none => (some (.wrap "failed to get home directory" .home), fs4)
            | some h =>
              let localBinDir := join h [".local", "bin"]
              match mkdirAll fs4 localBinDir 0o755 with
              | (some e, fs5) => (some (.wrap "failed to create ~/.local/bin" (.sys e)), fs5)
              | (none, fs5) =>
                let binLink := join localBinDir [binaryName]
                let relTarget :=
                  joinRel ["..", "share", "lav", appName, "current", "bin", binaryName]
                replaceSymlink fs5 relTarget binLink
                  (.wrap "failed to remove existing bin symlink")
                  (.wrap "failed to create bin symlink")

/-- The `for` loop of `createBinSymlinks` over the entries of `current/bin`. -/
def linkEntries (localBinDir : Path) (appName : String) :
    List DirEntry → FS → Option Err × FS
  | [], fs => (none, fs)
  | e :: es, fs =>
    if e.isDir then linkEntries localBinDir appName es fs
    else
      let binName := e.name
      let binLink := join localBinDir [binName]
      let relTarget := joinRel ["..", "share", "lav", appName, "current", "bin", binName]
      match replaceSymlink fs relTarget binLink
          (.wrap "failed to remove existing bin symlink")
          (.wrap ("failed to create bin symlink for " ++ binName)) with
      | (some err, fs1) => (some err, fs1)
      | (none, fs1) => linkEntries localBinDir appName es fs1

/-- The function `createBinSymlinks`. -/
def createBinSymlinks (home : Option Path) (fs : FS) (baseDir : Path) (appName : String) :
    Option Err × FS :=
  match home with
  | none => (some (.wrap "failed to get home directory" .home), fs)
  | some h =>
    let localBinDir := join h [".local", "bin"]
    match mkdirAll fs localBinDir 0o755 with
    | (some e, fs1) => (some (.wrap "failed to create ~/.local/bin" (.sys e)), fs1)
    | (none, fs1) =>
      let currentBinDir := join baseDir [appName, "current", "bin"]
      match readDir fs1 currentBinDir with
      | .error e => (some (.wrap "failed to read bin directory" (.sys e)), fs1)
      | .ok entries => linkEntries localBinDir appName entries fs1

/-- The function `installDirectory`.  `srcDir` is absolute, so
`filepath.Abs` cleans it; `depth` is the level limit of `copyDir`. -/
def installDirectory (home : Option Path) (depth : Nat) (fs : FS) (baseDir srcDir : Path)
    (appName version : String) : Option Err × FS :=
  let absPath := join srcDir []
  match stat fs absPath with
  | .error _ =>
    (some (.msg ("source directory does not exist: " ++ pathString ("" :: absPath))), fs)
  | .ok srcInfo =>
    if (match srcInfo with | .dir _ => false | _ => true) then
      (some (.msg ("source path is not a directory: " ++ pathString ("" :: absPath))), fs)
    else
      let srcBinDir := join absPath ["bin"]
      if (match stat fs srcBinDir with
          | .error e => isNotExist (.sys e)
          | .ok _ => false) then
        (some (.msg "bin/ directory does not exist in source directory"), fs)
      else
        let versionDir := join baseDir [appName, version]
        match mkdirAll fs versionDir 0o755 with
        | (some e, fs1) => (some (.wrap "failed to create version directory" (.sys e)), fs1)
        | (none, fs1) =>
          match copyDir depth fs1 absPath versionDir with
          | (some e, fs2) => (some (.wrap "failed to copy directory" e), fs2)
          | (none, fs2) =>
            let appDir := join baseDir [appName]
            let currentLink := join appDir ["current"]
            match replaceSymlink fs2 [version] currentLink
                (.wrap "failed to remove existing symlink")
                (.wrap "failed to create current symlink") with
            | (some e, fs3) => (some e, fs3)
            | (none, fs3) =>
              match createBinSymlinks home fs3 baseDir appName with
              | (some e, fs4) => (some (.wrap "failed to create bin symlinks" e), fs4)
              | (none, fs4) => (none, fs4)

/-! ## Predicates and relations used in the statements and proofs -/

/-- Two nodes of the same kind; two links also have the same target. -/
def sameShape : Node → Node → Prop
  | .dir _, .dir _ => True
  | .file _ _, .file _ _ => True
  | .link t, .link t2 => t = t2
  | _, _ => False

/-- The filesystem `fs2` extends `fs1`: every node of `fs1` is still present
in `fs2`, with the same kind. -/
def Ext (fs1 fs2 : FS) : Prop :=
  ∀ p n, fs1.get p = some n → ∃ n2, fs2.get p = some n2 ∧ sameShape n n2

/-- Resolution of `p` as a directory, started in the directory `cur`: the
trailing dot makes every component of `p` an inner one. -/
def walkDir (fs : FS) (n : Nat) (cur : Path) (p : List String) : Except Errno Path :=
  walk fs false n cur (p ++ ["."])

/-- The path `p` is reached without symbolic links: no initial segment of
`p`, and not `p` itself, is a link. -/
def noLinks (fs : FS) (p : Path) : Prop :=
  ∀ q, q <+: p → ∀ t, fs.get q ≠ some (.link t)

/-- No link lies on the way from the directory `cur` along `comps`. -/
def NoLinkFrom (fs : FS) : Path → List String → Prop
  | _, [] => True
  | cur, c :: rest => (∀ t, fs.get (cur ++ [c]) ≠ some (.link t)) ∧ NoLinkFrom fs (cur ++ [c]) rest

/-- Every step from the directory `cur` along `comps` leads to a directory. -/
def DirsFrom (fs : FS) : Path → List String → Prop
  | _, [] => True
  | cur, c :: rest => (∃ m, fs.get (cur ++ [c]) = some (.dir m)) ∧ DirsFrom fs (cur ++ [c]) rest

/-- The filesystem `fs2` is `fs1` grown by copying: every node of `fs1` is
kept with its kind, and `fs2` has no link that `fs1` has not. -/
def Grows (fs1 fs2 : FS) : Prop :=
  Ext fs1 fs2 ∧ ∀ q t, fs2.get q = some (.link t) → fs1.get q = some (.link t)

/-- Executable form of `noLinks`. -/
def noLinksB (fs : FS) (p : Path) : Bool :=
  (List.range (p.length + 1)).all fun k =>
    match fs.get (p.take k) with
    | some (.link _) => false
    | _ => true

/-- No link lies on the way to `T` or inside `T`. -/
def noLinksAround (fs : FS) (T : Path) : Prop :=
  ∀ q t, (q <+: T ∨ T <+: q) → fs.get q ≠ some (.link t)

/-- The filesystems `fs1` and `fs2` agree everywhere except on the way to
`T` and inside `T`. -/
def sameOutside (T : Path) (fs1 fs2 : FS) : Prop :=
  ∀ x, ¬ (T <+: x) → ¬ (x <+: T) → fs2.get x = fs1.get x

/-- Executable form of `noLinksAround`. -/
def noLinksAroundB (fs : FS) (T : Path) : Bool :=
  noLinksB fs T && fs.all fun b =>
    match b.2 with
    | some (.link _) => !(T.isPrefixOf b.1) || fs.get b.1 != b.2
    | _ => true

/-- Every directory and every regular file of `fs1` is bound unchanged in
`fs2`. -/
def KeepsNodes (fs1 fs2 : FS) : Prop :=
  ∀ x n, fs1.get x = some n → (∀ t, n ≠ .link t) → fs2.get x = some n

/-! ## Example filesystems -/

/-- The store of the test `TestListVersions`: three versions of `testapp`. -/
def fsVersions : FS :=
  [(["tmp"], some (.dir 0o755)), (["tmp", "testapp"], some (.dir 0o755)),
   (["tmp", "testapp", "1.0.0"], some (.dir 0o755)),
   (["tmp", "testapp", "2.0.0"], some (.dir 0o755)),
   (["tmp", "testapp", "1.1.0"], some (.dir 0o755))]

/-- A store in which `testapp` holds a directory named `current`. -/
def fsCurrentDir : FS :=
  [(["tmp"], some (.dir 0o755)), (["tmp", "testapp"], some (.dir 0o755)),
   (["tmp", "testapp", "1.0.0"], some (.dir 0o755)),
   (["tmp", "testapp", "current"], some (.dir 0o755))]

/-- A store in which the place of the application directory is taken by a
regular file. -/
def fsAppFile : FS :=
  [(["tmp"], some (.dir 0o755)), (["tmp", "testapp"], some (.file [] 0o644))]

/-- The store of the test `TestGetCurrentVersion_NoSymlink`: an application
directory without entries. -/
def fsNoCurrent : FS :=
  [(["tmp"], some (.dir 0o755)), (["tmp", "testapp"], some (.dir 0o755))]

/-- A user bin directory that holds a regular file `tool`. -/
def fsUserTool : FS :=
  [(["home"], some (.dir 0o755)), (["home", ".local"], some (.dir 0o755)),
   (["home", ".local", "bin"], some (.dir 0o755)),
   (["home", ".local", "bin", "tool"], some (.file [1, 2, 3] 0o755))]

/-- A store with a current link: version `1.0` of `app` is selected; a file
`tool` and a directory `dist` with `bin/t` wait to be installed. -/
def fsCurrentLink : FS :=
  [(["r"], some (.dir 0o755)), (["r", "app"], some (.dir 0o755)),
   (["r", "app", "1.0"], some (.dir 0o755)),
   (["r", "app", "current"], some (.link ["1.0"])),
   (["home"], some (.dir 0o755)),
   (["tmp"], some (.dir 0o755)), (["tmp", "tool"], some (.file [7] 0o644)),
   (["tmp", "dist"], some (.dir 0o755)), (["tmp", "dist", "bin"], some (.dir 0o755)),
   (["tmp", "dist", "bin", "t"], some (.file [7] 0o755))]

/-- A source directory `dist` in which `bin` is a regular file, next to an
empty home directory. -/
def fsBinFile : FS :=
  [(["home"], some (.dir 0o755)), (["tmp"], some (.dir 0o755)),
   (["tmp", "dist"], some (.dir 0o755)), (["tmp", "dist", "bin"], some (.file [1] 0o644))]

/-- A home directory whose `.local` is used as data root, and a file named
`current` waiting to be installed. -/
def fsLocalRoot : FS :=
  [(["home"], some (.dir 0o755)), (["home", ".local"], some (.dir 0o755)),
   (["tmp"], some (.dir 0o755)), (["tmp", "current"], some (.file [7] 0o644))]

/-- A store in which `bin` of version `2.0` is a link that leads back through
`current`; version `1.0` is selected, and a directory `dist` with `bin/t`
waits to be installed. -/
def fsBinLink : FS :=
  [(["r"], some (.dir 0o755)), (["r", "app"], some (.dir 0o755)),
   (["r", "app", "1.0"], some (.dir 0o755)),
   (["r", "app", "1.0", "realbin"], some (.dir 0o755)),
   (["r", "app", "2.0"], some (.dir 0o755)),
   (["r", "app", "2.0", "realbin"], some (.dir 0o755)),
   (["r", "app", "2.0", "bin"], some (.link ["..", "current", "realbin"])),
   (["r", "app", "current"], some (.link ["1.0"])),
   (["home"], some (.dir 0o755)),
   (["tmp"], some (.dir 0o755)),
   (["tmp", "dist"], some (.dir 0o755)), (["tmp", "dist", "bin"], some (.dir 0o755)),
   (["tmp", "dist", "bin", "t"], some (.file [7] 0o755))]

/-- A home directory used as data root, and a file `tool` waiting to be
installed. -/
def fsHomeRoot : FS :=
  [(["home"], some (.dir 0o755)), (["tmp"], some (.dir 0o755)),
   (["tmp", "tool"], some (.file [7] 0o644))]

/-- A store with version `1.0` of `app` installed: the directory `bin` with
one file `t`. -/
def fsInstalled : FS :=
  [(["home"], some (.dir 0o755)), (["r"], some (.dir 0o755)),
   (["r", "app"], some (.dir 0o755)), (["r", "app", "1.0"], some (.dir 0o755)),
   (["r", "app", "1.0", "bin"], some (.dir 0o755)),
   (["r", "app", "1.0", "bin", "t"], some (.file [7] 0o755))]

/-- A store in which the version directory `1.0` already holds a link `a`
to its sibling `b`; the source tree `/tmp/dist` has the files `a` and `b`. -/
def fsDestLink : FS :=
  [(["home"], some (.dir 0o755)), (["r"], some (.dir 0o755)),
   (["r", "app"], some (.dir 0o755)), (["r", "app", "1.0"], some (.dir 0o755)),
   (["r", "app", "1.0", "a"], some (.link ["b"])),
   (["tmp"], some (.dir 0o755)), (["tmp", "dist"], some (.dir 0o755)),
   (["tmp", "dist", "bin"], some (.dir 0o755)),
   (["tmp", "dist", "a"], some (.file [1] 0o644)),
   (["tmp", "dist", "b"], some (.file [2] 0o644))]

/-- A store in which `app` holds version `1.0` and a directory named
`current`; a file `tool` and a directory `dist` with `bin/t` wait to be
installed. -/
def fsReserved : FS :=
  [(["r"], some (.dir 0o755)), (["r", "app"], some (.dir 0o755)),
   (["r", "app", "1.0"], some (.dir 0o755)),
   (["r", "app", "current"], some (.dir 0o755)),
   (["home"], some (.dir 0o755)),
   (["tmp"], some (.dir 0o755)), (["tmp", "tool"], some (.file [7] 0o644)),
   (["tmp", "dist"], some (.dir 0o755)), (["tmp", "dist", "bin"], some (.dir 0o755)),
   (["tmp", "dist", "bin", "t"], some (.file [7] 0o755))]

/-- A store in which `app` holds version `1.0` and no entry named `current`;
a file `tool` and a directory `dist` with `bin/t` wait to be installed. -/
def fsNoLink : FS :=
  [(["r"], some (.dir 0o755)), (["r", "app"], some (.dir 0o755)),
   (["r", "app", "1.0"], some (.dir 0o755)),
   (["home"], some (.dir 0o755)),
   (["tmp"], some (.dir 0o755)), (["tmp", "tool"], some (.file [7] 0o644)),
   (["tmp", "dist"], some (.dir 0o755)), (["tmp", "dist", "bin"], some (.dir 0o755)),
   (["tmp", "dist", "bin", "t"], some (.file [7] 0o755))]

/-! ## The data root -/

/-- The part of the process environment that `getBaseDir` reads.  A string is
given by its pieces between separators, so the empty string is the single empty
piece and an absolute path starts with the empty piece.  `lavRoot` and
`xdgDataHome` are the values `os.Getenv` returns, empty for an unset variable;
`userHomeDir` is the result of `os.UserHomeDir`, `none` when it fails. -/
structure Env where
  lavRoot : List String
  xdgDataHome : List String
  userHomeDir : Option (List String)

/-- The empty string, as a list of pieces. -/
def isEmptyString (s : List String) : Prop := s = [] ∨ s = [""]

instance (s : List String) : Decidable (isEmptyString s) := by
  unfold isEmptyString; infer_instance

/-- `filepath.Join(first, elems...)` on strings given by their pieces, where
`elems` are separator-free and not empty.  An empty `first` is skipped;
otherwise the strings are joined by separators and the result is cleaned,
rooted exactly when `first` starts with a separator. -/
def joinPieces (first : List String) (elems : List String) : List String :=
  if isEmptyString first then joinRel elems
  else if first.head? = some "" then
    match join first elems with
    | [] => ["", ""]
    | comps => "" :: comps
  else joinRel (first ++ elems)

/-- `getBaseDir` of `main.go`. -/
def getBaseDir (env : Env) : Except Err (List String) :=
  if ¬ isEmptyString env.lavRoot then .ok env.lavRoot
  else if ¬ isEmptyString env.xdgDataHome then .ok (joinPieces env.xdgDataHome ["lav"])
  else
    match env.userHomeDir with
    | none => .error .home
    | some home => .ok (joinPieces home [".local", "share", "lav"])

/-- An environment with only `XDG_DATA_HOME` set, to a path that is not clean. -/
def envXdg : Env :=
  Env.mk [""] ["", "data", "", "x", "..", ""] none

/-! ## The interactive selector (selector.go) -/

/-- The model of the version selector.  The cursor is a Go `int`; the two
arithmetic steps of `Update` are guarded and stay far from the ends of the
machine range, so it is an integer here. -/
structure versionSelectModel where
  app : String
  versions : List String
  cursor : Int
  current : String
  selected : String
  cancelled : Bool
  deriving DecidableEq, Repr

/-- A message delivered to `Update`: a key press, given by the string
`msg.String()` returns for it, or a message of any other type. -/
inductive Msg where
  | key (s : String)
  | other
  deriving DecidableEq, Repr

/-- The command returned next to the model: `nil` or `tea.Quit`. -/
inductive Cmd where
  | nil
  | quit
  deriving DecidableEq, Repr

/-- The element `versions[i]` of a slice; `none` where Go panics for an index
out of range. -/
def index (versions : List String) (i : Int) : Option String :=
  if i < 0 then none else versions.get? i.toNat

/-- `Update` of `selector.go`.  The result is `none` where the index
expression of the `enter` case panics. -/
def Update (m : versionSelectModel) (msg : Msg) : Option (versionSelectModel × Cmd) :=
  match msg with
  | .key s =>
    if s = "up" ∨ s = "k" then
      if m.cursor > 0 then some ({ m with cursor := m.cursor - 1 }, .nil)
      else some (m, .nil)
    else if s = "down" ∨ s = "j" then
      if m.cursor < (m.versions.length : Int) - 1 then
        some ({ m with cursor := m.cursor + 1 }, .nil)
      else some (m, .nil)
    else if s = "enter" then
      match index m.versions m.cursor with
      | some v => some ({ m with selected := v }, .quit)
      | none => none
    else if s = "esc" ∨ s = "q" ∨ s = "ctrl+c" then
      some ({ m with cancelled := true }, .quit)
    else some (m, .nil)
  | .other => some (m, .nil)

/-- The model of the test `TestVersionSelectModel_Navigation`. -/
def navModel (cursor : Int) : versionSelectModel :=
  versionSelectModel.mk "test" ["1.0.0", "2.0.0", "3.0.0"] cursor "" "" false

/-! ## Order and sorting -/

theorem strLe_total (a b : String) : strLe a b ∨ strLe b a := by
  unfold strLe; exact le_total a.data b.data

theorem strLe_trans {a b c : String} (h1 : strLe a b) (h2 : strLe b c) : strLe a c := by
  unfold strLe at *; exact le_trans h1 h2

theorem strLt_of_le_of_ne {a b : String} (h : strLe a b) (hne : a ≠ b) : strLt a b := by
  unfold strLe at h; unfold strLt
  exact lt_of_le_of_ne h (fun hd => hne (String.ext hd))

theorem sortStrings_sorted (l : List String) : (sortStrings l).Sorted strLe :=
  List.sorted_insertionSort strLe l

theorem sortStrings_perm (l : List String) : (sortStrings l).Perm l :=
  List.perm_insertionSort strLe l

theorem mem_sortStrings {l : List String} {a : String} : a ∈ sortStrings l ↔ a ∈ l :=
  (sortStrings_perm l).mem_iff

theorem sortStrings_nodup {l : List String} (h : l.Nodup) : (sortStrings l).Nodup :=
  (sortStrings_perm l).nodup_iff.mpr h

/-- Sorting a duplicate-free list gives a strictly increasing list. -/
theorem sortStrings_strict {l : List String} (h : l.Nodup) : (sortStrings l).Sorted strLt := by
  have hs := sortStrings_sorted l
  have hn := sortStrings_nodup h
  exact (List.Pairwise.and hs hn).imp (fun hab => strLt_of_le_of_ne hab.1 hab.2)

/-! ## Directory listings -/

theorem children_nodup (fs : FS) (d : Path) : (fs.children d).Nodup := by
  unfold FS.children
  exact (List.nodup_dedup _).filter _

/-- What a successful `readDir` returns. -/
theorem readDir_ok {fs : FS} {p : Path} {entries : List DirEntry}
    (h : readDir fs p = .ok entries) :
    ∃ q m, resolve fs true p = .ok q ∧ fs.get q = some (.dir m) ∧
      entries = (sortStrings (fs.children q)).map (entryOf fs q) := by
  unfold readDir at h
  split at h
  · cases h
  · rename_i q hq
    split at h
    · cases h
    · rename_i m hm
      injection h with h
      exact ⟨q, m, hq, hm, h.symm⟩
    · cases h

theorem map_name_entryOf (fs : FS) (q : Path) (l : List String) :
    (l.map (entryOf fs q)).map (fun e => e.name) = l := by
  induction l with
  | nil => rfl
  | cons a l ih => simp [entryOf] at ih ⊢; exact ih

/-- The names `readDir` reports are pairwise distinct. -/
theorem readDir_nodup {fs : FS} {p : Path} {entries : List DirEntry}
    (h : readDir fs p = .ok entries) : (entries.map fun e => e.name).Nodup := by
  obtain ⟨q, m, _, _, he⟩ := readDir_ok h
  subst he
  rw [map_name_entryOf]
  exact sortStrings_nodup (children_nodup fs q)

theorem dirNames_nodup {entries : List DirEntry} (h : (entries.map fun e => e.name).Nodup) :
    (dirNames entries).Nodup := by
  unfold dirNames
  exact h.sublist ((List.filter_sublist entries).map _)

theorem versionNames_nodup {entries : List DirEntry}
    (h : (entries.map fun e => e.name).Nodup) : (versionNames entries).Nodup := by
  unfold versionNames
  exact h.sublist ((List.filter_sublist entries).map _)

theorem current_not_mem_versionNames (entries : List DirEntry) :
    "current" ∉ versionNames entries := by
  unfold versionNames
  intro h
  obtain ⟨e, he, hn⟩ := List.mem_map.mp h
  have := (List.mem_filter.mp he).2
  simp [hn] at this

/-! ## Claims about the listings -/

/-- C8: the sequences returned by `listVersions` and by `listApps` are strictly
increasing in the order of `sort.Strings`: ascending, and free of
duplicates. -/
theorem listings_strictly_increasing (fs : FS) (baseDir : Path) (app : String) :
    (∀ versions, listVersions fs baseDir app = .ok versions →
      versions.Sorted strLt ∧ versions.Sorted strLe ∧ versions.Nodup) ∧
    (∀ apps, listApps fs baseDir = .ok apps →
      apps.Sorted strLt ∧ apps.Sorted strLe ∧ apps.Nodup) := by
  constructor
  · intro versions h
    unfold listVersions at h
    simp only at h
    split at h
    · cases h
    · rename_i entries he
      injection h with h
      subst h
      have hn := versionNames_nodup (readDir_nodup he)
      exact ⟨sortStrings_strict hn, sortStrings_sorted _, sortStrings_nodup hn⟩
  · intro apps h
    unfold listApps at h
    split at h
    · cases h
    · rename_i entries he
      injection h with h
      subst h
      have hn := dirNames_nodup (readDir_nodup he)
      exact ⟨sortStrings_strict hn, sortStrings_sorted _, sortStrings_nodup hn⟩

/-- Witness of C8 on the store of the test `TestListVersions`. -/
theorem listings_strictly_increasing_witness :
    (["1.0.0", "1.1.0", "2.0.0"].Sorted strLt ∧ ["1.0.0", "1.1.0", "2.0.0"].Sorted strLe ∧
      ["1.0.0", "1.1.0", "2.0.0"].Nodup) ∧
    (["testapp"].Sorted strLt ∧ ["testapp"].Sorted strLe ∧ ["testapp"].Nodup) :=
  ⟨(listings_strictly_increasing fsVersions ["tmp"] "testapp").1 _ (by decide),
   (listings_strictly_increasing fsVersions ["tmp"] "testapp").2 _ (by decide)⟩

/-- C9: whatever the application directory holds, the result of `listVersions`
does not contain the string `current`. -/
theorem listVersions_excludes_current (fs : FS) (baseDir : Path) (app : String)
    (versions : List String) (h : listVersions fs baseDir app = .ok versions) :
    "current" ∉ versions := by
  unfold listVersions at h
  simp only at h
  split at h
  · cases h
  · rename_i entries he
    injection h with h
    subst h
    intro hm
    exact current_not_mem_versionNames entries (mem_sortStrings.mp hm)

/-- Witness of C9: an application directory that holds a directory named
`current`. -/
theorem listVersions_excludes_current_witness :
    listVersions fsCurrentDir ["tmp"] "testapp" = .ok ["1.0.0"] ∧ "current" ∉ ["1.0.0"] :=
  ⟨by decide, listVersions_excludes_current fsCurrentDir ["tmp"] "testapp" _ (by decide)⟩

/-! ## Paths -/

theorem isName_current : isName "current" := by decide

theorem isName_bin : isName "bin" := by decide

theorem cleanStep_name {acc : Path} {c : String} (h : isName c) : cleanStep acc c = acc ++ [c] := by
  obtain ⟨h1, h2, h3, h4⟩ := h
  simp [cleanStep, h1, h2, h3, h4]

theorem foldl_cleanStep_names (l : List String) (acc : Path) (h : ∀ c ∈ l, isName c) :
    l.foldl cleanStep acc = acc ++ l := by
  induction l generalizing acc with
  | nil => simp
  | cons c l ih =>
    rw [List.foldl_cons, cleanStep_name (h c (List.mem_cons_self c l)),
      ih _ (fun x hx => h x (List.mem_cons_of_mem c hx))]
    simp

theorem cleanStep_valid {acc : Path} (c : String) (h : ∀ x ∈ acc, isName x) :
    ∀ x ∈ cleanStep acc c, isName x := by
  unfold cleanStep
  split
  · exact h
  · split
    · exact fun x hx => h x (List.dropLast_subset acc hx)
    · rename_i h1 h2
      intro x hx
      rcases List.mem_append.mp hx with hx | hx
      · exact h x hx
      · have hxc : x = c := by simpa using hx
        subst hxc
        refine ⟨?_, ?_, h2, ?_⟩ <;> intro he <;> exact h1 (by simp [he])

theorem foldl_cleanStep_valid (l : List String) (acc : Path) (h : ∀ x ∈ acc, isName x) :
    ∀ x ∈ l.foldl cleanStep acc, isName x := by
  induction l generalizing acc with
  | nil => simpa using h
  | cons c l ih => exact ih _ (cleanStep_valid c h)

/-- The components of a joined path are proper names. -/
theorem join_valid (b : Path) (e : List String) : ∀ x ∈ join b e, isName x :=
  foldl_cleanStep_valid _ [] (by simp)

/-- Joining a proper name appends it. -/
theorem join_snoc (b : Path) (e : List String) {c : String} (h : isName c) :
    join b (e ++ [c]) = join b e ++ [c] := by
  unfold join
  rw [← List.append_assoc, List.foldl_append]
  simp [cleanStep_name h]

theorem join_of_valid {b : Path} (hb : ∀ x ∈ b, isName x) {e : List String}
    (he : ∀ x ∈ e, isName x) : join b e = b ++ e := by
  unfold join
  rw [foldl_cleanStep_names]
  · simp
  · intro c hc
    rcases List.mem_append.mp hc with hc | hc
    · exact hb c hc
    · exact he c hc

/-- Joining onto a joined path is joining once. -/
theorem join_join (b : Path) (e e2 : List String) : join (join b e) e2 = join b (e ++ e2) := by
  have h1 : join (join b e) e2 = e2.foldl cleanStep (join b e) := by
    show (join b e ++ e2).foldl cleanStep [] = _
    rw [List.foldl_append, foldl_cleanStep_names _ _ (join_valid b e)]
    simp
  rw [h1]
  unfold join
  simp [List.foldl_append]

/-! ## Look-up -/

theorem get_set_eq (fs : FS) {q : Path} (v : Option Node) (hq : q ≠ []) :
    (fs.set q v).get q = v := by
  simp [FS.get, FS.set, assoc, hq]

theorem get_set_ne (fs : FS) {p q : Path} (v : Option Node) (h : p ≠ q) :
    (fs.set q v).get p = fs.get p := by
  unfold FS.get FS.set
  by_cases hp : p = []
  · simp [hp]
  · simp [hp, assoc, Ne.symm h]

theorem get_snoc_set (fs : FS) (q : Path) (c : String) (v : Option Node) :
    (fs.set (q ++ [c]) v).get (q ++ [c]) = v :=
  get_set_eq fs v (by simp)

/-! ## Path resolution -/

theorem walk_zero (fs : FS) (f : Bool) :
    walk fs f 0 = walkAux fs f (fun _ _ => .error .ELOOP) := rfl

theorem walk_succ (fs : FS) (f : Bool) (n : Nat) :
    walk fs f (n + 1) = walkAux fs f (walk fs f n) := rfl

theorem walkAux_nil (fs : FS) (f : Bool) (L : Path → List String → Except Errno Path)
    (cur : Path) : walkAux fs f L cur [] = .ok cur := by
  rw [walkAux]

theorem walkAux_cons (fs : FS) (f : Bool) (L : Path → List String → Except Errno Path)
    (cur : Path) (c : String) (rest : List String) :
    walkAux fs f L cur (c :: rest) =
      if c = "" ∨ c = "." then walkAux fs f L cur rest
      else if c = ".." then walkAux fs f L cur.dropLast rest
      else match fs.get (cur ++ [c]) with
        | none => if rest = [] then .ok (cur ++ [c]) else .error .ENOENT
        | some (.dir _) => walkAux fs f L (cur ++ [c]) rest
        | some (.file _ _) => if rest = [] then .ok (cur ++ [c]) else .error .ENOTDIR
        | some (.link t) =>
          if rest = [] ∧ f = false then .ok (cur ++ [c])
          else L (if t.head? = some "" then [] else cur) (t ++ rest) := by
  rw [walkAux]

/-- Resolution only depends on the nodes of the filesystem. -/
theorem walkAux_congr {fs fs2 : FS} (hget : ∀ p, fs.get p = fs2.get p) (f : Bool)
    {L1 L2 : Path → List String → Except Errno Path} (hL : ∀ b c, L1 b c = L2 b c) :
    ∀ (comps : List String) (cur : Path),
      walkAux fs f L1 cur comps = walkAux fs2 f L2 cur comps := by
  intro comps
  induction comps with
  | nil => intro cur; rw [walkAux_nil, walkAux_nil]
  | cons c rest ih =>
    intro cur
    have hLL : L1 = L2 := funext fun b => funext fun c => hL b c
    rw [walkAux_cons, walkAux_cons, ih, ih, ih, hget, hLL]

theorem walk_congr {fs fs2 : FS} (hget : ∀ p, fs.get p = fs2.get p) (f : Bool) (n : Nat)
    (cur : Path) (comps : List String) : walk fs f n cur comps = walk fs2 f n cur comps := by
  induction n generalizing cur comps with
  | zero => rw [walk_zero, walk_zero]; exact walkAux_congr hget f (fun _ _ => rfl) comps cur
  | succ n ih => rw [walk_succ, walk_succ]; exact walkAux_congr hget f (fun b c => ih b c) comps cur

theorem ext_refl (fs : FS) : Ext fs fs := by
  intro p n h
  refine ⟨n, h, ?_⟩
  cases n <;> simp [sameShape]

theorem sameShape_trans {a b c : Node} (h1 : sameShape a b) (h2 : sameShape b c) :
    sameShape a c := by
  cases a <;> cases b <;> cases c <;> simp_all [sameShape]

theorem ext_trans {fs1 fs2 fs3 : FS} (h1 : Ext fs1 fs2) (h2 : Ext fs2 fs3) : Ext fs1 fs3 := by
  intro p n h
  obtain ⟨n2, hn2, hs⟩ := h1 p n h
  obtain ⟨n3, hn3, hs2⟩ := h2 p n2 hn2
  exact ⟨n3, hn3, sameShape_trans hs hs2⟩

/-- Binding a path that held no node gives an extension. -/
theorem ext_set_none {fs : FS} {q : Path} (h : fs.get q = none) (v : Option Node) :
    Ext fs (fs.set q v) := by
  intro p n hp
  have hne : p ≠ q := by rintro rfl; rw [h] at hp; cases hp
  rw [get_set_ne fs v hne]
  exact ext_refl fs p n hp

/-- Replacing a node by one of the same kind gives an extension. -/
theorem ext_set_same {fs : FS} {q : Path} {n n2 : Node} (h : fs.get q = some n)
    (hs : sameShape n n2) : Ext fs (fs.set q (some n2)) := by
  intro p m hp
  by_cases hpq : p = q
  · subst hpq
    by_cases hnil : p = []
    · subst hnil
      refine ⟨.dir 0o755, by simp [FS.get], ?_⟩
      have : fs.get [] = some (.dir 0o755) := by simp [FS.get]
      rw [this] at hp
      cases hp
      simp [sameShape]
    · rw [get_set_eq fs _ hnil]
      rw [h] at hp
      cases hp
      exact ⟨n2, rfl, hs⟩
  · rw [get_set_ne fs _ hpq]
    exact ext_refl fs p m hp

/-- One level of `walk_ext`. -/
theorem walkAux_ext {fs fs2 : FS} (h : Ext fs fs2) (f : Bool)
    {L1 L2 : Path → List String → Except Errno Path}
    (hL : ∀ b comps q, L1 b comps = .ok q →
      (f = false ∨ ∀ t, fs2.get q ≠ some (.link t)) → L2 b comps = .ok q) :
    ∀ (comps : List String) (cur q : Path), walkAux fs f L1 cur comps = .ok q →
      (f = false ∨ ∀ t, fs2.get q ≠ some (.link t)) → walkAux fs2 f L2 cur comps = .ok q := by
  intro comps
  induction comps with
  | nil => intro cur q hw _; rw [walkAux_nil] at hw ⊢; exact hw
  | cons c rest ih =>
    intro cur q hw hq
    rw [walkAux_cons] at hw ⊢
    by_cases h1 : c = "" ∨ c = "."
    · rw [if_pos h1] at hw ⊢; exact ih _ _ hw hq
    · rw [if_neg h1] at hw ⊢
      by_cases h2 : c = ".."
      · rw [if_pos h2] at hw ⊢; exact ih _ _ hw hq
      · rw [if_neg h2] at hw ⊢
        cases hg : fs.get (cur ++ [c]) with
        | none =>
          rw [hg] at hw
          simp only at hw
          by_cases hr : rest = []
          · subst hr
            rw [if_pos rfl] at hw
            injection hw with hw
            subst hw
            cases hg2 : fs2.get (cur ++ [c]) with
            | none => simp
            | some n2 =>
              cases n2 with
              | file d m => simp
              | dir m => simp [walkAux_nil]
              | link t =>
                rcases hq with hq | hq
                · simp [hq]
                · exact absurd hg2 (hq t)
          · rw [if_neg hr] at hw; cases hw
        | some n =>
          obtain ⟨n2, hg2, hs⟩ := h _ n hg
          rw [hg] at hw
          rw [hg2]
          cases n with
          | file d m =>
            cases n2 with
            | file d2 m2 => simpa using hw
            | dir _ => simp [sameShape] at hs
            | link _ => simp [sameShape] at hs
          | dir m =>
            cases n2 with
            | dir m2 => exact ih _ _ hw hq
            | file _ _ => simp [sameShape] at hs
            | link _ => simp [sameShape] at hs
          | link t =>
            cases n2 with
            | link t2 =>
              have ht : t = t2 := by simpa [sameShape] using hs
              subst ht
              simp only at hw ⊢
              by_cases hc : rest = [] ∧ f = false
              · rw [if_pos hc] at hw ⊢; exact hw
              · rw [if_neg hc] at hw ⊢; exact hL _ _ _ hw hq
            | file _ _ => simp [sameShape] at hs
            | dir _ => simp [sameShape] at hs

/-- A successful resolution is still valid in an extension of the
filesystem, unless its final entry has become a link that is followed. -/
theorem walk_ext {fs fs2 : FS} (h : Ext fs fs2) (f : Bool) (n : Nat) :
    ∀ (cur : Path) (comps : List String) (q : Path), walk fs f n cur comps = .ok q →
      (f = false ∨ ∀ t, fs2.get q ≠ some (.link t)) → walk fs2 f n cur comps = .ok q := by
  induction n with
  | zero =>
    intro cur comps q hw hq
    rw [walk_zero] at hw ⊢
    exact walkAux_ext h f (fun _ _ _ hl _ => by cases hl) comps cur q hw hq
  | succ n ih =>
    intro cur comps q hw hq
    rw [walk_succ] at hw ⊢
    exact walkAux_ext h f (fun b c q hl hq2 => ih b c q hl hq2) comps cur q hw hq

/-- A final proper name is resolved without following it. -/
theorem walkAux_name_nofollow (fs : FS) (L : Path → List String → Except Errno Path)
    (cur : Path) {c : String} (hc : isName c) :
    walkAux fs false L cur [c] = .ok (cur ++ [c]) := by
  obtain ⟨h1, h2, h3, _⟩ := hc
  rw [walkAux_cons, if_neg (by simp [h1, h2]), if_neg h3]
  cases fs.get (cur ++ [c]) with
  | none => simp
  | some n => cases n <;> simp [walkAux_nil]

theorem walk_name_nofollow (fs : FS) (n : Nat) (cur : Path) {c : String} (hc : isName c) :
    walk fs false n cur [c] = .ok (cur ++ [c]) := by
  cases n with
  | zero => rw [walk_zero]; exact walkAux_name_nofollow fs _ cur hc
  | succ m => rw [walk_succ]; exact walkAux_name_nofollow fs _ cur hc

/-- Prefix decomposition: once `p` resolves to the directory `q`, resolving
`p` followed by more components continues from `q`. -/
theorem walk_append_dir (fs : FS) (n : Nat) :
    ∀ (cur : Path) (p : List String) (q : Path), walkDir fs n cur p = .ok q →
      ∃ k, k ≤ n ∧ ∀ (f : Bool) (rest : List String), rest ≠ [] →
        walk fs f n cur (p ++ rest) = walk fs f k q rest := by
  induction n with
  | zero =>
    intro cur p
    induction p generalizing cur with
    | nil =>
      intro q h
      simp only [walkDir, List.nil_append, walk_zero, walkAux_cons, walkAux_nil] at h
      simp at h
      subst h
      exact ⟨0, le_refl _, fun f rest _ => rfl⟩
    | cons x p ih =>
      intro q h
      simp only [walkDir, List.cons_append, walk_zero, walkAux_cons] at h
      have key : ∀ cur2, walkAux fs false (fun _ _ => .error .ELOOP) cur2 (p ++ ["."]) = .ok q →
          ∃ k, k ≤ 0 ∧ ∀ (f : Bool) (rest : List String), rest ≠ [] →
            walkAux fs f (fun _ _ => .error .ELOOP) cur2 (p ++ rest) = walk fs f k q rest := by
        intro cur2 h2
        obtain ⟨k, hk, hkk⟩ := ih cur2 q (by simpa [walkDir, walk_zero] using h2)
        exact ⟨k, hk, fun f rest hr => by simpa [walk_zero] using hkk f rest hr⟩
      by_cases h1 : x = "" ∨ x = "."
      · rw [if_pos h1] at h
        obtain ⟨k, hk, hkk⟩ := key _ h
        refine ⟨k, hk, fun f rest hr => ?_⟩
        rw [List.cons_append, walk_zero, walkAux_cons, if_pos h1]
        exact hkk f rest hr
      · rw [if_neg h1] at h
        by_cases h2 : x = ".."
        · rw [if_pos h2] at h
          obtain ⟨k, hk, hkk⟩ := key _ h
          refine ⟨k, hk, fun f rest hr => ?_⟩
          rw [List.cons_append, walk_zero, walkAux_cons, if_neg h1, if_pos h2]
          exact hkk f rest hr
        · rw [if_neg h2] at h
          cases hg : fs.get (cur ++ [x]) with
          | none => rw [hg] at h; simp at h
          | some nd =>
            rw [hg] at h
            cases nd with
            | file d m => simp at h
            | link t => simp at h
            | dir m =>
              obtain ⟨k, hk, hkk⟩ := key _ h
              refine ⟨k, hk, fun f rest hr => ?_⟩
              rw [List.cons_append, walk_zero, walkAux_cons, if_neg h1, if_neg h2, hg]
              exact hkk f rest hr
  | succ n ihn =>
    intro cur p
    induction p generalizing cur with
    | nil =>
      intro q h
      simp only [walkDir, List.nil_append, walk_succ, walkAux_cons, walkAux_nil] at h
      simp at h
      subst h
      exact ⟨n + 1, le_refl _, fun f rest _ => rfl⟩
    | cons x p ih =>
      intro q h
      simp only [walkDir, List.cons_append, walk_succ, walkAux_cons] at h
      have key : ∀ cur2, walkAux fs false (walk fs false n) cur2 (p ++ ["."]) = .ok q →
          ∃ k, k ≤ n + 1 ∧ ∀ (f : Bool) (rest : List String), rest ≠ [] →
            walkAux fs f (walk fs f n) cur2 (p ++ rest) = walk fs f k q rest := by
        intro cur2 h2
        obtain ⟨k, hk, hkk⟩ := ih cur2 q (by simpa [walkDir, walk_succ] using h2)
        exact ⟨k, hk, fun f rest hr => by simpa [walk_succ] using hkk f rest hr⟩
      by_cases h1 : x = "" ∨ x = "."
      · rw [if_pos h1] at h
        obtain ⟨k, hk, hkk⟩ := key _ h
        refine ⟨k, hk, fun f rest hr => ?_⟩
        rw [List.cons_append, walk_succ, walkAux_cons, if_pos h1]
        exact hkk f rest hr
      · rw [if_neg h1] at h
        by_cases h2 : x = ".."
        · rw [if_pos h2] at h
          obtain ⟨k, hk, hkk⟩ := key _ h
          refine ⟨k, hk, fun f rest hr => ?_⟩
          rw [List.cons_append, walk_succ, walkAux_cons, if_neg h1, if_pos h2]
          exact hkk f rest hr
        · rw [if_neg h2] at h
          cases hg : fs.get (cur ++ [x]) with
          | none => rw [hg] at h; simp at h
          | some nd =>
            rw [hg] at h
            cases nd with
            | file d m => simp at h
            | dir m =>
              obtain ⟨k, hk, hkk⟩ := key _ h
              refine ⟨k, hk, fun f rest hr => ?_⟩
              rw [List.cons_append, walk_succ, walkAux_cons, if_neg h1, if_neg h2, hg]
              exact hkk f rest hr
            | link t =>
              simp only [List.append_eq_nil, List.cons_ne_self, and_false, false_and,
                if_false] at h
              rw [← List.append_assoc] at h
              obtain ⟨k, hk, hkk⟩ := ihn _ (t ++ p) q (by simpa [walkDir] using h)
              refine ⟨k, Nat.le_succ_of_le hk, fun f rest hr => ?_⟩
              rw [List.cons_append, walk_succ, walkAux_cons, if_neg h1, if_neg h2, hg]
              simp only [List.append_eq_nil, hr, and_false, false_and, if_false]
              rw [← List.append_assoc]
              exact hkk f rest hr

theorem walkAux_append_error (fs : FS) (f : Bool) {rest : List String} (hr : rest ≠ [])
    {L0 Lf : Path → List String → Except Errno Path}
    (hL : ∀ b comps e, L0 b (comps ++ ["."]) = .error e → Lf b (comps ++ rest) = .error e) :
    ∀ (p : List String) (cur : Path) (e : Errno),
      walkAux fs false L0 cur (p ++ ["."]) = .error e →
      walkAux fs f Lf cur (p ++ rest) = .error e := by
  intro p
  induction p with
  | nil =>
    intro cur e h
    simp [walkAux_cons, walkAux_nil] at h
  | cons x p ih =>
    intro cur e h
    rw [List.cons_append, walkAux_cons] at h ⊢
    by_cases h1 : x = "" ∨ x = "."
    · rw [if_pos h1] at h ⊢; exact ih _ _ h
    · rw [if_neg h1] at h ⊢
      by_cases h2 : x = ".."
      · rw [if_pos h2] at h ⊢; exact ih _ _ h
      · rw [if_neg h2] at h ⊢
        cases hg : fs.get (cur ++ [x]) with
        | none => rw [hg] at h; simpa [hr] using h
        | some nd =>
          rw [hg] at h
          cases nd with
          | file d m => simpa [hr] using h
          | dir m => exact ih _ _ h
          | link t =>
            simp only [List.append_eq_nil, List.cons_ne_self, and_false, false_and,
              if_false] at h
            simp only [List.append_eq_nil, hr, and_false, false_and, if_false]
            rw [← List.append_assoc] at h ⊢
            exact hL _ _ _ h

/-- When `p` does not resolve as a directory, nothing below it resolves. -/
theorem walk_append_error (fs : FS) (f : Bool) {rest : List String} (hr : rest ≠ []) (n : Nat) :
    ∀ (cur : Path) (p : List String) (e : Errno), walkDir fs n cur p = .error e →
      walk fs f n cur (p ++ rest) = .error e := by
  induction n with
  | zero =>
    intro cur p e h
    rw [walkDir, walk_zero] at h
    rw [walk_zero]
    exact walkAux_append_error fs f hr (fun _ _ _ hl => by simpa using hl) p cur e h
  | succ n ih =>
    intro cur p e h
    rw [walkDir, walk_succ] at h
    rw [walk_succ]
    exact walkAux_append_error fs f hr (fun b c e hl => ih b c e hl) p cur e h

theorem walkAux_dir_of_ok (fs : FS) (f : Bool)
    {L0 Lf : Path → List String → Except Errno Path}
    (hL : ∀ b comps q, Lf b comps = .ok q → (∃ m, fs.get q = some (.dir m)) →
      L0 b (comps ++ ["."]) = .ok q) :
    ∀ (p : List String) (cur q : Path), walkAux fs f Lf cur p = .ok q →
      (∃ m, fs.get q = some (.dir m)) → walkAux fs false L0 cur (p ++ ["."]) = .ok q := by
  intro p
  induction p with
  | nil =>
    intro cur q h _
    rw [walkAux_nil] at h
    simpa [walkAux_cons, walkAux_nil] using h
  | cons x p ih =>
    intro cur q h hd
    rw [walkAux_cons] at h
    rw [List.cons_append, walkAux_cons]
    by_cases h1 : x = "" ∨ x = "."
    · rw [if_pos h1] at h ⊢; exact ih _ _ h hd
    · rw [if_neg h1] at h ⊢
      by_cases h2 : x = ".."
      · rw [if_pos h2] at h ⊢; exact ih _ _ h hd
      · rw [if_neg h2] at h ⊢
        obtain ⟨m, hm⟩ := hd
        cases hg : fs.get (cur ++ [x]) with
        | none =>
          rw [hg] at h
          simp only at h
          split at h
          · injection h with h; subst h; rw [hg] at hm; cases hm
          · cases h
        | some nd =>
          rw [hg] at h
          cases nd with
          | file d m2 =>
            simp only at h
            split at h
            · injection h with h; subst h; rw [hg] at hm; cases hm
            · cases h
          | dir m2 => exact ih _ _ h ⟨m, hm⟩
          | link t =>
            simp only at h
            simp only [List.append_eq_nil, List.cons_ne_self, and_false, false_and, if_false]
            split at h
            · injection h with h; subst h; rw [hg] at hm; cases hm
            · rw [← List.append_assoc]
              exact hL _ _ _ h ⟨m, hm⟩

/-- A path that resolves to a directory resolves as a directory. -/
theorem walkDir_of_walk (fs : FS) (f : Bool) (n : Nat) :
    ∀ (cur : Path) (p : List String) (q : Path), walk fs f n cur p = .ok q →
      (∃ m, fs.get q = some (.dir m)) → walkDir fs n cur p = .ok q := by
  induction n with
  | zero =>
    intro cur p q h hd
    rw [walk_zero] at h
    rw [walkDir, walk_zero]
    exact walkAux_dir_of_ok fs f (fun _ _ _ hl _ => by cases hl) p cur q h hd
  | succ n ih =>
    intro cur p q h hd
    rw [walk_succ] at h
    rw [walkDir, walk_succ]
    exact walkAux_dir_of_ok fs f (fun b c q hl hd2 => ih b c q hl hd2) p cur q h hd

theorem walkAux_ok_of_dir (fs : FS) {L0 Lt : Path → List String → Except Errno Path}
    (hL : ∀ b comps q, L0 b (comps ++ ["."]) = .ok q → Lt b comps = .ok q) :
    ∀ (p : List String) (cur q : Path), walkAux fs false L0 cur (p ++ ["."]) = .ok q →
      walkAux fs true Lt cur p = .ok q := by
  intro p
  induction p with
  | nil =>
    intro cur q h
    rw [walkAux_nil]
    simpa [walkAux_cons, walkAux_nil] using h
  | cons x p ih =>
    intro cur q h
    rw [List.cons_append, walkAux_cons] at h
    rw [walkAux_cons]
    by_cases h1 : x = "" ∨ x = "."
    · rw [if_pos h1] at h ⊢; exact ih _ _ h
    · rw [if_neg h1] at h ⊢
      by_cases h2 : x = ".."
      · rw [if_pos h2] at h ⊢; exact ih _ _ h
      · rw [if_neg h2] at h ⊢
        cases hg : fs.get (cur ++ [x]) with
        | none => rw [hg] at h; simp at h
        | some nd =>
          rw [hg] at h
          cases nd with
          | file d m2 => simp at h
          | dir m2 => exact ih _ _ h
          | link t =>
            simp only [List.append_eq_nil, List.cons_ne_self, and_false, false_and,
              if_false] at h
            simp only [Bool.true_eq_false, and_false, if_false]
            rw [← List.append_assoc] at h
            exact hL _ _ _ h

/-- A path that resolves as a directory resolves, following links. -/
theorem walk_of_walkDir (fs : FS) (n : Nat) :
    ∀ (cur : Path) (p : List String) (q : Path), walkDir fs n cur p = .ok q →
      walk fs true n cur p = .ok q := by
  induction n with
  | zero =>
    intro cur p q h
    rw [walkDir, walk_zero] at h
    rw [walk_zero]
    exact walkAux_ok_of_dir fs (fun _ _ _ hl => by cases hl) p cur q h
  | succ n ih =>
    intro cur p q h
    rw [walkDir, walk_succ] at h
    rw [walk_succ]
    exact walkAux_ok_of_dir fs (fun b c q hl => ih b c q hl) p cur q h

theorem walkAux_false_to_true (fs : FS) {L1 L2 : Path → List String → Except Errno Path}
    (hL : ∀ b comps q, L1 b comps = .ok q → (∀ t, fs.get q ≠ some (.link t)) →
      L2 b comps = .ok q) :
    ∀ (p : List String) (cur q : Path), walkAux fs false L1 cur p = .ok q →
      (∀ t, fs.get q ≠ some (.link t)) → walkAux fs true L2 cur p = .ok q := by
  intro p
  induction p with
  | nil => intro cur q h _; rw [walkAux_nil] at h ⊢; exact h
  | cons x p ih =>
    intro cur q h hq
    rw [walkAux_cons] at h ⊢
    by_cases h1 : x = "" ∨ x = "."
    · rw [if_pos h1] at h ⊢; exact ih _ _ h hq
    · rw [if_neg h1] at h ⊢
      by_cases h2 : x = ".."
      · rw [if_pos h2] at h ⊢; exact ih _ _ h hq
      · rw [if_neg h2] at h ⊢
        cases hg : fs.get (cur ++ [x]) with
        | none => rw [hg] at h; exact h
        | some nd =>
          rw [hg] at h
          cases nd with
          | file d m2 => exact h
          | dir m2 => exact ih _ _ h hq
          | link t =>
            simp only at h ⊢
            simp only [Bool.true_eq_false, and_false, if_false]
            split at h
            · injection h with h; subst h; exact absurd hg (hq t)
            · exact hL _ _ _ h hq

/-- Without a link in final position the two modes of resolution agree. -/
theorem walk_false_to_true (fs : FS) (n : Nat) :
    ∀ (cur : Path) (p : List String) (q : Path), walk fs false n cur p = .ok q →
      (∀ t, fs.get q ≠ some (.link t)) → walk fs true n cur p = .ok q := by
  induction n with
  | zero =>
    intro cur p q h hq
    rw [walk_zero] at h ⊢
    exact walkAux_false_to_true fs (fun _ _ _ hl _ => by cases hl) p cur q h hq
  | succ n ih =>
    intro cur p q h hq
    rw [walk_succ] at h ⊢
    exact walkAux_false_to_true fs (fun b c q hl hq2 => ih b c q hl hq2) p cur q h hq

/-! ## Directory contents -/

theorem assoc_some_mem {fs : FS} {p : Path} {n : Node} (h : assoc fs p = some n) :
    ∃ b ∈ fs, b.1 = p := by
  induction fs with
  | nil => simp [assoc] at h
  | cons b fs ih =>
    obtain ⟨q, v⟩ := b
    by_cases hq : q = p
    · exact ⟨(q, v), List.mem_cons_self _ _, hq⟩
    · simp only [assoc, if_neg hq] at h
      obtain ⟨b, hb, hbp⟩ := ih h
      exact ⟨b, List.mem_cons_of_mem _ hb, hbp⟩

/-- The entries of a directory are the proper names bound below it. -/
theorem mem_children {fs : FS} {d : Path} {c : String} :
    c ∈ fs.children d ↔ isName c ∧ (fs.get (d ++ [c])).isSome = true := by
  unfold FS.children
  rw [List.mem_filter]
  constructor
  · rintro ⟨_, h⟩
    simpa using h
  · rintro ⟨hn, hs⟩
    refine ⟨?_, by simp [hn, hs]⟩
    rw [List.mem_dedup, List.mem_filterMap]
    obtain ⟨n, hget⟩ := Option.isSome_iff_exists.mp hs
    have hassoc : assoc fs (d ++ [c]) = some n := by
      simpa [FS.get] using hget
    obtain ⟨b, hb, hbp⟩ := assoc_some_mem hassoc
    exact ⟨b, hb, by simp [hbp]⟩

theorem entryOf_name (fs : FS) (q : Path) (n : String) : (entryOf fs q n).name = n := rfl

/-- What the entries reported by `readDir` are. -/
theorem mem_readDir {fs : FS} {p : Path} {entries : List DirEntry}
    (h : readDir fs p = .ok entries) :
    ∃ q m, resolve fs true p = .ok q ∧ fs.get q = some (.dir m) ∧
      ∀ e, e ∈ entries ↔ (isName e.name ∧ (fs.get (q ++ [e.name])).isSome = true ∧
        e.isDir = isDirNode (fs.get (q ++ [e.name]))) := by
  obtain ⟨q, m, hq, hm, he⟩ := readDir_ok h
  refine ⟨q, m, hq, hm, fun e => ?_⟩
  subst he
  rw [List.mem_map]
  constructor
  · rintro ⟨n, hn, rfl⟩
    have := mem_children.mp (mem_sortStrings.mp hn)
    exact ⟨this.1, this.2, rfl⟩
  · rintro ⟨h1, h2, h3⟩
    refine ⟨e.name, mem_sortStrings.mpr (mem_children.mpr ⟨h1, h2⟩), ?_⟩
    cases e
    simp only [entryOf] at h3 ⊢
    simp [h3]

/-! ## Resolution of a path ending in a proper name -/

theorem walk_snoc_nofollow (fs : FS) (n : Nat) (cur : Path) (p : List String) {q : Path}
    {c : String} (hc : isName c) (h : walkDir fs n cur p = .ok q) :
    walk fs false n cur (p ++ [c]) = .ok (q ++ [c]) := by
  obtain ⟨k, _, hk⟩ := walk_append_dir fs n cur p q h
  rw [hk false [c] (by simp)]
  exact walk_name_nofollow fs k q hc

theorem walk_snoc_nofollow_inv (fs : FS) (n : Nat) (cur : Path) (p : List String) {r : Path}
    {c : String} (hc : isName c) (h : walk fs false n cur (p ++ [c]) = .ok r) :
    ∃ q, walkDir fs n cur p = .ok q ∧ r = q ++ [c] := by
  cases hd : walkDir fs n cur p with
  | error e =>
    rw [walk_append_error fs false (by simp) n cur p e hd] at h
    cases h
  | ok q =>
    rw [walk_snoc_nofollow fs n cur p hc hd] at h
    injection h with h
    exact ⟨q, rfl, h.symm⟩

/-! ## The primitives, case by case -/

theorem lstat_ok {fs : FS} {p : Path} {n : Node} :
    lstat fs p = .ok n ↔ ∃ q, resolve fs false p = .ok q ∧ fs.get q = some n := by
  unfold lstat
  cases hr : resolve fs false p with
  | error e => simp
  | ok q =>
    cases hg : fs.get q with
    | none => simp [hg]
    | some n2 => simp [hg]

theorem stat_ok {fs : FS} {p : Path} {n : Node} :
    stat fs p = .ok n ↔ ∃ q, resolve fs true p = .ok q ∧ fs.get q = some n := by
  unfold stat
  cases hr : resolve fs true p with
  | error e => simp
  | ok q =>
    cases hg : fs.get q with
    | none => simp [hg]
    | some n2 => simp [hg]

theorem readlink_ok {fs : FS} {p : Path} {t : List String} :
    readlink fs p = .ok t ↔ ∃ q, resolve fs false p = .ok q ∧ fs.get q = some (.link t) := by
  unfold readlink
  cases hr : resolve fs false p with
  | error e => simp
  | ok q =>
    cases hg : fs.get q with
    | none => simp [hg]
    | some n2 => cases n2 <;> simp [hg]

theorem symlink_ok {fs fs2 : FS} {t : List String} {p : Path} :
    symlink fs t p = .ok fs2 ↔ ¬ (t = [] ∨ t = [""]) ∧
      ∃ q, resolve fs false p = .ok q ∧ fs.get q = none ∧ fs2 = fs.set q (some (.link t)) := by
  unfold symlink
  by_cases ht : t = [] ∨ t = [""]
  · simp [ht]
  · rw [if_neg ht]
    cases hr : resolve fs false p with
    | error e => simp
    | ok q =>
      cases hg : fs.get q with
      | none => simp [hg, ht, eq_comm]
      | some n2 => simp [hg]

theorem mkdir_ok {fs fs2 : FS} {p : Path} {mode : Nat} :
    mkdir fs p mode = .ok fs2 ↔
      ∃ q, resolve fs false p = .ok q ∧ fs.get q = none ∧ fs2 = fs.set q (some (.dir mode)) := by
  unfold mkdir
  cases hr : resolve fs false p with
  | error e => simp
  | ok q =>
    cases hg : fs.get q with
    | none => simp [hg, eq_comm]
    | some n2 => simp [hg]

/-- `os.Remove` applied to a link. -/
theorem remove_link {fs : FS} {p : Path} {t : List String} (h : lstat fs p = .ok (.link t)) :
    ∃ q, resolve fs false p = .ok q ∧ fs.get q = some (.link t) ∧
      remove fs p = .ok (fs.set q none) := by
  obtain ⟨q, hq, hg⟩ := lstat_ok.mp h
  exact ⟨q, hq, hg, by simp [remove, hq, hg]⟩

theorem chmod_ok {fs fs2 : FS} {p : Path} {mode : Nat} (h : chmod fs p mode = .ok fs2) :
    ∃ q n n2, resolve fs true p = .ok q ∧ fs.get q = some n ∧ sameShape n n2 ∧
      fs2 = fs.set q (some n2) ∧ (∀ t, n ≠ .link t) := by
  unfold chmod at h
  cases hr : resolve fs true p with
  | error e => simp [hr] at h
  | ok q =>
    cases hg : fs.get q with
    | none => simp [hr, hg] at h
    | some n =>
      cases n with
      | file d m =>
        simp only [hr, hg] at h
        injection h with h
        exact ⟨q, _, .file d mode, rfl, hg, by simp [sameShape], h.symm, by simp⟩
      | dir m =>
        simp only [hr, hg] at h
        injection h with h
        exact ⟨q, _, .dir mode, rfl, hg, by simp [sameShape], h.symm, by simp⟩
      | link t => simp [hr, hg] at h

/-- What a successful replace-symlink sequence leaves behind. -/
theorem replaceSymlink_ok {fs fs2 : FS} {t : List String} {p : Path} {wr wc : Err → Err}
    (h : replaceSymlink fs t p wr wc = (none, fs2)) :
    ∃ fs1 q, (fs1 = fs ∨ ∃ q0 t0, resolve fs false p = .ok q0 ∧ fs.get q0 = some (.link t0) ∧
        fs1 = fs.set q0 none) ∧
      resolve fs1 false p = .ok q ∧ fs1.get q = none ∧ fs2 = fs1.set q (some (.link t)) ∧
      ¬ (t = [] ∨ t = [""]) := by
  unfold replaceSymlink at h
  have key : ∀ fs1, (match symlink fs1 t p with
      | .error e => (some (wc (.sys e)), fs1)
      | .ok fs2 => ((none : Option Err), fs2)) = (none, fs2) →
      ∃ q, resolve fs1 false p = .ok q ∧ fs1.get q = none ∧
        fs2 = fs1.set q (some (.link t)) ∧ ¬ (t = [] ∨ t = [""]) := by
    intro fs1 h1
    cases hs : symlink fs1 t p with
    | error e => rw [hs] at h1; cases h1
    | ok fs3 =>
      rw [hs] at h1
      injection h1 with _ h1
      subst h1
      obtain ⟨ht, q, hq, hg, hf⟩ := symlink_ok.mp hs
      exact ⟨q, hq, hg, hf, ht⟩
  cases hl : lstat fs p with
  | error e =>
    rw [hl] at h
    obtain ⟨q, hq⟩ := key fs h
    exact ⟨fs, q, Or.inl rfl, hq⟩
  | ok n =>
    rw [hl] at h
    cases n with
    | file d m =>
      obtain ⟨q, hq⟩ := key fs h
      exact ⟨fs, q, Or.inl rfl, hq⟩
    | dir m =>
      obtain ⟨q, hq⟩ := key fs h
      exact ⟨fs, q, Or.inl rfl, hq⟩
    | link t0 =>
      obtain ⟨q0, hq0, hg0, hrm⟩ := remove_link hl
      simp only [hrm] at h
      obtain ⟨q, hq⟩ := key _ h
      exact ⟨_, q, Or.inr ⟨q0, t0, hq0, hg0, rfl⟩, hq⟩

/-! ## Claims about the current version and the switcher -/

/-- C10: when the application directory can be listed and has no entry named
`current`, `getCurrentVersion` returns the empty string and no error. -/
theorem getCurrentVersion_none (fs : FS) (baseDir : Path) (app : String)
    (entries : List DirEntry) (hdir : readDir fs (join baseDir [app]) = .ok entries)
    (hno : ∀ e ∈ entries, e.name ≠ "current") :
    getCurrentVersion fs baseDir app = .ok "" := by
  obtain ⟨q, m, hq, hm, hmem⟩ := mem_readDir hdir
  have hnone : fs.get (q ++ ["current"]) = none := by
    cases hg : fs.get (q ++ ["current"]) with
    | none => rfl
    | some n =>
      exfalso
      refine hno ⟨"current", isDirNode (fs.get (q ++ ["current"]))⟩ ?_ rfl
      rw [hmem]
      exact ⟨isName_current, by simp [hg], rfl⟩
  have hjoin : join baseDir [app, "current"] = join baseDir [app] ++ ["current"] :=
    join_snoc baseDir [app] isName_current
  have hwd : walkDir fs maxLinks [] (join baseDir [app]) = .ok q :=
    walkDir_of_walk fs true maxLinks [] _ q hq ⟨m, hm⟩
  have hres : resolve fs false (join baseDir [app, "current"]) = .ok (q ++ ["current"]) := by
    rw [hjoin]
    exact walk_snoc_nofollow fs maxLinks [] _ isName_current hwd
  simp [getCurrentVersion, readlink, hres, hnone, isNotExist]

/-- Witness of C10 on the store of `TestGetCurrentVersion_NoSymlink`. -/
theorem getCurrentVersion_none_witness :
    readDir fsNoCurrent (join ["tmp"] ["testapp"]) = .ok [] ∧
      getCurrentVersion fsNoCurrent ["tmp"] "testapp" = .ok "" :=
  ⟨by decide, getCurrentVersion_none fsNoCurrent ["tmp"] "testapp" [] (by decide)
    (fun e he => by cases he)⟩

/-- The path of a version directory as `switchVersion` builds it. -/
theorem join_app_version (baseDir : Path) (app : String) {version : String}
    (hv : isName version) :
    join (join baseDir [app]) [version] = join baseDir [app] ++ [version] := by
  rw [join_join]
  exact join_snoc baseDir [app] hv

/-- C2 (amended): when `R/A/V` has no directory entry, `switchVersion` returns an
error and leaves the whole filesystem, `R/A/current` included, as it was.
The error is the message "version V does not exist for A" when `os.Stat`
reports ENOENT; any other error number of `os.Stat` is passed over by the
`os.IsNotExist` test and comes back as the error of `os.Symlink`. -/
theorem switchVersion_no_entry (fs : FS) (baseDir : Path) (app version : String)
    (hv : isName version)
    (h : ∀ n, lstat fs (join baseDir [app, version]) ≠ .ok n) :
    ∃ e, switchVersion fs baseDir app version = (some e, fs) ∧
      (stat fs (join baseDir [app, version]) = .error .ENOENT →
        e = .msg ("version " ++ version ++ " does not exist for " ++ app)) ∧
      (∀ e0, e0 ≠ .ENOENT → stat fs (join baseDir [app, version]) = .error e0 →
        e = .sys e0) := by
  have hjv : join baseDir [app, version] = join baseDir [app] ++ [version] :=
    join_snoc baseDir [app] hv
  have hjc : join (join baseDir [app]) ["current"] = join baseDir [app] ++ ["current"] :=
    join_app_version baseDir app isName_current
  rw [hjv] at h ⊢
  unfold switchVersion
  simp only [join_app_version baseDir app hv, hjc]
  cases hd : walkDir fs maxLinks [] (join baseDir [app]) with
  | ok q =>
    have hres : resolve fs false (join baseDir [app] ++ [version]) = .ok (q ++ [version]) :=
      walk_snoc_nofollow fs maxLinks [] _ hv hd
    have hnone : fs.get (q ++ [version]) = none := by
      cases hg : fs.get (q ++ [version]) with
      | none => rfl
      | some n => exact absurd (by simp [lstat, hres, hg]) (h n)
    have hres2 : resolve fs true (join baseDir [app] ++ [version]) = .ok (q ++ [version]) :=
      walk_false_to_true fs maxLinks [] _ _ hres (by simp [hnone])
    have hstat : stat fs (join baseDir [app] ++ [version]) = .error .ENOENT := by
      simp [stat, hres2, hnone]
    refine ⟨_, ?_, fun _ => rfl, fun e0 he0 hs => ?_⟩
    · simp [hstat, isNotExist]
    · rw [hstat] at hs
      injection hs with hs
      exact absurd hs.symm he0
  | error e0 =>
    have herr : ∀ (f : Bool) (c : String),
        resolve fs f (join baseDir [app] ++ [c]) = .error e0 :=
      fun f c => walk_append_error fs f (by simp) maxLinks [] _ e0 hd
    have hstat : stat fs (join baseDir [app] ++ [version]) = .error e0 := by
      simp [stat, herr]
    by_cases he : e0 = .ENOENT
    · subst he
      refine ⟨_, ?_, fun _ => rfl, fun e0 he0 hs => ?_⟩
      · simp [hstat, isNotExist]
      · rw [hstat] at hs
        injection hs with hs
        exact absurd hs.symm he0
    · refine ⟨.sys e0, ?_, fun hs => ?_, fun e1 _ hs => ?_⟩
      · have hnot : isNotExist (.sys e0) = false := by
          cases e0 <;> simp [isNotExist] at he ⊢
        simp [hstat, hnot, replaceSymlink, lstat, symlink, herr, hv.1]
      · rw [hstat] at hs
        injection hs with hs
        exact absurd hs he
      · rw [hstat] at hs
        injection hs with hs
        rw [hs]


/-- Witness of C2 (amended): switching the store of `TestListVersions` to a
version that was never installed. -/
theorem switchVersion_no_entry_witness :
    ∃ e, switchVersion fsVersions ["tmp"] "testapp" "3.0.0" = (some e, fsVersions) ∧
      (stat fsVersions (join ["tmp"] ["testapp", "3.0.0"]) = .error .ENOENT →
        e = .msg ("version " ++ "3.0.0" ++ " does not exist for " ++ "testapp")) ∧
      (∀ e0, e0 ≠ .ENOENT → stat fsVersions (join ["tmp"] ["testapp", "3.0.0"]) = .error e0 →
        e = .sys e0) :=
  switchVersion_no_entry fsVersions ["tmp"] "testapp" "3.0.0" (by decide)
    (fun n hn => by
      have h : lstat fsVersions (join ["tmp"] ["testapp", "3.0.0"]) = .error .ENOENT := by
        decide
      rw [h] at hn
      cases hn)

/-- C2 as stated fails: where a regular file takes the place of the application
directory, `R/A/V` does not exist, and `switchVersion` returns the error of
`os.Symlink` (ENOTDIR), not the message "version V does not exist for A". -/
theorem switchVersion_no_entry_counterexample :
    lstat fsAppFile (join ["tmp"] ["testapp", "1.0.0"]) = .error .ENOTDIR ∧
    stat fsAppFile (join ["tmp"] ["testapp", "1.0.0"]) = .error .ENOTDIR ∧
    switchVersion fsAppFile ["tmp"] "testapp" "1.0.0" = (some (.sys .ENOTDIR), fsAppFile) ∧
    (switchVersion fsAppFile ["tmp"] "testapp" "1.0.0").1 ≠
      some (.msg ("version " ++ "1.0.0" ++ " does not exist for " ++ "testapp")) := by
  decide

/-! ## Claim about the replace-symlink sequence -/

/-- C3: where `os.Lstat` finds a regular file, the replace-symlink sequence
fails with the error of `os.Symlink` and changes nothing, so the file is
still there; the loop of `createBinSymlinks` stops with that error at the
first such publication link, and `installBinary` ends with this sequence. -/
theorem replaceSymlink_keeps_regular_file (fs : FS) (target : List String) (p : Path)
    (d : List Nat) (m : Nat) (wrapRemove wrapCreate : Err → Err)
    (h : lstat fs p = .ok (.file d m)) :
    (∃ e, replaceSymlink fs target p wrapRemove wrapCreate = (some (wrapCreate (.sys e)), fs)) ∧
    lstat (replaceSymlink fs target p wrapRemove wrapCreate).2 p = .ok (.file d m) ∧
    (∀ (localBinDir : Path) (appName : String) (e : DirEntry) (es : List DirEntry),
      e.isDir = false → join localBinDir [e.name] = p →
      ∃ err, linkEntries localBinDir appName (e :: es) fs = (some err, fs)) := by
  obtain ⟨q, hq, hg⟩ := lstat_ok.mp h
  have hsym : ∀ t : List String, ∃ e, symlink fs t p = .error e := by
    intro t
    unfold symlink
    split
    · exact ⟨_, rfl⟩
    · exact ⟨.EEXIST, by simp [hq, hg]⟩
  have hrep : ∀ (t : List String) (wr wc : Err → Err),
      ∃ e, replaceSymlink fs t p wr wc = (some (wc (.sys e)), fs) := by
    intro t wr wc
    obtain ⟨e, he⟩ := hsym t
    exact ⟨e, by simp [replaceSymlink, h, he]⟩
  refine ⟨hrep _ _ _, ?_, ?_⟩
  · obtain ⟨e, he⟩ := hrep target wrapRemove wrapCreate
    rw [he]
    exact h
  · intro localBinDir appName e es hdir hp
    obtain ⟨e2, he2⟩ := hrep (joinRel ["..", "share", "lav", appName, "current", "bin", e.name])
      (.wrap "failed to remove existing bin symlink")
      (.wrap ("failed to create bin symlink for " ++ e.name))
    refine ⟨.wrap ("failed to create bin symlink for " ++ e.name) (.sys e2), ?_⟩
    rw [linkEntries]
    simp [hdir, hp, he2]

/-- Witness of C3: a regular file `tool` in the user bin directory. -/
theorem replaceSymlink_keeps_regular_file_witness :
    (∃ e, replaceSymlink fsUserTool ["..", "share", "lav", "app", "current", "bin", "tool"]
        ["home", ".local", "bin", "tool"] id id = (some (id (.sys e)), fsUserTool)) ∧
    lstat (replaceSymlink fsUserTool ["..", "share", "lav", "app", "current", "bin", "tool"]
        ["home", ".local", "bin", "tool"] id id).2 ["home", ".local", "bin", "tool"] =
      .ok (.file [1, 2, 3] 0o755) ∧
    (∀ (localBinDir : Path) (appName : String) (e : DirEntry) (es : List DirEntry),
      e.isDir = false → join localBinDir [e.name] = ["home", ".local", "bin", "tool"] →
      ∃ err, linkEntries localBinDir appName (e :: es) fsUserTool = (some err, fsUserTool)) :=
  replaceSymlink_keeps_regular_file fsUserTool _ _ [1, 2, 3] 0o755 id id (by decide)

/-! ## Paths reached without links -/

theorem noLinkFrom_of_noLinks {fs : FS} (cur : Path) (comps : List String)
    (h : noLinks fs (cur ++ comps)) : NoLinkFrom fs cur comps := by
  induction comps generalizing cur with
  | nil => trivial
  | cons c rest ih =>
    refine ⟨fun t => h (cur ++ [c]) ⟨rest, by simp⟩ t, ih (cur ++ [c]) (by simpa using h)⟩

theorem noLinks_of_take {fs : FS} {p : Path} (h : noLinks fs p) (q : Path) (hq : q <+: p) :
    noLinks fs q :=
  fun x hx t => h x (hx.trans hq) t

theorem noLinkFrom_append {fs : FS} {cur : Path} {a b : List String}
    (h : NoLinkFrom fs cur (a ++ b)) : NoLinkFrom fs cur a ∧ NoLinkFrom fs (cur ++ a) b := by
  induction a generalizing cur with
  | nil => exact ⟨trivial, by simpa using h⟩
  | cons c a ih =>
    obtain ⟨h1, h2⟩ := h
    obtain ⟨h3, h4⟩ := ih h2
    exact ⟨⟨h1, h3⟩, by simpa using h4⟩

theorem dirsFrom_append {fs : FS} {cur : Path} {a b : List String} (h1 : DirsFrom fs cur a)
    (h2 : DirsFrom fs (cur ++ a) b) : DirsFrom fs cur (a ++ b) := by
  induction a generalizing cur with
  | nil => simpa using h2
  | cons c a ih => exact ⟨h1.1, ih h1.2 (by simpa using h2)⟩

theorem dirsFrom_split {fs : FS} {cur : Path} {a b : List String}
    (h : DirsFrom fs cur (a ++ b)) : DirsFrom fs cur a ∧ DirsFrom fs (cur ++ a) b := by
  induction a generalizing cur with
  | nil => exact ⟨trivial, by simpa using h⟩
  | cons c a ih =>
    obtain ⟨h1, h2⟩ := h
    obtain ⟨h3, h4⟩ := ih h2
    exact ⟨⟨h1, h3⟩, by simpa using h4⟩

/-- The last directory on a way through directories. -/
theorem dirsFrom_last {fs : FS} {cur : Path} {a : List String} (h : DirsFrom fs cur a)
    (hcur : ∃ m, fs.get cur = some (.dir m)) : ∃ m, fs.get (cur ++ a) = some (.dir m) := by
  induction a generalizing cur with
  | nil => simpa using hcur
  | cons c a ih => simpa using ih h.2 h.1

/-- Along directories resolution just descends. -/
theorem walkAux_dirs (fs : FS) (f : Bool) (L : Path → List String → Except Errno Path)
    (comps rest : List String) (cur : Path) (hn : ∀ x ∈ comps, isName x)
    (hd : DirsFrom fs cur comps) :
    walkAux fs f L cur (comps ++ rest) = walkAux fs f L (cur ++ comps) rest := by
  induction comps generalizing cur with
  | nil => simp
  | cons c comps ih =>
    obtain ⟨⟨m, hm⟩, hd2⟩ := hd
    obtain ⟨h1, h2, h3, _⟩ := hn c (List.mem_cons_self _ _)
    rw [List.cons_append, walkAux_cons, if_neg (by simp [h1, h2]), if_neg h3, hm]
    simp only
    rw [ih _ (fun x hx => hn x (List.mem_cons_of_mem _ hx)) hd2]
    simp

theorem walk_dirs (fs : FS) (f : Bool) (n : Nat) (comps rest : List String) (cur : Path)
    (hn : ∀ x ∈ comps, isName x) (hd : DirsFrom fs cur comps) :
    walk fs f n cur (comps ++ rest) = walk fs f n (cur ++ comps) rest := by
  cases n with
  | zero => rw [walk_zero]; exact walkAux_dirs fs f _ comps rest cur hn hd
  | succ m => rw [walk_succ]; exact walkAux_dirs fs f _ comps rest cur hn hd

theorem walkDir_dirs (fs : FS) (n : Nat) (comps : List String) (cur : Path)
    (hn : ∀ x ∈ comps, isName x) (hd : DirsFrom fs cur comps) :
    walkDir fs n cur comps = .ok (cur ++ comps) := by
  rw [walkDir, walk_dirs fs false n comps ["."] cur hn hd]
  cases n <;> simp [walk_zero, walk_succ, walkAux_cons, walkAux_nil]

/-- Where no link lies on the way, a path that resolves as a directory is
its own resolution, and leads through directories. -/
theorem walkAux_real (fs : FS) (L : Path → List String → Except Errno Path)
    (comps : List String) (cur q : Path) (hn : ∀ x ∈ comps, isName x)
    (hl : NoLinkFrom fs cur comps)
    (h : walkAux fs false L cur (comps ++ ["."]) = .ok q) :
    q = cur ++ comps ∧ DirsFrom fs cur comps := by
  induction comps generalizing cur with
  | nil =>
    simp [walkAux_cons, walkAux_nil] at h
    exact ⟨by simp [h], trivial⟩
  | cons c comps ih =>
    obtain ⟨hl1, hl2⟩ := hl
    obtain ⟨h1, h2, h3, _⟩ := hn c (List.mem_cons_self _ _)
    rw [List.cons_append, walkAux_cons, if_neg (by simp [h1, h2]), if_neg h3] at h
    cases hg : fs.get (cur ++ [c]) with
    | none => simp [hg] at h
    | some nd =>
      cases nd with
      | file d m => simp [hg] at h
      | link t => exact absurd hg (hl1 t)
      | dir m =>
        simp only [hg] at h
        obtain ⟨hq, hd⟩ := ih (cur ++ [c]) (fun x hx => hn x (List.mem_cons_of_mem _ hx)) hl2 h
        exact ⟨by simp [hq], ⟨m, hg⟩, hd⟩

theorem walkDir_real (fs : FS) (n : Nat) (comps : List String) (cur q : Path)
    (hn : ∀ x ∈ comps, isName x) (hl : NoLinkFrom fs cur comps)
    (h : walkDir fs n cur comps = .ok q) : q = cur ++ comps ∧ DirsFrom fs cur comps := by
  cases n with
  | zero => rw [walkDir, walk_zero] at h; exact walkAux_real fs _ comps cur q hn hl h
  | succ m => rw [walkDir, walk_succ] at h; exact walkAux_real fs _ comps cur q hn hl h

/-! ## Growth of the filesystem under the copying primitives -/

theorem get_root (fs : FS) : fs.get [] = some (.dir 0o755) := by simp [FS.get]

theorem ne_nil_of_get_none {fs : FS} {q : Path} (h : fs.get q = none) : q ≠ [] := by
  rintro rfl
  rw [get_root] at h
  cases h

theorem grows_refl (fs : FS) : Grows fs fs := ⟨ext_refl fs, fun _ _ h => h⟩

theorem grows_trans {fs1 fs2 fs3 : FS} (h1 : Grows fs1 fs2) (h2 : Grows fs2 fs3) :
    Grows fs1 fs3 :=
  ⟨ext_trans h1.1 h2.1, fun q t h => h1.2 q t (h2.2 q t h)⟩

/-- A new node that is not a link makes the filesystem grow. -/
theorem grows_set_new {fs : FS} {q : Path} {n : Node} (h : fs.get q = none)
    (hn : ∀ t, n ≠ .link t) : Grows fs (fs.set q (some n)) := by
  refine ⟨ext_set_none h _, fun x t hx => ?_⟩
  by_cases hxq : x = q
  · subst hxq
    rw [get_set_eq fs _ (ne_nil_of_get_none h)] at hx
    injection hx with hx
    exact absurd hx (hn t)
  · rwa [get_set_ne fs _ hxq] at hx

/-- Replacing a node by one of the same kind makes the filesystem grow. -/
theorem grows_set_same {fs : FS} {q : Path} {n n2 : Node} (h : fs.get q = some n)
    (hs : sameShape n n2) : Grows fs (fs.set q (some n2)) := by
  refine ⟨ext_set_same h hs, fun x t hx => ?_⟩
  by_cases hxq : x = q
  · subst hxq
    by_cases hnil : x = []
    · subst hnil
      rw [get_root] at hx
      cases hx
    · rw [get_set_eq fs _ hnil] at hx
      injection hx with hx
      subst hx
      cases n <;> simp [sameShape] at hs
      rw [h, hs]
  · rwa [get_set_ne fs _ hxq] at hx

theorem mkdir_grows {fs fs2 : FS} {p : Path} {mode : Nat} (h : mkdir fs p mode = .ok fs2) :
    Grows fs fs2 := by
  obtain ⟨q, _, hg, rfl⟩ := mkdir_ok.mp h
  exact grows_set_new hg (by simp)

theorem mkdirAllN_succ (mode : Nat) (p : Path) (n : Nat) (fs : FS) :
    mkdirAllN mode p (n + 1) fs =
      match stat fs (p.take (n + 1)) with
      | .ok (.dir _) => (none, fs)
      | .ok _ => (some .ENOTDIR, fs)
      | .error _ =>
        match mkdirAllN mode p n fs with
        | (some e, fs1) => (some e, fs1)
        | (none, fs1) =>
          match mkdir fs1 (p.take (n + 1)) mode with
          | .ok fs2 => (none, fs2)
          | .error e =>
            match lstat fs1 (p.take (n + 1)) with
            | .ok (.dir _) => (none, fs1)
            | _ => (some e, fs1) := rfl

theorem mkdirAllN_grows (mode : Nat) (p : Path) (n : Nat) (fs : FS) :
    Grows fs (mkdirAllN mode p n fs).2 := by
  induction n generalizing fs with
  | zero => exact grows_refl fs
  | succ n ih =>
    rw [mkdirAllN_succ]
    have h1 := ih fs
    split
    · exact grows_refl fs
    · exact grows_refl fs
    · split
      · rename_i hr; rw [hr] at h1; exact h1
      · rename_i hr
        rw [hr] at h1
        split
        · rename_i hm; exact grows_trans h1 (mkdir_grows hm)
        · split <;> exact h1

theorem mkdirAll_grows (fs : FS) (p : Path) (mode : Nat) : Grows fs (mkdirAll fs p mode).2 :=
  mkdirAllN_grows mode p p.length fs

/-- What a successful `os.Create` does. -/
theorem create_ok {fs fs1 : FS} {p q : Path} (h : create fs p = .ok (fs1, q)) :
    resolve fs true p = .ok q ∧ q ≠ [] ∧
      ∃ m, fs1 = fs.set q (some (.file [] m)) ∧
        (fs.get q = none ∨ ∃ d, fs.get q = some (.file d m)) := by
  unfold create at h
  cases hr : resolve fs true p with
  | error e => simp [hr] at h
  | ok q2 =>
    cases hg : fs.get q2 with
    | none =>
      simp only [hr, hg] at h
      injection h with h
      injection h with h1 h2
      subst h2
      exact ⟨rfl, ne_nil_of_get_none hg, _, h1.symm, Or.inl hg⟩
    | some nd =>
      cases nd with
      | file d m =>
        simp only [hr, hg] at h
        injection h with h
        injection h with h1 h2
        subst h2
        refine ⟨rfl, ?_, m, h1.symm, Or.inr ⟨d, hg⟩⟩
        rintro rfl
        rw [get_root] at hg
        cases hg
      | dir m => simp [hr, hg] at h
      | link t => simp [hr, hg] at h

theorem create_grows {fs fs1 : FS} {p q : Path} (h : create fs p = .ok (fs1, q)) :
    Grows fs fs1 := by
  obtain ⟨_, _, m, rfl, hg | ⟨d, hg⟩⟩ := create_ok h
  · exact grows_set_new hg (by simp)
  · exact grows_set_same hg (by simp [sameShape])

theorem chmod_grows {fs fs2 : FS} {p : Path} {mode : Nat} (h : chmod fs p mode = .ok fs2) :
    Grows fs fs2 := by
  obtain ⟨q, n, n2, _, hg, hs, rfl, _⟩ := chmod_ok h
  exact grows_set_same hg hs

/-- What `copyFile` does: it fails before touching anything, or creates the
destination and then fails, or creates the destination and fills it. -/
theorem copyFile_cases (fs : FS) (src dst : Path) :
    (∃ e, copyFile fs src dst = (some e, fs)) ∨
    ∃ qs fs1 qd, resolve fs true src = .ok qs ∧ create fs dst = .ok (fs1, qd) ∧
      ((∃ e, copyFile fs src dst = (some e, fs1)) ∨
       ∃ data m0 m, fs1.get qs = some (.file data m0) ∧ fs1.get qd = some (.file [] m) ∧
         copyFile fs src dst = (none, fs1.set qd (some (.file data m)))) := by
  unfold copyFile
  cases hr : resolve fs true src with
  | error e => exact Or.inl ⟨_, rfl⟩
  | ok qs =>
    simp only
    cases hg : fs.get qs with
    | none => exact Or.inl ⟨_, rfl⟩
    | some nd =>
      simp only
      cases hc : create fs dst with
      | error e => exact Or.inl ⟨_, rfl⟩
      | ok r =>
        obtain ⟨fs1, qd⟩ := r
        refine Or.inr ⟨qs, fs1, qd, rfl, rfl, ?_⟩
        simp only
        obtain ⟨_, hqd, m, hfs1, _⟩ := create_ok hc
        have hgd : fs1.get qd = some (.file [] m) := by
          rw [hfs1, get_set_eq fs _ hqd]
        rw [hgd]
        cases hgs : fs1.get qs with
        | none => exact Or.inl ⟨_, rfl⟩
        | some ns =>
          cases ns with
          | file data m0 => exact Or.inr ⟨data, m0, m, rfl, rfl, rfl⟩
          | dir m0 => exact Or.inl ⟨_, rfl⟩
          | link t => exact Or.inl ⟨_, rfl⟩

theorem copyFile_grows (fs : FS) (src dst : Path) : Grows fs (copyFile fs src dst).2 := by
  rcases copyFile_cases fs src dst with ⟨e, h⟩ | ⟨qs, fs1, qd, _, hc, ⟨e, h⟩ | ⟨d, m0, m, _, hgd, h⟩⟩
  · rw [h]; exact grows_refl fs
  · rw [h]; exact create_grows hc
  · rw [h]
    exact grows_trans (create_grows hc) (grows_set_same hgd (by simp [sameShape]))

theorem sameShape_not_link {n n2 : Node} (hs : sameShape n n2) (h : ∀ t, n ≠ .link t) :
    ∀ t, n2 ≠ .link t := by
  intro t ht
  subst ht
  cases n <;> simp [sameShape] at hs
  exact h _ rfl

theorem sameShape_dir {n2 : Node} {m : Nat} (hs : sameShape (.dir m) n2) :
    ∃ m2, n2 = .dir m2 := by
  cases n2 <;> simp [sameShape] at hs
  exact ⟨_, rfl⟩

/-- A node that `os.Stat` finds is found in every extension. -/
theorem stat_ext {fs fs2 : FS} (h : Ext fs fs2) {p : Path} {n : Node}
    (hs : stat fs p = .ok n) (hn : ∀ t, n ≠ .link t) :
    ∃ n2, stat fs2 p = .ok n2 ∧ sameShape n n2 := by
  obtain ⟨q, hq, hg⟩ := stat_ok.mp hs
  obtain ⟨n2, hg2, hsh⟩ := h q n hg
  refine ⟨n2, stat_ok.mpr ⟨q, ?_, hg2⟩, hsh⟩
  refine walk_ext h true maxLinks [] p q hq (Or.inr fun t ht => ?_)
  rw [hg2] at ht
  injection ht with ht
  exact sameShape_not_link hsh hn t ht

/-- A node that `os.Lstat` finds is found in every extension. -/
theorem lstat_ext {fs fs2 : FS} (h : Ext fs fs2) {p : Path} {n : Node}
    (hs : lstat fs p = .ok n) : ∃ n2, lstat fs2 p = .ok n2 ∧ sameShape n n2 := by
  obtain ⟨q, hq, hg⟩ := lstat_ok.mp hs
  obtain ⟨n2, hg2, hsh⟩ := h q n hg
  exact ⟨n2, lstat_ok.mpr ⟨q, walk_ext h false maxLinks [] p q hq (Or.inl rfl), hg2⟩, hsh⟩

theorem dirsFrom_ext {fs fs2 : FS} (h : Ext fs fs2) {cur : Path} {comps : List String}
    (hd : DirsFrom fs cur comps) : DirsFrom fs2 cur comps := by
  induction comps generalizing cur with
  | nil => trivial
  | cons c comps ih =>
    obtain ⟨⟨m, hm⟩, hd2⟩ := hd
    obtain ⟨n2, hn2, hs⟩ := h _ _ hm
    obtain ⟨m2, rfl⟩ := sameShape_dir hs
    exact ⟨⟨m2, hn2⟩, ih hd2⟩

theorem noLinks_grows {fs fs2 : FS} (h : Grows fs fs2) {p : Path} (hl : noLinks fs p) :
    noLinks fs2 p :=
  fun q hq t ht => hl q hq t (h.2 q t ht)

/-- The ways in which `os.MkdirAll` succeeds. -/
theorem mkdirAllN_none {mode : Nat} {p : Path} {n : Nat} {fs fs2 : FS}
    (h : mkdirAllN mode p (n + 1) fs = (none, fs2)) :
    (∃ m, stat fs (p.take (n + 1)) = .ok (.dir m) ∧ fs2 = fs) ∨
    ∃ e fs1, stat fs (p.take (n + 1)) = .error e ∧ mkdirAllN mode p n fs = (none, fs1) ∧
      (mkdir fs1 (p.take (n + 1)) mode = .ok fs2 ∨
        (fs2 = fs1 ∧ ∃ m, lstat fs1 (p.take (n + 1)) = .ok (.dir m))) := by
  rw [mkdirAllN_succ] at h
  cases hs : stat fs (List.take (n + 1) p) with
  | ok nd =>
    cases nd with
    | dir m =>
      simp only [hs] at h
      injection h with _ h
      exact Or.inl ⟨m, rfl, h.symm⟩
    | file d m => simp [hs] at h
    | link t => simp [hs] at h
  | error e =>
    cases hr : mkdirAllN mode p n fs with
    | mk r fs1 =>
      cases r with
      | some e1 => simp [hs, hr] at h
      | none =>
        refine Or.inr ⟨e, fs1, rfl, rfl, ?_⟩
        cases hm : mkdir fs1 (List.take (n + 1) p) mode with
        | ok fs3 =>
          simp only [hs, hr, hm] at h
          injection h with _ h
          exact Or.inl (by rw [h])
        | error e2 =>
          cases hl : lstat fs1 (List.take (n + 1) p) with
          | error e3 => simp [hs, hr, hm, hl] at h
          | ok nd =>
            cases nd with
            | dir m =>
              simp only [hs, hr, hm, hl] at h
              injection h with _ h
              exact Or.inr ⟨h.symm, m, rfl⟩
            | file d m => simp [hs, hr, hm, hl] at h
            | link t => simp [hs, hr, hm, hl] at h

/-- After a successful `os.MkdirAll` the path leads to a directory. -/
theorem mkdirAllN_ok_stat {mode : Nat} {p : Path} {n : Nat} {fs fs2 : FS}
    (h : mkdirAllN mode p n fs = (none, fs2)) : ∃ m, stat fs2 (p.take n) = .ok (.dir m) := by
  cases n with
  | zero =>
    exact ⟨0o755, stat_ok.mpr ⟨[], by simp [resolve, walk, maxLinks, walkAux_nil], get_root _⟩⟩
  | succ n =>
    rcases mkdirAllN_none h with ⟨m, hs, rfl⟩ | ⟨e, fs1, _, _, hm | ⟨rfl, m, hl⟩⟩
    · exact ⟨m, hs⟩
    · obtain ⟨q, hq, hg, rfl⟩ := mkdir_ok.mp hm
      have hq2 : resolve fs1 true (List.take (n + 1) p) = .ok q :=
        walk_false_to_true fs1 maxLinks [] _ q hq (by simp [hg])
      have hnil := ne_nil_of_get_none hg
      refine ⟨mode, stat_ok.mpr ⟨q, ?_, get_set_eq fs1 _ hnil⟩⟩
      exact walk_ext (ext_set_none hg _) true maxLinks [] _ q hq2
        (Or.inr fun t => by simp [get_set_eq fs1 _ hnil])
    · obtain ⟨q, hq, hg⟩ := lstat_ok.mp hl
      exact ⟨m, stat_ok.mpr
        ⟨q, walk_false_to_true _ maxLinks [] _ q hq (by simp [hg]), hg⟩⟩

theorem mkdirAll_ok_stat {fs fs2 : FS} {p : Path} {mode : Nat}
    (h : mkdirAll fs p mode = (none, fs2)) : ∃ m, stat fs2 p = .ok (.dir m) := by
  have := mkdirAllN_ok_stat h
  simpa using this

/-- On an entry that is not a link the replace-symlink sequence fails. -/
theorem replaceSymlink_fails {fs : FS} {p : Path} {n : Node} (hl : lstat fs p = .ok n)
    (hn : ∀ t, n ≠ .link t) (target : List String) (wr wc : Err → Err) :
    ∃ e, replaceSymlink fs target p wr wc = (some e, fs) := by
  obtain ⟨q, hq, hg⟩ := lstat_ok.mp hl
  have hsym : ∃ e, symlink fs target p = .error e := by
    unfold symlink
    split
    · exact ⟨_, rfl⟩
    · exact ⟨.EEXIST, by simp [hq, hg]⟩
  obtain ⟨e, he⟩ := hsym
  refine ⟨wc (.sys e), ?_⟩
  cases n with
  | file d m => simp [replaceSymlink, hl, he]
  | dir m => simp [replaceSymlink, hl, he]
  | link t => exact absurd rfl (hn t)

/-! ## Growth under `copyDir` -/

theorem copyEntries_cons (rec : FS → Path → Path → Option Err × FS) (src dst : Path)
    (e : DirEntry) (es : List DirEntry) (fs : FS) :
    copyEntries rec src dst (e :: es) fs =
      if e.isDir then
        match rec fs (join src [e.name]) (join dst [e.name]) with
        | (some err, fs1) => (some err, fs1)
        | (none, fs1) => copyEntries rec src dst es fs1
      else
        match copyFile fs (join src [e.name]) (join dst [e.name]) with
        | (some err, fs1) => (some err, fs1)
        | (none, fs1) =>
          match stat fs1 (join src [e.name]) with
          | .error e2 => (some (.sys e2), fs1)
          | .ok srcFileInfo =>
            match chmod fs1 (join dst [e.name]) (nodeMode srcFileInfo) with
            | .error e2 => (some (.sys e2), fs1)
            | .ok fs2 => copyEntries rec src dst es fs2 := rfl

theorem copyDir_succ (depth : Nat) (fs : FS) (src dst : Path) :
    copyDir (depth + 1) fs src dst =
      match stat fs src with
      | .error e => (some (.sys e), fs)
      | .ok srcInfo =>
        match mkdirAll fs dst (nodeMode srcInfo) with
        | (some e, fs1) => (some (.sys e), fs1)
        | (none, fs1) =>
          match readDir fs1 src with
          | .error e => (some (.sys e), fs1)
          | .ok entries => copyEntries (copyDir depth) src dst entries fs1 := rfl

theorem copyEntries_grows (rec : FS → Path → Path → Option Err × FS)
    (hrec : ∀ fs s d, Grows fs (rec fs s d).2) (src dst : Path) (es : List DirEntry) :
    ∀ fs, Grows fs (copyEntries rec src dst es fs).2 := by
  induction es with
  | nil => intro fs; exact grows_refl fs
  | cons e es ih =>
    intro fs
    rw [copyEntries_cons]
    split
    · have h1 := hrec fs (join src [e.name]) (join dst [e.name])
      cases hr : rec fs (join src [e.name]) (join dst [e.name]) with
      | mk r fs1 =>
        rw [hr] at h1
        cases r with
        | some err => exact h1
        | none => exact grows_trans h1 (ih fs1)
    · have h1 := copyFile_grows fs (join src [e.name]) (join dst [e.name])
      cases hr : copyFile fs (join src [e.name]) (join dst [e.name]) with
      | mk r fs1 =>
        rw [hr] at h1
        cases r with
        | some err => exact h1
        | none =>
          simp only
          cases hs : stat fs1 (join src [e.name]) with
          | error e2 => exact h1
          | ok info =>
            simp only
            cases hc : chmod fs1 (join dst [e.name]) (nodeMode info) with
            | error e2 => exact h1
            | ok fs2 => exact grows_trans (grows_trans h1 (chmod_grows hc)) (ih fs2)

theorem copyDir_grows (depth : Nat) : ∀ (fs : FS) (src dst : Path),
    Grows fs (copyDir depth fs src dst).2 := by
  induction depth with
  | zero => intro fs src dst; exact grows_refl fs
  | succ depth ih =>
    intro fs src dst
    rw [copyDir_succ]
    cases hs : stat fs src with
    | error e => exact grows_refl fs
    | ok info =>
      simp only
      have h1 := mkdirAll_grows fs dst (nodeMode info)
      cases hm : mkdirAll fs dst (nodeMode info) with
      | mk r fs1 =>
        rw [hm] at h1
        cases r with
        | some e => exact h1
        | none =>
          simp only
          cases hr : readDir fs1 src with
          | error e => exact h1
          | ok entries => exact grows_trans h1 (copyEntries_grows _ ih src dst entries fs1)

/-! ## A path below which something resolves -/

/-- When a path reached without links has something resolving below it, it
leads through directories. -/
theorem dirs_of_resolve_below {fs : FS} {f : Bool} {p rest : List String} {q : Path}
    (hn : ∀ x ∈ p, isName x) (hl : noLinks fs p) (hr : rest ≠ [])
    (h : resolve fs f (p ++ rest) = .ok q) : DirsFrom fs [] p := by
  cases hd : walkDir fs maxLinks [] p with
  | error e =>
    have := walk_append_error fs f hr maxLinks [] p e hd
    rw [resolve, this] at h
    cases h
  | ok q1 =>
    exact (walkDir_real fs maxLinks p [] q1 hn
      (noLinkFrom_of_noLinks [] p (by simpa using hl)) hd).2

/-- A path reached without links that leads to a directory leads through
directories. -/
theorem dirs_of_stat_dir {fs : FS} {p : Path} {m : Nat} (hn : ∀ x ∈ p, isName x)
    (hl : noLinks fs p) (h : stat fs p = .ok (.dir m)) : DirsFrom fs [] p := by
  obtain ⟨q, hq, hg⟩ := stat_ok.mp h
  have hd := walkDir_of_walk fs true maxLinks [] p q hq ⟨m, hg⟩
  exact (walkDir_real fs maxLinks p [] q hn
    (noLinkFrom_of_noLinks [] p (by simpa using hl)) hd).2

/-- A path that leads through directories is found by `os.Lstat`. -/
theorem lstat_of_dirs {fs : FS} {p : Path} (hn : ∀ x ∈ p, isName x)
    (hd : DirsFrom fs [] p) : ∃ m, lstat fs p = .ok (.dir m) := by
  obtain ⟨m, hm⟩ := dirsFrom_last hd ⟨_, get_root fs⟩
  refine ⟨m, lstat_ok.mpr ⟨p, ?_, by simpa using hm⟩⟩
  have := walk_dirs fs false maxLinks p [] [] hn hd
  rw [List.append_nil] at this
  rw [resolve, this]
  cases maxLinks <;> simp [walk_zero, walk_succ, walkAux_nil]

/-! ## The steps of a successful install -/

/-- The steps of a successful `installBinary`. -/
theorem installBinary_ok {home : Option Path} {fs fs6 : FS} {baseDir binaryPath : Path}
    {appName version : String}
    (h : installBinary home fs baseDir binaryPath appName version = (none, fs6)) :
    ∃ fs1 fs2 fs3 fs4 hd fs5,
      mkdirAll fs (join baseDir [appName, version, "bin"]) 0o755 = (none, fs1) ∧
      copyFile fs1 (join binaryPath [])
        (join (join baseDir [appName, version, "bin"]) [pathBase (join binaryPath [])]) =
          (none, fs2) ∧
      chmod fs2 (join (join baseDir [appName, version, "bin"]) [pathBase (join binaryPath [])])
        0o755 = .ok fs3 ∧
      replaceSymlink fs3 [version] (join (join baseDir [appName]) ["current"])
        (.wrap "failed to remove existing symlink")
        (.wrap "failed to create current symlink") = (none, fs4) ∧
      home = some hd ∧
      mkdirAll fs4 (join hd [".local", "bin"]) 0o755 = (none, fs5) ∧
      replaceSymlink fs5
        (joinRel ["..", "share", "lav", appName, "current", "bin", pathBase (join binaryPath [])])
        (join (join hd [".local", "bin"]) [pathBase (join binaryPath [])])
        (.wrap "failed to remove existing bin symlink")
        (.wrap "failed to create bin symlink") = (none, fs6) := by
  unfold installBinary at h
  simp only at h
  split at h
  · cases h
  · cases h1 : mkdirAll fs (join baseDir [appName, version, "bin"]) 0o755 with
    | mk r1 fs1 =>
      cases r1 with
      | some e => simp [h1] at h
      | none =>
        simp only [h1] at h
        cases h2 : copyFile fs1 (join binaryPath [])
            (join (join baseDir [appName, version, "bin"]) [pathBase (join binaryPath [])]) with
        | mk r2 fs2 =>
          cases r2 with
          | some e => simp [h2] at h
          | none =>
            simp only [h2] at h
            cases h3 : chmod fs2 (join (join baseDir [appName, version, "bin"])
                [pathBase (join binaryPath [])]) 0o755 with
            | error e => simp [h3] at h
            | ok fs3 =>
              simp only [h3] at h
              cases h4 : replaceSymlink fs3 [version] (join (join baseDir [appName]) ["current"])
                  (.wrap "failed to remove existing symlink")
                  (.wrap "failed to create current symlink") with
              | mk r4 fs4 =>
                cases r4 with
                | some e => simp [h4] at h
                | none =>
                  simp only [h4] at h
                  cases home with
                  | none => simp at h
                  | some hd =>
                    simp only at h
                    cases h5 : mkdirAll fs4 (join hd [".local", "bin"]) 0o755 with
                    | mk r5 fs5 =>
                      cases r5 with
                      | some e => simp [h5] at h
                      | none =>
                        simp only [h5] at h
                        exact ⟨fs1, fs2, fs3, fs4, hd, fs5, rfl, h2, h3, h4, rfl, h5, h⟩

/-- The steps of a successful `createBinSymlinks`. -/
theorem createBinSymlinks_ok {home : Option Path} {fs fs2 : FS} {baseDir : Path}
    {appName : String} (h : createBinSymlinks home fs baseDir appName = (none, fs2)) :
    ∃ hd fs1 entries, home = some hd ∧
      mkdirAll fs (join hd [".local", "bin"]) 0o755 = (none, fs1) ∧
      readDir fs1 (join baseDir [appName, "current", "bin"]) = .ok entries ∧
      linkEntries (join hd [".local", "bin"]) appName entries fs1 = (none, fs2) := by
  unfold createBinSymlinks at h
  cases home with
  | none => simp at h
  | some hd =>
    simp only at h
    cases h1 : mkdirAll fs (join hd [".local", "bin"]) 0o755 with
    | mk r1 fs1 =>
      cases r1 with
      | some e => simp [h1] at h
      | none =>
        simp only [h1] at h
        cases h2 : readDir fs1 (join baseDir [appName, "current", "bin"]) with
        | error e => simp [h2] at h
        | ok entries =>
          simp only [h2] at h
          exact ⟨hd, fs1, entries, rfl, h1, h2, h⟩

/-- The steps of a successful `installDirectory`. -/
theorem installDirectory_ok {home : Option Path} {depth : Nat} {fs fs4 : FS}
    {baseDir srcDir : Path} {appName version : String}
    (h : installDirectory home depth fs baseDir srcDir appName version = (none, fs4)) :
    ∃ m fs1 fs2 fs3,
      stat fs (join srcDir []) = .ok (.dir m) ∧
      mkdirAll fs (join baseDir [appName, version]) 0o755 = (none, fs1) ∧
      copyDir depth fs1 (join srcDir []) (join baseDir [appName, version]) = (none, fs2) ∧
      replaceSymlink fs2 [version] (join (join baseDir [appName]) ["current"])
        (.wrap "failed to remove existing symlink")
        (.wrap "failed to create current symlink") = (none, fs3) ∧
      createBinSymlinks home fs3 baseDir appName = (none, fs4) := by
  unfold installDirectory at h
  simp only at h
  cases h0 : stat fs (join srcDir []) with
  | error e => simp [h0] at h
  | ok nd =>
    cases nd with
    | file d m => simp [h0] at h
    | link t => simp [h0] at h
    | dir m =>
      simp only [h0] at h
      by_cases hc : (match stat fs (join (join srcDir []) ["bin"]) with
          | .error e => isNotExist (.sys e)
          | .ok _ => false) = true
      · simp [hc] at h
      · simp only [hc] at h
        cases h1 : mkdirAll fs (join baseDir [appName, version]) 0o755 with
        | mk r1 fs1 =>
          cases r1 with
          | some e1 => simp [h1] at h
          | none =>
            simp only [h1] at h
            cases h2 : copyDir depth fs1 (join srcDir []) (join baseDir [appName, version]) with
            | mk r2 fs2 =>
              cases r2 with
              | some e2 => simp [h2] at h
              | none =>
                simp only [h2] at h
                cases h3 : replaceSymlink fs2 [version]
                    (join (join baseDir [appName]) ["current"])
                    (.wrap "failed to remove existing symlink")
                    (.wrap "failed to create current symlink") with
                | mk r3 fs3 =>
                  cases r3 with
                  | some e3 => simp [h3] at h
                  | none =>
                    simp only [h3] at h
                    cases h4 : createBinSymlinks home fs3 baseDir appName with
                    | mk r4 fs5 =>
                      cases r4 with
                      | some e4 => simp [h4] at h
                      | none =>
                        simp only [h4] at h
                        injection h with _ h
                        subst h
                        exact ⟨m, fs1, fs2, fs3, rfl, rfl, h2, h3, h4⟩

theorem noLinks_of_check {fs : FS} {p : Path} (h : noLinksB fs p = true) : noLinks fs p := by
  intro q hq t hg
  have hq2 : q = p.take q.length := List.prefix_iff_eq_take.mp hq
  unfold noLinksB at h
  rw [List.all_eq_true] at h
  have := h q.length (List.mem_range.mpr (Nat.lt_succ_of_le hq.length_le))
  rw [← hq2, hg] at this
  simp at this

/-! ## The path of the current link -/

theorem join_app_current (baseDir : Path) (app : String) :
    join (join baseDir [app]) ["current"] = join baseDir [app, "current"] := by
  rw [join_join]; rfl

/-! ## Claim about the preconditions of `installDirectory` -/

/-- The part of C6 the code fulfils: when `os.Stat` fails on the source, or the
source is not a directory, or `os.Stat` reports that `bin` does not exist,
`installDirectory` returns an error and the filesystem is unchanged. -/
theorem installDirectory_precondition (home : Option Path) (depth : Nat) (fs : FS)
    (baseDir srcDir : Path) (app version : String)
    (h : (∀ m, stat fs (join srcDir []) ≠ .ok (.dir m)) ∨
      stat fs (join (join srcDir []) ["bin"]) = .error .ENOENT) :
    ∃ e, installDirectory home depth fs baseDir srcDir app version = (some e, fs) := by
  unfold installDirectory
  simp only
  cases h0 : stat fs (join srcDir []) with
  | error e => exact ⟨_, rfl⟩
  | ok nd =>
    cases nd with
    | file d m => exact ⟨_, rfl⟩
    | link t => exact ⟨_, rfl⟩
    | dir m =>
      rcases h with h | h
      · exact absurd h0 (h m)
      · simp only [h, isNotExist]
        exact ⟨_, rfl⟩

/-- C6 fails on the code: `bin` in the source is a regular file, so the source
has no subdirectory `bin`, yet `installDirectory` creates the version
directory, copies the source, retargets `current`, creates the user bin
directory, and only then fails, on reading `current/bin`. -/
theorem installDirectory_bin_file :
    stat fsBinFile ["tmp", "dist", "bin"] = .ok (.file [1] 0o644) ∧
    stat fsBinFile ["home", ".local", "share", "lav", "app", "1.0"] = .error .ENOENT ∧
    (installDirectory (some ["home"]) 8 fsBinFile ["home", ".local", "share", "lav"]
      ["tmp", "dist"] "app" "1.0").1 =
        some (.wrap "failed to create bin symlinks"
          (.wrap "failed to read bin directory" (.sys .ENOTDIR))) ∧
    stat (installDirectory (some ["home"]) 8 fsBinFile ["home", ".local", "share", "lav"]
      ["tmp", "dist"] "app" "1.0").2 ["home", ".local", "share", "lav", "app", "1.0"] =
        .ok (.dir 0o755) ∧
    stat (installDirectory (some ["home"]) 8 fsBinFile ["home", ".local", "share", "lav"]
      ["tmp", "dist"] "app" "1.0").2 ["home", ".local", "share", "lav", "app", "1.0", "bin"] =
        .ok (.file [1] 0o644) ∧
    readlink (installDirectory (some ["home"]) 8 fsBinFile ["home", ".local", "share", "lav"]
      ["tmp", "dist"] "app" "1.0").2 ["home", ".local", "share", "lav", "app", "current"] =
        .ok ["1.0"] := by
  decide

/-! ## The replace-symlink sequence at a path ending in a proper name -/

theorem base_singleton {v : String} (hv : isName v) : base [v] = v := by
  have h1 : v ≠ "" := hv.1
  simp [base, h1]

/-- A successful replace-symlink sequence at `d/c`: the directory `d` resolves
to the same place before and after, the entry `c` of that place is the new
link, and nothing else has changed. -/
theorem replaceSymlink_snoc {fs fs2 : FS} {t : List String} {d : Path} {c : String}
    {wr wc : Err → Err} (hc : isName c)
    (h : replaceSymlink fs t (d ++ [c]) wr wc = (none, fs2)) :
    ∃ qd, walkDir fs maxLinks [] d = .ok qd ∧ walkDir fs2 maxLinks [] d = .ok qd ∧
      fs2.get (qd ++ [c]) = some (.link t) ∧
      (∀ x, x ≠ qd ++ [c] → fs2.get x = fs.get x) ∧
      (fs.get (qd ++ [c]) = none ∨ ∃ t0, fs.get (qd ++ [c]) = some (.link t0)) := by
  obtain ⟨fs1, q, hfs1, hq, hg, rfl, _⟩ := replaceSymlink_ok h
  obtain ⟨qd, hqd, rfl⟩ := walk_snoc_nofollow_inv fs1 maxLinks [] d hc hq
  have hafter : walkDir (fs1.set (qd ++ [c]) (some (.link t))) maxLinks [] d = .ok qd :=
    walk_ext (ext_set_none hg _) false maxLinks [] _ qd hqd (Or.inl rfl)
  rcases hfs1 with rfl | ⟨q0, t0, hq0, hg0, rfl⟩
  · refine ⟨qd, hqd, hafter, get_snoc_set _ _ _ _, fun x hx => get_set_ne _ _ hx, Or.inl hg⟩
  · obtain ⟨qd0, hqd0, rfl⟩ := walk_snoc_nofollow_inv fs maxLinks [] d hc hq0
    have hext : Ext (fs.set (qd0 ++ [c]) none) fs := by
      intro p n hp
      by_cases hpq : p = qd0 ++ [c]
      · subst hpq
        rw [get_snoc_set] at hp
        cases hp
      · rw [get_set_ne fs _ hpq] at hp
        exact ext_refl fs p n hp
    have hsame : walkDir fs maxLinks [] d = .ok qd :=
      walk_ext hext false maxLinks [] _ qd hqd (Or.inl rfl)
    rw [hqd0] at hsame
    injection hsame with hsame
    subst hsame
    refine ⟨qd0, hqd0, hafter, get_snoc_set _ _ _ _, fun x hx => ?_, Or.inr ⟨t0, hg0⟩⟩
    rw [get_set_ne _ _ hx, get_set_ne _ _ hx]

/-- After a successful replace-symlink sequence `os.Readlink` returns the
target. -/
theorem readlink_replaceSymlink {fs fs2 : FS} {t : List String} {d : Path} {c : String}
    {wr wc : Err → Err} (hc : isName c)
    (h : replaceSymlink fs t (d ++ [c]) wr wc = (none, fs2)) :
    readlink fs2 (d ++ [c]) = .ok t := by
  obtain ⟨qd, _, hqd, hg, _, _⟩ := replaceSymlink_snoc hc h
  exact readlink_ok.mpr ⟨qd ++ [c], walk_snoc_nofollow fs2 maxLinks [] d hc hqd, hg⟩

/-- The result of `getCurrentVersion` when `os.Readlink` finds the one-piece
target `v`. -/
theorem getCurrentVersion_of_readlink {fs : FS} {baseDir : Path} {app v : String}
    (hv : isName v) (h : readlink fs (join baseDir [app] ++ ["current"]) = .ok [v]) :
    getCurrentVersion fs baseDir app = .ok v := by
  unfold getCurrentVersion
  have hj : join baseDir [app, "current"] = join baseDir [app] ++ ["current"] :=
    join_snoc baseDir [app] isName_current
  simp only [hj, h, base_singleton hv]

/-- The switcher part of C1. -/
theorem switchVersion_current {fs fs2 : FS} {baseDir : Path} {app version : String}
    (hv : isName version) (h : switchVersion fs baseDir app version = (none, fs2)) :
    getCurrentVersion fs2 baseDir app = .ok version := by
  unfold switchVersion at h
  simp only at h
  split at h
  · cases h
  · rw [join_app_version baseDir app isName_current] at h
    exact getCurrentVersion_of_readlink hv (readlink_replaceSymlink isName_current h)

/-! ## The replace-symlink sequence in a directory reached without links -/

theorem join_join_name (b : Path) (e : List String) {c : String} (hc : isName c) :
    join (join b e) [c] = join b e ++ [c] := by
  rw [join_join]
  exact join_snoc b e hc

theorem dirsFrom_kept {fs fs2 : FS}
    (h : ∀ x m, fs.get x = some (.dir m) → ∃ m2, fs2.get x = some (.dir m2))
    {cur : Path} {comps : List String} (hd : DirsFrom fs cur comps) :
    DirsFrom fs2 cur comps := by
  induction comps generalizing cur with
  | nil => trivial
  | cons c comps ih =>
    obtain ⟨⟨m, hm⟩, hd2⟩ := hd
    exact ⟨h _ m hm, ih hd2⟩

/-- Resolution of an entry of a directory that is reached through
directories. -/
theorem resolve_real_snoc {fs : FS} {d : Path} {c : String} (hd : ∀ x ∈ d, isName x)
    (hc : isName c) (hdirs : DirsFrom fs [] d) :
    resolve fs false (d ++ [c]) = .ok (d ++ [c]) := by
  have := walk_snoc_nofollow fs maxLinks [] d hc (walkDir_dirs fs maxLinks d [] hd hdirs)
  simpa [resolve] using this

/-- The replace-symlink sequence at `d/c`, where `d` is reached through
directories: whatever the outcome, only the entry `d/c` can have changed, no
directory has been lost, and after success the entry is the new link. -/
theorem replaceSymlink_real {fs : FS} (t : List String) {d : Path} {c : String}
    (wr wc : Err → Err) (hd : ∀ x ∈ d, isName x) (hc : isName c)
    (hdirs : DirsFrom fs [] d) :
    (∀ x, x ≠ d ++ [c] → (replaceSymlink fs t (d ++ [c]) wr wc).2.get x = fs.get x) ∧
    (∀ x m, fs.get x = some (.dir m) →
      ∃ m2, (replaceSymlink fs t (d ++ [c]) wr wc).2.get x = some (.dir m2)) ∧
    ((replaceSymlink fs t (d ++ [c]) wr wc).1 = none →
      (replaceSymlink fs t (d ++ [c]) wr wc).2.get (d ++ [c]) = some (.link t)) := by
  have hres := resolve_real_snoc hd hc hdirs
  -- the creation step, from a state in which `d` is still reached through directories
  have hsym : ∀ fs1 : FS, DirsFrom fs1 [] d →
      (∀ fs2, symlink fs1 t (d ++ [c]) = .ok fs2 →
        fs1.get (d ++ [c]) = none ∧ fs2 = fs1.set (d ++ [c]) (some (.link t))) := by
    intro fs1 hd1 fs2 hs
    obtain ⟨_, q, hq, hg, rfl⟩ := symlink_ok.mp hs
    rw [resolve_real_snoc hd hc hd1] at hq
    injection hq with hq
    subst hq
    exact ⟨hg, rfl⟩
  unfold replaceSymlink
  cases hl : lstat fs (d ++ [c]) with
  | error e =>
    simp only
    cases hs : symlink fs t (d ++ [c]) with
    | error e2 => exact ⟨fun _ _ => rfl, fun x m hx => ⟨m, hx⟩, fun h => by cases h⟩
    | ok fs2 =>
      obtain ⟨hg, rfl⟩ := hsym fs hdirs fs2 hs
      refine ⟨fun x hx => get_set_ne _ _ hx, fun x m hx => ⟨m, ?_⟩, fun _ => get_snoc_set _ _ _ _⟩
      rw [get_set_ne _ _ (by rintro rfl; rw [hg] at hx; cases hx)]
      exact hx
  | ok n =>
    have hlink : ∀ t0, n = .link t0 →
        remove fs (d ++ [c]) = .ok (fs.set (d ++ [c]) none) ∧
          fs.get (d ++ [c]) = some (.link t0) := by
      intro t0 hn
      subst hn
      obtain ⟨q, hq, hg, hrm⟩ := remove_link hl
      rw [hres] at hq
      injection hq with hq
      subst hq
      exact ⟨hrm, hg⟩
    have hnolink : (∀ t0, n ≠ .link t0) →
        (match (match (Except.ok n : Except Errno Node) with
          | .ok (.link _) =>
            (match remove fs (d ++ [c]) with
             | .error e => (Except.error (wr (.sys e)) : Except Err FS)
             | .ok fs1 => .ok fs1)
          | _ => .ok fs) with
        | .error e => (some e, fs)
        | .ok fs1 =>
          match symlink fs1 t (d ++ [c]) with
          | .error e => (some (wc (.sys e)), fs1)
          | .ok fs2 => (none, fs2)) =
        (match symlink fs t (d ++ [c]) with
          | .error e => (some (wc (.sys e)), fs)
          | .ok fs2 => (none, fs2)) := by
      intro hn
      cases n with
      | file dd m => rfl
      | dir m => rfl
      | link t0 => exact absurd rfl (hn t0)
    cases n with
    | link t0 =>
      obtain ⟨hrm, hg0⟩ := hlink t0 rfl
      simp only [hrm]
      have hd1 : DirsFrom (fs.set (d ++ [c]) none) [] d :=
        dirsFrom_kept (fun x m hx => ⟨m, by
          rw [get_set_ne _ _ (by rintro rfl; rw [hg0] at hx; cases hx)]; exact hx⟩) hdirs
      cases hs : symlink (fs.set (d ++ [c]) none) t (d ++ [c]) with
      | error e2 =>
        refine ⟨fun x hx => get_set_ne _ _ hx, fun x m hx => ⟨m, ?_⟩, fun h => by cases h⟩
        rw [get_set_ne _ _ (by rintro rfl; rw [hg0] at hx; cases hx)]
        exact hx
      | ok fs2 =>
        obtain ⟨_, rfl⟩ := hsym _ hd1 fs2 hs
        refine ⟨fun x hx => by rw [get_set_ne _ _ hx, get_set_ne _ _ hx],
          fun x m hx => ⟨m, ?_⟩, fun _ => get_snoc_set _ _ _ _⟩
        have hx2 : x ≠ d ++ [c] := by rintro rfl; rw [hg0] at hx; cases hx
        rw [get_set_ne _ _ hx2, get_set_ne _ _ hx2]
        exact hx
    | file dd m =>
      rw [hnolink (by simp)]
      cases hs : symlink fs t (d ++ [c]) with
      | error e2 => exact ⟨fun _ _ => rfl, fun x m hx => ⟨m, hx⟩, fun h => by cases h⟩
      | ok fs2 =>
        obtain ⟨hg, rfl⟩ := hsym fs hdirs fs2 hs
        refine ⟨fun x hx => get_set_ne _ _ hx, fun x m hx => ⟨m, ?_⟩,
          fun _ => get_snoc_set _ _ _ _⟩
        rw [get_set_ne _ _ (by rintro rfl; rw [hg] at hx; cases hx)]
        exact hx
    | dir m0 =>
      rw [hnolink (by simp)]
      cases hs : symlink fs t (d ++ [c]) with
      | error e2 => exact ⟨fun _ _ => rfl, fun x m hx => ⟨m, hx⟩, fun h => by cases h⟩
      | ok fs2 =>
        obtain ⟨hg, rfl⟩ := hsym fs hdirs fs2 hs
        refine ⟨fun x hx => get_set_ne _ _ hx, fun x m hx => ⟨m, ?_⟩,
          fun _ => get_snoc_set _ _ _ _⟩
        rw [get_set_ne _ _ (by rintro rfl; rw [hg] at hx; cases hx)]
        exact hx

theorem linkEntries_cons (localBinDir : Path) (appName : String) (e : DirEntry)
    (es : List DirEntry) (fs : FS) :
    linkEntries localBinDir appName (e :: es) fs =
      if e.isDir then linkEntries localBinDir appName es fs
      else
        match replaceSymlink fs
            (joinRel ["..", "share", "lav", appName, "current", "bin", e.name])
            (join localBinDir [e.name])
            (.wrap "failed to remove existing bin symlink")
            (.wrap ("failed to create bin symlink for " ++ e.name)) with
        | (some err, fs1) => (some err, fs1)
        | (none, fs1) => linkEntries localBinDir appName es fs1 := rfl

/-- The loop of `createBinSymlinks` in a user bin directory `B` reached
through directories: only entries of `B` can have changed, and no directory
has been lost. -/
theorem linkEntries_real {B : Path} (appName : String) (hB : ∀ x ∈ B, isName x) :
    ∀ (es : List DirEntry) (fs : FS), (∀ e ∈ es, isName e.name) → DirsFrom fs [] B →
      (∀ x, (∀ F, x ≠ B ++ [F]) → (linkEntries B appName es fs).2.get x = fs.get x) ∧
      (∀ x m, fs.get x = some (.dir m) →
        ∃ m2, (linkEntries B appName es fs).2.get x = some (.dir m2)) := by
  intro es
  induction es with
  | nil => intro fs _ _; exact ⟨fun _ _ => rfl, fun x m hx => ⟨m, hx⟩⟩
  | cons e es ih =>
    intro fs hes hd
    have hes2 : ∀ e2 ∈ es, isName e2.name := fun e2 h2 => hes e2 (List.mem_cons_of_mem _ h2)
    have hen : isName e.name := hes e (List.mem_cons_self _ _)
    rw [linkEntries_cons]
    split
    · exact ih fs hes2 hd
    · rw [join_of_valid hB (by simpa using hen)]
      obtain ⟨hf, hk, _⟩ := replaceSymlink_real
        (joinRel ["..", "share", "lav", appName, "current", "bin", e.name])
        (.wrap "failed to remove existing bin symlink")
        (.wrap ("failed to create bin symlink for " ++ e.name)) hB hen hd
      cases hr : replaceSymlink fs
          (joinRel ["..", "share", "lav", appName, "current", "bin", e.name]) (B ++ [e.name])
          (.wrap "failed to remove existing bin symlink")
          (.wrap ("failed to create bin symlink for " ++ e.name)) with
      | mk r fs1 =>
        rw [hr] at hf hk
        cases r with
        | some err => exact ⟨fun x hx => hf x (hx e.name), hk⟩
        | none =>
          obtain ⟨hf2, hk2⟩ := ih fs1 hes2 (dirsFrom_kept hk hd)
          refine ⟨fun x hx => ?_, fun x m hx => ?_⟩
          · rw [hf2 x hx, hf x (hx e.name)]
          · obtain ⟨m1, h1⟩ := hk x m hx
            exact hk2 x m1 h1

/-- The names reported by `readDir` are proper names. -/
theorem readDir_names {fs : FS} {p : Path} {entries : List DirEntry}
    (h : readDir fs p = .ok entries) : ∀ e ∈ entries, isName e.name := by
  obtain ⟨q, m, _, _, hmem⟩ := mem_readDir h
  intro e he
  exact ((hmem e).mp he).1

theorem pathBase_name {p : Path} (hp : ∀ x ∈ p, isName x) (hne : p ≠ []) :
    isName (pathBase p) := by
  unfold pathBase
  cases hl : p.getLast? with
  | none => exact absurd (List.getLast?_eq_none_iff.mp hl) hne
  | some c => exact hp c (List.mem_of_getLast?_eq_some hl)

/-! ## Claim about the current version after an install or a switch -/

/-- The current version, read where `R/A` is reached through directories. -/
theorem getCurrentVersion_real {fs : FS} {baseDir : Path} {app v : String} (hv : isName v)
    (hd : DirsFrom fs [] (join baseDir [app]))
    (hg : fs.get (join baseDir [app] ++ ["current"]) = some (.link [v])) :
    getCurrentVersion fs baseDir app = .ok v :=
  getCurrentVersion_of_readlink hv (readlink_ok.mpr
    ⟨_, resolve_real_snoc (join_valid _ _) isName_current hd, hg⟩)

theorem get_link_ext {fs fs2 : FS} (h : Ext fs fs2) {x : Path} {t : List String}
    (hg : fs.get x = some (.link t)) : fs2.get x = some (.link t) := by
  obtain ⟨n2, hn2, hs⟩ := h x _ hg
  cases n2 <;> simp [sameShape] at hs
  rw [hn2, hs]

/-- Retargeting `current` where `R/A` is reached through directories: `R/A`
still is, `current` is the new link, and nothing else has changed. -/
theorem retarget_current_real {fs fs2 : FS} {baseDir : Path} {app v : String}
    {wr wc : Err → Err} (hd : DirsFrom fs [] (join baseDir [app]))
    (h : replaceSymlink fs [v] (join (join baseDir [app]) ["current"]) wr wc = (none, fs2)) :
    DirsFrom fs2 [] (join baseDir [app]) ∧
    fs2.get (join baseDir [app] ++ ["current"]) = some (.link [v]) ∧
    (∀ x, x ≠ join baseDir [app] ++ ["current"] → fs2.get x = fs.get x) := by
  rw [join_app_version baseDir app isName_current] at h
  obtain ⟨hf, hk, hlink⟩ := replaceSymlink_real [v] wr wc (join_valid baseDir [app])
    isName_current hd
  rw [h] at hf hk hlink
  exact ⟨dirsFrom_kept hk hd, hlink rfl, hf⟩

theorem join_sep (b : Path) (e : List String) : join (join b e) ["/"] = join b e := by
  rw [join_join]
  unfold join
  rw [← List.append_assoc, List.foldl_append]
  simp [cleanStep]

/-- The state after the current link has been retargeted survives the
creation of the user bin directory. -/
theorem current_after_mkdirAll {fs fs2 : FS} {baseDir B : Path} {app v : String}
    (hBn : ∀ x ∈ B, isName x) (hd : DirsFrom fs [] (join baseDir [app]))
    (hg : fs.get (join baseDir [app] ++ ["current"]) = some (.link [v]))
    (hB : noLinks fs B) (h : mkdirAll fs B 0o755 = (none, fs2)) :
    DirsFrom fs2 [] (join baseDir [app]) ∧
    fs2.get (join baseDir [app] ++ ["current"]) = some (.link [v]) ∧
    DirsFrom fs2 [] B := by
  have hg5 : Grows fs fs2 := by
    have := mkdirAll_grows fs B 0o755
    rwa [h] at this
  obtain ⟨m, hst⟩ := mkdirAll_ok_stat h
  exact ⟨dirsFrom_ext hg5.1 hd, get_link_ext hg5.1 hg,
    dirs_of_stat_dir hBn (noLinks_grows hg5 hB) hst⟩

/-- C1 (amended): after a successful `switchVersion` for `(A, V)`,
`getCurrentVersion` returns `V`.  After a successful `installBinary` or
`installDirectory` it does so provided that, before the call, the application
directory `R/A` and the user bin directory `B` are reached without symbolic
links, and `R/A/current` is neither a publication link `B/F` nor on the way
to `B`. -/
theorem current_after_success (hm : Path) (depth : Nat) (fs : FS)
    (baseDir binaryPath srcDir : Path) (app version : String) (hv : isName version) :
    (∀ fs2, switchVersion fs baseDir app version = (none, fs2) →
      getCurrentVersion fs2 baseDir app = .ok version) ∧
    (noLinks fs (join baseDir [app]) → noLinks fs (join hm [".local", "bin"]) →
      (∀ F, ¬ (join baseDir [app, "current"] <+: join hm [".local", "bin"] ++ [F])) →
      (∀ fs2, installBinary (some hm) fs baseDir binaryPath app version = (none, fs2) →
        getCurrentVersion fs2 baseDir app = .ok version) ∧
      (∀ fs2, installDirectory (some hm) depth fs baseDir srcDir app version = (none, fs2) →
        getCurrentVersion fs2 baseDir app = .ok version)) := by
  refine ⟨fun fs2 h => switchVersion_current hv h, fun hD hBl hB => ?_⟩
  have hDn : ∀ x ∈ join baseDir [app], isName x := join_valid _ _
  have hBn : ∀ x ∈ join hm [".local", "bin"], isName x := join_valid _ _
  have hjc : join baseDir [app, "current"] = join baseDir [app] ++ ["current"] :=
    join_snoc baseDir [app] isName_current
  rw [hjc] at hB
  have hCB : ¬ (join baseDir [app] ++ ["current"] <+: join hm [".local", "bin"]) :=
    fun hp => hB "" (hp.trans (List.prefix_append _ _))
  -- the steps after the copy, common to both installers
  have hlater : ∀ fs3 fs4 : FS, Grows fs fs3 → DirsFrom fs3 [] (join baseDir [app]) →
      replaceSymlink fs3 [version] (join (join baseDir [app]) ["current"])
        (.wrap "failed to remove existing symlink")
        (.wrap "failed to create current symlink") = (none, fs4) →
      ∀ fs5, mkdirAll fs4 (join hm [".local", "bin"]) 0o755 = (none, fs5) →
        DirsFrom fs5 [] (join baseDir [app]) ∧
        fs5.get (join baseDir [app] ++ ["current"]) = some (.link [version]) ∧
        DirsFrom fs5 [] (join hm [".local", "bin"]) := by
    intro fs3 fs4 hg3 hd3 h4 fs5 h5
    obtain ⟨hd4, hl4, hf4⟩ := retarget_current_real hd3 h4
    have hB4 : noLinks fs4 (join hm [".local", "bin"]) := by
      intro q hq t ht
      have hne : q ≠ join baseDir [app] ++ ["current"] := by
        rintro rfl
        exact hCB hq
      rw [hf4 q hne] at ht
      exact noLinks_grows hg3 hBl q hq t ht
    exact current_after_mkdirAll hBn hd4 hl4 hB4 h5
  constructor
  · intro fs6 h
    obtain ⟨fs1, fs2, fs3, fs4, hd, fs5, h1, h2, h3, h4, hhome, h5, h6⟩ := installBinary_ok h
    injection hhome with hhome
    subst hhome
    have hg1 : Grows fs fs1 := by
      have := mkdirAll_grows fs (join baseDir [app, version, "bin"]) 0o755
      rwa [h1] at this
    have hg2 : Grows fs1 fs2 := by
      have := copyFile_grows fs1 (join binaryPath [])
        (join (join baseDir [app, version, "bin"]) [pathBase (join binaryPath [])])
      rwa [h2] at this
    have hg3 : Grows fs fs3 := grows_trans (grows_trans hg1 hg2) (chmod_grows h3)
    obtain ⟨m, hst⟩ := mkdirAll_ok_stat h1
    have hjb : join baseDir [app, version, "bin"] = join baseDir [app] ++ [version, "bin"] := by
      rw [show [app, version, "bin"] = [app, version] ++ ["bin"] from rfl,
        join_snoc baseDir [app, version] isName_bin,
        show [app, version] = [app] ++ [version] from rfl, join_snoc baseDir [app] hv]
      simp
    rw [hjb] at hst
    obtain ⟨q, hq, _⟩ := stat_ok.mp hst
    have hd1 : DirsFrom fs1 [] (join baseDir [app]) :=
      dirs_of_resolve_below hDn (noLinks_grows hg1 hD) (by simp) hq
    have hd3 : DirsFrom fs3 [] (join baseDir [app]) :=
      dirsFrom_ext (chmod_grows h3).1 (dirsFrom_ext hg2.1 hd1)
    obtain ⟨hd5, hl5, hdB⟩ := hlater fs3 fs4 hg3 hd3 h4 fs5 h5
    by_cases hroot : join binaryPath [] = []
    · exfalso
      have hname : pathBase (join binaryPath []) = "/" := by rw [hroot]; rfl
      rw [hname, join_sep] at h6
      obtain ⟨m5, hls⟩ := lstat_of_dirs hBn hdB
      obtain ⟨e, he⟩ := replaceSymlink_fails hls (by simp)
        (joinRel ["..", "share", "lav", app, "current", "bin", "/"])
        (.wrap "failed to remove existing bin symlink") (.wrap "failed to create bin symlink")
      rw [he] at h6
      cases h6
    · have hbn : isName (pathBase (join binaryPath [])) :=
        pathBase_name (join_valid _ _) hroot
      rw [join_join_name _ [".local", "bin"] hbn] at h6
      obtain ⟨hf, hk, _⟩ := replaceSymlink_real
        (joinRel ["..", "share", "lav", app, "current", "bin", pathBase (join binaryPath [])])
        (.wrap "failed to remove existing bin symlink") (.wrap "failed to create bin symlink")
        hBn hbn hdB
      rw [h6] at hf hk
      refine getCurrentVersion_real hv (dirsFrom_kept hk hd5) ?_
      rw [hf _ (fun heq => hB (pathBase (join binaryPath [])) (by rw [heq]))]
      exact hl5
  · intro fs6 h
    obtain ⟨m, fs1, fs2, fs3, _, h1, h2, h3, h4⟩ := installDirectory_ok h
    obtain ⟨hd, fs4, entries, hhome, h5, hrd, hle⟩ := createBinSymlinks_ok h4
    injection hhome with hhome
    subst hhome
    have hg1 : Grows fs fs1 := by
      have := mkdirAll_grows fs (join baseDir [app, version]) 0o755
      rwa [h1] at this
    have hg2 : Grows fs1 fs2 := by
      have := copyDir_grows depth fs1 (join srcDir []) (join baseDir [app, version])
      rwa [h2] at this
    obtain ⟨m1, hst⟩ := mkdirAll_ok_stat h1
    have hjv : join baseDir [app, version] = join baseDir [app] ++ [version] :=
      join_snoc baseDir [app] hv
    rw [hjv] at hst
    obtain ⟨q, hq, _⟩ := stat_ok.mp hst
    have hd1 : DirsFrom fs1 [] (join baseDir [app]) :=
      dirs_of_resolve_below hDn (noLinks_grows hg1 hD) (by simp) hq
    obtain ⟨hd5, hl5, hdB⟩ := hlater fs2 fs3 (grows_trans hg1 hg2) (dirsFrom_ext hg2.1 hd1)
      h3 fs4 h5
    obtain ⟨hf, hk⟩ := linkEntries_real app hBn entries fs4 (readDir_names hrd) hdB
    rw [hle] at hf hk
    refine getCurrentVersion_real hv (dirsFrom_kept hk hd5) ?_
    rw [hf _ (fun F heq => hB F (by rw [heq]))]
    exact hl5


/-- Witness of C1 (amended): a switch, a file install and a directory install
of version `1.0` on a store whose home directory is apart from the store. -/
theorem current_after_success_witness :
    getCurrentVersion (switchVersion fsCurrentLink ["r"] "app" "1.0").2 ["r"] "app" =
      .ok "1.0" ∧
    getCurrentVersion (installBinary (some ["home"]) fsCurrentLink ["r"] ["tmp", "tool"]
      "app" "1.0").2 ["r"] "app" = .ok "1.0" ∧
    getCurrentVersion (installDirectory (some ["home"]) 8 fsCurrentLink ["r"] ["tmp", "dist"]
      "app" "1.0").2 ["r"] "app" = .ok "1.0" :=
  ⟨(current_after_success ["home"] 8 fsCurrentLink ["r"] ["tmp", "tool"] ["tmp", "dist"]
      "app" "1.0" (by decide)).1 _ (by decide),
   ((current_after_success ["home"] 8 fsCurrentLink ["r"] ["tmp", "tool"] ["tmp", "dist"]
      "app" "1.0" (by decide)).2 (noLinks_of_check (by decide)) (noLinks_of_check (by decide))
      (fun F h => by simp [join, cleanStep] at h)).1 _ (by decide),
   ((current_after_success ["home"] 8 fsCurrentLink ["r"] ["tmp", "tool"] ["tmp", "dist"]
      "app" "1.0" (by decide)).2 (noLinks_of_check (by decide)) (noLinks_of_check (by decide))
      (fun F h => by simp [join, cleanStep] at h)).2 _ (by decide)⟩

/-- C1 as stated fails: with the data root `~/.local`, the application `bin` and
a file named `current`, the publication link `~/.local/bin/current` is the
current link of the application; `installBinary` succeeds for version `1.0`
and `getCurrentVersion` then returns `current`. -/
theorem current_after_success_counterexample :
    (installBinary (some ["home"]) fsLocalRoot ["home", ".local"] ["tmp", "current"]
      "bin" "1.0").1 = none ∧
    getCurrentVersion (installBinary (some ["home"]) fsLocalRoot ["home", ".local"]
      ["tmp", "current"] "bin" "1.0").2 ["home", ".local"] "bin" = .ok "current" ∧
    getCurrentVersion (installBinary (some ["home"]) fsLocalRoot ["home", ".local"]
      ["tmp", "current"] "bin" "1.0").2 ["home", ".local"] "bin" ≠ .ok "1.0" := by
  decide

/-! ## More on resolution and on `copyFile` -/

theorem walkAux_false_of_true (fs : FS) {L1 L2 : Path → List String → Except Errno Path}
    (hL : ∀ b comps q, L1 b comps = .ok q →
      ∃ q0, L2 b comps = .ok q0 ∧ (q0 = q ∨ ∃ t, fs.get q0 = some (.link t))) :
    ∀ (p : List String) (cur q : Path), walkAux fs true L1 cur p = .ok q →
      ∃ q0, walkAux fs false L2 cur p = .ok q0 ∧ (q0 = q ∨ ∃ t, fs.get q0 = some (.link t)) := by
  intro p
  induction p with
  | nil =>
    intro cur q h
    rw [walkAux_nil] at h ⊢
    exact ⟨cur, rfl, Or.inl (by injection h)⟩
  | cons x p ih =>
    intro cur q h
    rw [walkAux_cons] at h ⊢
    by_cases h1 : x = "" ∨ x = "."
    · rw [if_pos h1] at h ⊢; exact ih _ _ h
    · rw [if_neg h1] at h ⊢
      by_cases h2 : x = ".."
      · rw [if_pos h2] at h ⊢; exact ih _ _ h
      · rw [if_neg h2] at h ⊢
        cases hg : fs.get (cur ++ [x]) with
        | none => rw [hg] at h; exact ⟨q, h, Or.inl rfl⟩
        | some nd =>
          rw [hg] at h
          cases nd with
          | file d m2 => exact ⟨q, h, Or.inl rfl⟩
          | dir m2 => exact ih _ _ h
          | link t =>
            simp only [Bool.true_eq_false, and_false, if_false] at h
            simp only [and_true]
            by_cases hp : p = []
            · rw [if_pos hp]
              exact ⟨cur ++ [x], rfl, Or.inr ⟨t, hg⟩⟩
            · rw [if_neg hp]
              exact hL _ _ _ h

/-- A path that resolves when links are followed also resolves when the
final link is not followed, to the same place or to a link. -/
theorem walk_false_of_true (fs : FS) (n : Nat) :
    ∀ (cur : Path) (p : List String) (q : Path), walk fs true n cur p = .ok q →
      ∃ q0, walk fs false n cur p = .ok q0 ∧ (q0 = q ∨ ∃ t, fs.get q0 = some (.link t)) := by
  induction n with
  | zero =>
    intro cur p q h
    rw [walk_zero] at h ⊢
    exact walkAux_false_of_true fs (fun _ _ _ hl => by cases hl) p cur q h
  | succ n ih =>
    intro cur p q h
    rw [walk_succ] at h ⊢
    exact walkAux_false_of_true fs (fun b c q hl => ih b c q hl) p cur q h

/-- After a successful `copyFile` the destination is an entry that is not a
directory. -/
theorem copyFile_lstat {fs fs2 : FS} {src dst : Path} (h : copyFile fs src dst = (none, fs2)) :
    ∃ n, lstat fs2 dst = .ok n ∧ ∀ m, n ≠ .dir m := by
  have hgrow : Grows fs fs2 := by
    have := copyFile_grows fs src dst
    rwa [h] at this
  rcases copyFile_cases fs src dst with ⟨e, he⟩ | ⟨qs, fs1, qd, _, hc, ⟨e, he⟩ | ⟨d, m0, m, _, _, he⟩⟩
  · rw [he] at h; cases h
  · rw [he] at h; cases h
  · rw [he] at h
    injection h with _ h
    obtain ⟨hr, hqd, m1, hfs1, hold⟩ := create_ok hc
    have hget2 : fs2.get qd = some (.file d m) := by
      rw [← h, get_set_eq _ _ hqd]
    obtain ⟨q0, hq0, hcase⟩ := walk_false_of_true fs maxLinks [] dst qd hr
    have hq02 : resolve fs2 false dst = .ok q0 :=
      walk_ext hgrow.1 false maxLinks [] dst q0 hq0 (Or.inl rfl)
    rcases hcase with rfl | ⟨t, ht⟩
    · exact ⟨_, lstat_ok.mpr ⟨q0, hq02, hget2⟩, by simp⟩
    · exact ⟨_, lstat_ok.mpr ⟨q0, hq02, get_link_ext hgrow.1 ht⟩, by simp⟩

/-- An entry that `os.Lstat` finds in a directory is reported by
`os.ReadDir`. -/
theorem readDir_mem_of_lstat {fs : FS} {p : Path} {c : String} {n : Node}
    {entries : List DirEntry} (hc : isName c) (hr : readDir fs p = .ok entries)
    (hl : lstat fs (p ++ [c]) = .ok n) : ⟨c, isDirNode (some n)⟩ ∈ entries := by
  obtain ⟨q, m, hq, hm, hmem⟩ := mem_readDir hr
  obtain ⟨q1, hq1, hg1⟩ := lstat_ok.mp hl
  obtain ⟨qd, hqd, rfl⟩ := walk_snoc_nofollow_inv fs maxLinks [] p hc hq1
  have := walk_of_walkDir fs maxLinks [] p qd hqd
  rw [resolve, this] at hq
  injection hq with hq
  subst hq
  rw [hmem]
  exact ⟨hc, by simp [hg1], by simp [hg1]⟩

/-! ## What `copyDir` copies -/

theorem sameShape_not_dir {n n2 : Node} (hs : sameShape n n2) (h : ∀ m, n ≠ .dir m) :
    ∀ m, n2 ≠ .dir m := by
  intro m hm
  subst hm
  cases n <;> simp [sameShape] at hs
  exact h _ rfl

theorem sameShape_file {n2 : Node} {d : List Nat} {m : Nat} (hs : sameShape (.file d m) n2) :
    ∃ d2 m2, n2 = .file d2 m2 := by
  cases n2 <;> simp [sameShape] at hs
  exact ⟨_, _, rfl⟩

/-- In a successful run of the loop of `copyDir` every entry has been
copied: a subdirectory by the recursive call, another entry by `copyFile`. -/
theorem copyEntries_mem {rec : FS → Path → Path → Option Err × FS}
    (hrec : ∀ fs s d, Grows fs (rec fs s d).2) {src dst : Path} :
    ∀ (es : List DirEntry) (fs fs2 : FS), copyEntries rec src dst es fs = (none, fs2) →
      ∀ e ∈ es, ∃ fsx fsy, Grows fs fsx ∧ Grows fsy fs2 ∧
        (e.isDir = true → rec fsx (join src [e.name]) (join dst [e.name]) = (none, fsy)) ∧
        (e.isDir = false → ∃ fsz,
          copyFile fsx (join src [e.name]) (join dst [e.name]) = (none, fsz) ∧ Grows fsz fsy) := by
  intro es
  induction es with
  | nil => intro fs fs2 _ e he; cases he
  | cons e0 es ih =>
    intro fs fs2 h e he
    rw [copyEntries_cons] at h
    by_cases hdir : e0.isDir = true
    · rw [if_pos hdir] at h
      have hg1 := hrec fs (join src [e0.name]) (join dst [e0.name])
      cases hr : rec fs (join src [e0.name]) (join dst [e0.name]) with
      | mk r fs1 =>
        rw [hr] at h hg1
        cases r with
        | some err => cases h
        | none =>
          simp only at h
          have hg2 : Grows fs1 fs2 := by
            have := copyEntries_grows rec hrec src dst es fs1
            rwa [h] at this
          rcases List.mem_cons.mp he with rfl | he2
          · exact ⟨fs, fs1, grows_refl fs, hg2, fun _ => hr, fun hf => by simp [hdir] at hf⟩
          · obtain ⟨fsx, fsy, hx, hy, hrest⟩ := ih fs1 fs2 h e he2
            exact ⟨fsx, fsy, grows_trans hg1 hx, hy, hrest⟩
    · rw [if_neg hdir] at h
      have hg1 := copyFile_grows fs (join src [e0.name]) (join dst [e0.name])
      cases hr : copyFile fs (join src [e0.name]) (join dst [e0.name]) with
      | mk r fsa =>
        rw [hr] at h hg1
        cases r with
        | some err => cases h
        | none =>
          simp only at h
          cases hs : stat fsa (join src [e0.name]) with
          | error e2 => simp [hs] at h
          | ok info =>
            simp only [hs] at h
            cases hc : chmod fsa (join dst [e0.name]) (nodeMode info) with
            | error e2 => simp [hc] at h
            | ok fsb =>
              simp only [hc] at h
              have hg2 : Grows fsb fs2 := by
                have := copyEntries_grows rec hrec src dst es fsb
                rwa [h] at this
              rcases List.mem_cons.mp he with rfl | he2
              · exact ⟨fs, fsb, grows_refl fs, hg2, fun hf => absurd hf hdir,
                  fun _ => ⟨fsa, hr, chmod_grows hc⟩⟩
              · obtain ⟨fsx, fsy, hx, hy, hrest⟩ := ih fsb fs2 h e he2
                exact ⟨fsx, fsy, grows_trans (grows_trans hg1 (chmod_grows hc)) hx, hy, hrest⟩

/-- The steps of a successful `copyDir`. -/
theorem copyDir_ok {depth : Nat} {fs fs2 : FS} {src dst : Path}
    (h : copyDir depth fs src dst = (none, fs2)) :
    ∃ k fs1 entries, depth = k + 1 ∧ Grows fs fs1 ∧ readDir fs1 src = .ok entries ∧
      copyEntries (copyDir k) src dst entries fs1 = (none, fs2) := by
  cases depth with
  | zero => simp [copyDir] at h
  | succ k =>
    rw [copyDir_succ] at h
    cases hs : stat fs src with
    | error e => simp [hs] at h
    | ok info =>
      simp only [hs] at h
      have hg := mkdirAll_grows fs dst (nodeMode info)
      cases hm : mkdirAll fs dst (nodeMode info) with
      | mk r fs1 =>
        rw [hm] at h hg
        cases r with
        | some e => simp at h
        | none =>
          simp only at h
          cases hr : readDir fs1 src with
          | error e => simp [hr] at h
          | ok entries =>
            simp only [hr] at h
            exact ⟨k, fs1, entries, rfl, hg, hr, h⟩

/-- A regular file `bin/F` of the source is copied: after a successful
`copyDir` the destination has an entry `bin/F` that is not a directory. -/
theorem copyDir_bin_file {depth : Nat} {fs fs2 : FS} {P T : Path} {F : String}
    {d : List Nat} {m m1 : Nat} (hF : isName F) (hP : ∀ x ∈ P, isName x)
    (hT : ∀ x ∈ T, isName x) (hcopy : copyDir depth fs P T = (none, fs2))
    (hbin : lstat fs (P ++ ["bin"]) = .ok (.dir m1))
    (hfile : lstat fs (P ++ ["bin"] ++ [F]) = .ok (.file d m)) :
    ∃ n, lstat fs2 (T ++ ["bin"] ++ [F]) = .ok n ∧ ∀ m2, n ≠ .dir m2 := by
  obtain ⟨k, fsa, es, rfl, hga, hra, hea⟩ := copyDir_ok hcopy
  -- the entry `bin` is a directory and is handed to the recursive call
  obtain ⟨nb, hlb, hsb⟩ := lstat_ext hga.1 hbin
  obtain ⟨mb, rfl⟩ := sameShape_dir hsb
  have hmemb := readDir_mem_of_lstat isName_bin hra hlb
  obtain ⟨fsx, fsy, hgx, hgy, hdirx, _⟩ :=
    copyEntries_mem (copyDir_grows k) es fsa fs2 hea _ hmemb
  have hrec := hdirx rfl
  simp only at hrec
  have hPb : ∀ x ∈ P ++ ["bin"], isName x := by
    intro x hx
    rcases List.mem_append.mp hx with hx | hx
    · exact hP x hx
    · simp at hx; rw [hx]; exact isName_bin
  have hTb : ∀ x ∈ T ++ ["bin"], isName x := by
    intro x hx
    rcases List.mem_append.mp hx with hx | hx
    · exact hT x hx
    · simp at hx; rw [hx]; exact isName_bin
  rw [join_of_valid hP (by simpa using isName_bin),
    join_of_valid hT (by simpa using isName_bin)] at hrec
  obtain ⟨j, fsb, es2, _, hgb, hrb, heb⟩ := copyDir_ok hrec
  -- the entry `F` of `bin` is not a directory and is handed to `copyFile`
  obtain ⟨nf, hlf, hsf⟩ := lstat_ext (grows_trans (grows_trans hga hgx) hgb).1 hfile
  obtain ⟨d2, m2, rfl⟩ := sameShape_file hsf
  have hmemf := readDir_mem_of_lstat hF hrb hlf
  obtain ⟨fsu, fsw, _, hgw, _, hfileu⟩ :=
    copyEntries_mem (copyDir_grows j) es2 fsb fsy heb _ hmemf
  obtain ⟨fsz, hcf, hgz⟩ := hfileu rfl
  simp only at hcf
  rw [join_of_valid hPb (by simpa using hF), join_of_valid hTb (by simpa using hF)] at hcf
  obtain ⟨n, hln, hnd⟩ := copyFile_lstat hcf
  obtain ⟨n2, hln2, hs2⟩ := lstat_ext (grows_trans (grows_trans hgz hgw) hgy).1 hln
  exact ⟨n2, hln2, sameShape_not_dir hs2 hnd⟩

/-! ## The publication links -/

theorem cleanRelStep_name {acc : List String} {c : String} (h : isName c) :
    cleanRelStep acc c = acc ++ [c] := by
  obtain ⟨h1, h2, h3, h4⟩ := h
  simp [cleanRelStep, h1, h2, h3, h4]

/-- The target of a publication link, as a list of pieces and as a string. -/
theorem relTarget_eq {app F : String} (ha : isName app) (hF : isName F) :
    joinRel ["..", "share", "lav", app, "current", "bin", F] =
      ["..", "share", "lav", app, "current", "bin", F] ∧
    pathString (joinRel ["..", "share", "lav", app, "current", "bin", F]) =
      "../share/lav/" ++ app ++ "/current/bin/" ++ F := by
  have h1 : joinRel ["..", "share", "lav", app, "current", "bin", F] =
      ["..", "share", "lav", app, "current", "bin", F] := by
    unfold joinRel
    simp only [List.foldl_cons, List.foldl_nil]
    have e1 : cleanRelStep [] ".." = [".."] := by decide
    have e2 : cleanRelStep [".."] "share" = ["..", "share"] := by decide
    have e3 : cleanRelStep ["..", "share"] "lav" = ["..", "share", "lav"] := by decide
    rw [e1, e2, e3, cleanRelStep_name ha, cleanRelStep_name (by decide : isName "current"),
      cleanRelStep_name isName_bin, cleanRelStep_name hF]
    simp
  refine ⟨h1, ?_⟩
  rw [h1]
  simp [pathString, String.intercalate, String.intercalate.go, String.append_assoc]

/-- A successful replace-symlink sequence at `B/c2` leaves the entry `B/c`
as `os.Lstat` found it. -/
theorem replaceSymlink_keeps_sibling {fs fs1 : FS} {t : List String} {B : Path}
    {c c2 : String} {wr wc : Err → Err} {n : Node} (hc : isName c) (hc2 : isName c2)
    (hne : c ≠ c2) (h : replaceSymlink fs t (B ++ [c2]) wr wc = (none, fs1))
    (hl : lstat fs (B ++ [c]) = .ok n) : lstat fs1 (B ++ [c]) = .ok n := by
  obtain ⟨qd, hqd, hqd1, _, hframe, _⟩ := replaceSymlink_snoc hc2 h
  obtain ⟨q, hq, hg⟩ := lstat_ok.mp hl
  have hq2 := walk_snoc_nofollow fs maxLinks [] B hc hqd
  rw [resolve, hq2] at hq
  injection hq with hq
  subst hq
  refine lstat_ok.mpr ⟨qd ++ [c], walk_snoc_nofollow fs1 maxLinks [] B hc hqd1, ?_⟩
  rw [hframe _ (by simpa using hne)]
  exact hg

/-- After a successful loop of `createBinSymlinks` every entry that is not a
directory has its publication link, and the links of other names are as
before. -/
theorem linkEntries_links {B : Path} (appName : String) (hB : ∀ x ∈ B, isName x) :
    ∀ (es : List DirEntry) (fs fs2 : FS), (es.map fun e => e.name).Nodup →
      (∀ e ∈ es, isName e.name) → linkEntries B appName es fs = (none, fs2) →
      (∀ e ∈ es, e.isDir = false → lstat fs2 (B ++ [e.name]) =
        .ok (.link (joinRel ["..", "share", "lav", appName, "current", "bin", e.name]))) ∧
      (∀ c n, isName c → c ∉ es.map (fun e => e.name) → lstat fs (B ++ [c]) = .ok n →
        lstat fs2 (B ++ [c]) = .ok n) := by
  intro es
  induction es with
  | nil =>
    intro fs fs2 _ _ h
    simp only [linkEntries] at h
    injection h with _ h
    subst h
    exact ⟨fun e he _ => absurd he (List.not_mem_nil e), fun c n _ _ hl => hl⟩
  | cons e0 es ih =>
    intro fs fs2 hnd hnames h
    have hnd2 : (es.map fun e => e.name).Nodup := (List.nodup_cons.mp hnd).2
    have hnot : e0.name ∉ es.map fun e => e.name := (List.nodup_cons.mp hnd).1
    have hnames2 : ∀ e ∈ es, isName e.name := fun e he => hnames e (List.mem_cons_of_mem _ he)
    have hn0 : isName e0.name := hnames e0 (List.mem_cons_self _ _)
    rw [linkEntries_cons] at h
    by_cases hdir : e0.isDir = true
    · rw [if_pos hdir] at h
      obtain ⟨h1, h2⟩ := ih fs fs2 hnd2 hnames2 h
      refine ⟨fun e he hf => ?_, fun c n hc hcn hl => h2 c n hc (fun hm => hcn ?_) hl⟩
      · rcases List.mem_cons.mp he with rfl | he2
        · rw [hdir] at hf; cases hf
        · exact h1 e he2 hf
      · simp only [List.map_cons, List.mem_cons]
        exact Or.inr hm
    · rw [if_neg hdir, join_of_valid hB (by simpa using hn0)] at h
      cases hr : replaceSymlink fs
          (joinRel ["..", "share", "lav", appName, "current", "bin", e0.name]) (B ++ [e0.name])
          (.wrap "failed to remove existing bin symlink")
          (.wrap ("failed to create bin symlink for " ++ e0.name)) with
      | mk r fs1 =>
        rw [hr] at h
        cases r with
        | some err => cases h
        | none =>
          simp only at h
          obtain ⟨h1, h2⟩ := ih fs1 fs2 hnd2 hnames2 h
          have hl0 : lstat fs1 (B ++ [e0.name]) = .ok (.link
              (joinRel ["..", "share", "lav", appName, "current", "bin", e0.name])) := by
            obtain ⟨qd, _, hqd1, hg, _, _⟩ := replaceSymlink_snoc hn0 hr
            exact lstat_ok.mpr ⟨_, walk_snoc_nofollow fs1 maxLinks [] B hn0 hqd1, hg⟩
          refine ⟨fun e he hf => ?_, fun c n hc hcn hl => ?_⟩
          · rcases List.mem_cons.mp he with rfl | he2
            · exact h2 _ _ hn0 hnot hl0
            · exact h1 e he2 hf
          · simp only [List.map_cons, List.mem_cons, not_or] at hcn
            exact h2 c n hc hcn.2 (replaceSymlink_keeps_sibling hc hn0 hcn.1 hr hl)

/-- Resolution through the current link: where `R/A` is reached through
directories and `current` is the link to `v`, a path below `R/A/current`
resolves below `R/A/v`. -/
theorem resolve_via_link {fs : FS} {D : Path} {c v : String} {rest : List String}
    (hD : ∀ x ∈ D, isName x) (hc : isName c) (hv : isName v) (hrest : ∀ x ∈ rest, isName x)
    (hne : rest ≠ []) (hd : DirsFrom fs [] D) (hl : fs.get (D ++ [c]) = some (.link [v]))
    (hdv : DirsFrom fs D (v :: rest)) :
    resolve fs true (D ++ c :: rest) = .ok (D ++ v :: rest) := by
  have h1 := walk_dirs fs true maxLinks D (c :: rest) [] hD hd
  rw [resolve, h1]
  simp only [List.nil_append]
  obtain ⟨hc1, hc2, hc3, _⟩ := hc
  have hvn : ∀ x ∈ v :: rest, isName x := by
    intro x hx
    rcases List.mem_cons.mp hx with rfl | hx
    · exact hv
    · exact hrest x hx
  have h2 := walk_dirs fs true 39 (v :: rest) [] D hvn hdv
  rw [List.append_nil] at h2
  show walk fs true (39 + 1) D (c :: rest) = _
  rw [walk_succ, walkAux_cons, if_neg (by simp [hc1, hc2]), if_neg hc3, hl]
  simp only [hne, false_and, if_false, List.head?_cons, Option.some.injEq, hv.1,
    List.singleton_append]
  rw [h2]
  simp [walk_succ, walkAux_nil]

/-! ## Claim about the publication links of a directory install -/

/-- Retargeting `current` where `R/A` is reached through directories loses
no directory. -/
theorem retarget_current_kept {fs fs2 : FS} {baseDir : Path} {app v : String}
    {wr wc : Err → Err} (hd : DirsFrom fs [] (join baseDir [app]))
    (h : replaceSymlink fs [v] (join (join baseDir [app]) ["current"]) wr wc = (none, fs2)) :
    ∀ x m, fs.get x = some (.dir m) → ∃ m2, fs2.get x = some (.dir m2) := by
  rw [join_app_version baseDir app isName_current] at h
  obtain ⟨_, hk, _⟩ := replaceSymlink_real [v] wr wc (join_valid baseDir [app])
    isName_current hd
  rwa [h] at hk

/-- C4 (amended): if `installDirectory(R, P, A, V)` succeeds, `R/A/V/bin` was
reached without symbolic links before the call, and the source directory `P`
has a directory `bin` with a regular file `F`, then afterwards `B/F` is a
symbolic link whose target string is exactly `../share/lav/A/current/bin/F`. -/
theorem publication_link_after_install (hm : Path) (depth : Nat) (fs fs2 : FS)
    (baseDir srcDir : Path) (app version F : String) (d : List Nat) (m m1 : Nat)
    (ha : isName app) (hv : isName version) (hF : isName F)
    (hreal : noLinks fs (join baseDir [app, version, "bin"]))
    (hbin : lstat fs (join srcDir ["bin"]) = .ok (.dir m1))
    (hfile : lstat fs (join srcDir ["bin", F]) = .ok (.file d m))
    (h : installDirectory (some hm) depth fs baseDir srcDir app version = (none, fs2)) :
    lstat fs2 (join hm [".local", "bin"] ++ [F]) =
      .ok (.link ["..", "share", "lav", app, "current", "bin", F]) ∧
    pathString ["..", "share", "lav", app, "current", "bin", F] =
      "../share/lav/" ++ app ++ "/current/bin/" ++ F := by
  obtain ⟨htarget, hstring⟩ := relTarget_eq ha hF
  rw [htarget] at hstring
  refine ⟨?_, hstring⟩
  have hDn : ∀ x ∈ join baseDir [app], isName x := join_valid _ _
  have hBn : ∀ x ∈ join hm [".local", "bin"], isName x := join_valid _ _
  have hjv : join baseDir [app, version] = join baseDir [app] ++ [version] :=
    join_snoc baseDir [app] hv
  have hjb : join baseDir [app, version, "bin"] = join baseDir [app] ++ [version, "bin"] := by
    rw [show [app, version, "bin"] = [app, version] ++ ["bin"] from rfl,
      join_snoc baseDir [app, version] isName_bin, hjv]
    simp
  have hjcb : join baseDir [app, "current", "bin"] = join baseDir [app] ++ ["current", "bin"] := by
    rw [show [app, "current", "bin"] = [app, "current"] ++ ["bin"] from rfl,
      join_snoc baseDir [app, "current"] isName_bin,
      show [app, "current"] = [app] ++ ["current"] from rfl,
      join_snoc baseDir [app] isName_current]
    simp
  have hsb : join srcDir ["bin"] = join srcDir [] ++ ["bin"] := join_snoc srcDir [] isName_bin
  have hsf : join srcDir ["bin", F] = join srcDir [] ++ ["bin"] ++ [F] := by
    rw [show ["bin", F] = ["bin"] ++ [F] from rfl, join_snoc srcDir ["bin"] hF, hsb]
  rw [hsb] at hbin
  rw [hsf] at hfile
  rw [hjb] at hreal
  obtain ⟨m0, fs1, fs3, fs4, _, h1, h2, h3, h4⟩ := installDirectory_ok h
  obtain ⟨hd, fs5, entries, hhome, h5, hrd, hle⟩ := createBinSymlinks_ok h4
  injection hhome with hhome
  subst hhome
  rw [hjv] at h1 h2
  have hg1 : Grows fs fs1 := by
    have := mkdirAll_grows fs (join baseDir [app] ++ [version]) 0o755
    rwa [h1] at this
  have hg2 : Grows fs1 fs3 := by
    have := copyDir_grows depth fs1 (join srcDir []) (join baseDir [app] ++ [version])
    rwa [h2] at this
  -- the copy has put an entry `F` into `R/A/V/bin`
  obtain ⟨nb, hlb, hsbn⟩ := lstat_ext hg1.1 hbin
  obtain ⟨mb, rfl⟩ := sameShape_dir hsbn
  obtain ⟨nf, hlf, hsfn⟩ := lstat_ext hg1.1 hfile
  obtain ⟨d1, mf, rfl⟩ := sameShape_file hsfn
  have hVn : ∀ x ∈ join baseDir [app] ++ [version], isName x := by
    rw [← hjv]; exact join_valid _ _
  obtain ⟨n, hln, hnd⟩ := copyDir_bin_file hF (join_valid srcDir []) hVn h2 hlb hlf
  have hVbn : ∀ x ∈ join baseDir [app] ++ [version, "bin"], isName x := by
    rw [← hjb]; exact join_valid _ _
  have hreal3 : noLinks fs3 (join baseDir [app] ++ [version, "bin"]) :=
    noLinks_grows (grows_trans hg1 hg2) hreal
  have hassoc : join baseDir [app] ++ [version] ++ ["bin"] ++ [F] =
      (join baseDir [app] ++ [version, "bin"]) ++ [F] := by simp
  rw [hassoc] at hln
  obtain ⟨q, hq, hgq⟩ := lstat_ok.mp hln
  obtain ⟨qb, hqb, rfl⟩ := walk_snoc_nofollow_inv fs3 maxLinks [] _ hF hq
  obtain ⟨hqbeq, hdirs3⟩ := walkDir_real fs3 maxLinks _ [] qb hVbn
    (noLinkFrom_of_noLinks [] _ (by simpa using hreal3)) hqb
  simp only [List.nil_append] at hqbeq
  subst hqbeq
  obtain ⟨hdD3, hdV3⟩ := dirsFrom_split hdirs3
  simp only [List.nil_append] at hdV3
  -- retargeting `current`
  obtain ⟨hdD4, hl4, hf4⟩ := retarget_current_real hdD3 h3
  have hk4 := retarget_current_kept hdD3 h3
  have hdV4 : DirsFrom fs4 (join baseDir [app]) [version, "bin"] := dirsFrom_kept hk4 hdV3
  have hgF4 : fs4.get (join baseDir [app] ++ [version, "bin"] ++ [F]) = some n := by
    rw [hf4 _ (by
      intro heq
      have := congrArg List.length heq
      simp at this)]
    exact hgq
  -- creating the user bin directory
  have hg5 : Grows fs4 fs5 := by
    have := mkdirAll_grows fs4 (join hm [".local", "bin"]) 0o755
    rwa [h5] at this
  obtain ⟨n5, hgF5, hs5⟩ := hg5.1 _ _ hgF4
  have hnd5 := sameShape_not_dir hs5 hnd
  -- reading `current/bin` lists `F`
  have hres : resolve fs5 true (join baseDir [app] ++ ["current", "bin"]) =
      .ok (join baseDir [app] ++ [version, "bin"]) :=
    resolve_via_link hDn isName_current hv (by simpa using isName_bin) (by simp)
      (dirsFrom_ext hg5.1 hdD4) (get_link_ext hg5.1 hl4) (dirsFrom_ext hg5.1 hdV4)
  rw [hjcb] at hrd
  obtain ⟨q2, m2, hq2, _, hmem⟩ := mem_readDir hrd
  rw [hres] at hq2
  injection hq2 with hq2
  subst hq2
  have hFmem : (⟨F, false⟩ : DirEntry) ∈ entries := by
    rw [hmem]
    show isName F ∧ (fs5.get (_ ++ [F])).isSome = true ∧ false = isDirNode (fs5.get (_ ++ [F]))
    rw [hgF5]
    refine ⟨hF, rfl, ?_⟩
    cases n5 with
    | dir mm => exact absurd rfl (hnd5 mm)
    | file _ _ => rfl
    | link _ => rfl
  have := (linkEntries_links app hBn entries fs5 fs2 (readDir_nodup hrd) (readDir_names hrd)
    hle).1 _ hFmem rfl
  simp only at this
  rw [htarget] at this
  exact this


/-- Witness of C4 (amended): installing `dist` with `bin/t` as version `2.0`. -/
theorem publication_link_after_install_witness :
    lstat (installDirectory (some ["home"]) 8 fsCurrentLink ["r"] ["tmp", "dist"] "app"
        "2.0").2 (join ["home"] [".local", "bin"] ++ ["t"]) =
      .ok (.link ["..", "share", "lav", "app", "current", "bin", "t"]) ∧
    pathString ["..", "share", "lav", "app", "current", "bin", "t"] =
      "../share/lav/" ++ "app" ++ "/current/bin/" ++ "t" :=
  publication_link_after_install ["home"] 8 fsCurrentLink _ ["r"] ["tmp", "dist"] "app" "2.0"
    "t" [7] 0o755 0o755 (by decide) (by decide) (by decide) (noLinks_of_check (by decide))
    (by decide) (by decide) (by decide)

/-- C4 as stated fails: `bin` of version `2.0` is a link leading back through
`current`, so the copy of `bin/t` lands in version `1.0`, which was current
during the copy, while the publication step reads `bin` of `2.0`, which is
current afterwards.  `installDirectory` succeeds and there is no `B/t`. -/
theorem publication_link_after_install_counterexample :
    lstat fsBinLink ["tmp", "dist", "bin", "t"] = .ok (.file [7] 0o755) ∧
    (installDirectory (some ["home"]) 8 fsBinLink ["r"] ["tmp", "dist"] "app" "2.0").1 = none ∧
    lstat (installDirectory (some ["home"]) 8 fsBinLink ["r"] ["tmp", "dist"] "app" "2.0").2
      ["home", ".local", "bin", "t"] = .error .ENOENT ∧
    stat (installDirectory (some ["home"]) 8 fsBinLink ["r"] ["tmp", "dist"] "app" "2.0").2
      ["r", "app", "1.0", "realbin", "t"] = .ok (.file [7] 0o755) := by
  decide

/-! ## Where the primitives write, on paths reached without links -/

/-- Without links on the way, a path resolves to itself (final link not
followed). -/
theorem resolve_false_real {fs : FS} {p q : Path} (hn : ∀ x ∈ p, isName x)
    (hl : noLinks fs p) (h : resolve fs false p = .ok q) : q = p := by
  rcases List.eq_nil_or_concat p with hp | ⟨d, c, hp⟩
  · subst hp
    simp [resolve, maxLinks, walk, walkAux_nil] at h
    exact h
  · subst hp
    rw [List.concat_eq_append] at h hl hn ⊢
    have hc : isName c := hn c (by simp)
    have hdn : ∀ x ∈ d, isName x := fun x hx => hn x (by simp [hx])
    obtain ⟨qd, hqd, rfl⟩ := walk_snoc_nofollow_inv fs maxLinks [] d hc h
    have hld : noLinks fs d := noLinks_of_take hl d ⟨[c], rfl⟩
    obtain ⟨hqd2, _⟩ := walkDir_real fs maxLinks d [] qd hdn
      (noLinkFrom_of_noLinks [] d (by simpa using hld)) hqd
    simp [hqd2]

/-- Without links on the way, a path resolves to itself (links followed). -/
theorem resolve_true_real {fs : FS} {p q : Path} (hn : ∀ x ∈ p, isName x)
    (hl : noLinks fs p) (h : resolve fs true p = .ok q) : q = p := by
  obtain ⟨q0, hq0, hcase⟩ := walk_false_of_true fs maxLinks [] p q h
  have hq0p : q0 = p := resolve_false_real hn hl hq0
  rcases hcase with rfl | ⟨t, ht⟩
  · exact hq0p
  · rw [hq0p] at ht
    exact absurd ht (hl p (List.prefix_refl p) t)

/-- `os.MkdirAll` on a path reached without links only binds initial
segments of the path. -/
theorem mkdirAllN_frame (mode : Nat) {p : Path} (hn : ∀ x ∈ p, isName x) (n : Nat) :
    ∀ (fs : FS), noLinks fs p → ∀ x, ¬ (x <+: p) →
      (mkdirAllN mode p n fs).2.get x = fs.get x := by
  induction n with
  | zero => intro fs _ x _; rfl
  | succ n ih =>
    intro fs hl x hx
    rw [mkdirAllN_succ]
    have h1 := ih fs hl x hx
    have hg1 := mkdirAllN_grows mode p n fs
    cases hs : stat fs (List.take (n + 1) p) with
    | ok nd => cases nd <;> rfl
    | error e =>
      simp only
      cases hr : mkdirAllN mode p n fs with
      | mk r fs1 =>
        rw [hr] at h1 hg1
        cases r with
        | some e1 => exact h1
        | none =>
          simp only
          cases hm : mkdir fs1 (List.take (n + 1) p) mode with
          | error e2 =>
            simp only
            split <;> exact h1
          | ok fs2 =>
            simp only
            obtain ⟨q, hq, _, rfl⟩ := mkdir_ok.mp hm
            have htn : ∀ y ∈ List.take (n + 1) p, isName y :=
              fun y hy => hn y (List.mem_of_mem_take hy)
            have hq2 : q = List.take (n + 1) p :=
              resolve_false_real htn
                (noLinks_of_take (noLinks_grows hg1 hl) _ (List.take_prefix _ _)) hq
            rw [get_set_ne _ _ (by
              rintro rfl
              exact hx (hq2 ▸ List.take_prefix _ _))]
            exact h1

theorem mkdirAll_frame {fs : FS} {p : Path} (mode : Nat) (hn : ∀ x ∈ p, isName x)
    (hl : noLinks fs p) : ∀ x, ¬ (x <+: p) → (mkdirAll fs p mode).2.get x = fs.get x :=
  mkdirAllN_frame mode hn p.length fs hl

/-- `copyFile` to a destination reached without links only binds the
destination. -/
theorem copyFile_frame {fs : FS} (src : Path) {dst : Path} (hn : ∀ x ∈ dst, isName x)
    (hl : noLinks fs dst) : ∀ x, x ≠ dst → (copyFile fs src dst).2.get x = fs.get x := by
  intro x hx
  rcases copyFile_cases fs src dst with ⟨e, he⟩ | ⟨qs, fs1, qd, _, hc, hrest⟩
  · rw [he]
  · obtain ⟨hr, _, m, hfs1, _⟩ := create_ok hc
    have hqd : qd = dst := resolve_true_real hn hl hr
    subst hqd
    rcases hrest with ⟨e, he⟩ | ⟨d, m0, m2, _, _, he⟩
    · rw [he, hfs1]
      exact get_set_ne _ _ hx
    · rw [he, hfs1]
      simp only
      rw [get_set_ne _ _ hx, get_set_ne _ _ hx]

/-- `os.Chmod` on a path reached without links only binds that path. -/
theorem chmod_frame {fs fs2 : FS} {p : Path} {mode : Nat} (hn : ∀ x ∈ p, isName x)
    (hl : noLinks fs p) (h : chmod fs p mode = .ok fs2) :
    ∀ x, x ≠ p → fs2.get x = fs.get x := by
  intro x hx
  obtain ⟨q, n, n2, hq, _, _, rfl, _⟩ := chmod_ok h
  have hqp : q = p := resolve_true_real hn hl hq
  subst hqp
  exact get_set_ne _ _ hx

/-! ## Where `copyDir` writes -/

theorem noLinksAround_grows {fs fs2 : FS} {T : Path} (h : Grows fs fs2)
    (hl : noLinksAround fs T) : noLinksAround fs2 T :=
  fun q t hq ht => hl q t hq (h.2 q t ht)

theorem noLinks_of_around {fs : FS} {T p : Path} (hl : noLinksAround fs T) (hp : T <+: p) :
    noLinks fs p := by
  intro q hq t
  exact hl q t (List.prefix_or_prefix_of_prefix hq hp)

theorem sameOutside_refl (T : Path) (fs : FS) : sameOutside T fs fs := fun _ _ _ => rfl

theorem sameOutside_trans {T : Path} {fs1 fs2 fs3 : FS} (h1 : sameOutside T fs1 fs2)
    (h2 : sameOutside T fs2 fs3) : sameOutside T fs1 fs3 :=
  fun x hx1 hx2 => (h2 x hx1 hx2).trans (h1 x hx1 hx2)

theorem names_snoc {p : Path} {c : String} (hp : ∀ x ∈ p, isName x) (hc : isName c) :
    ∀ x ∈ p ++ [c], isName x := by
  intro x hx
  rcases List.mem_append.mp hx with hx | hx
  · exact hp x hx
  · simp at hx; rw [hx]; exact hc

theorem copyEntries_frame {T : Path} {rec : FS → Path → Path → Option Err × FS}
    (hrecg : ∀ fs s d, Grows fs (rec fs s d).2)
    (hrec : ∀ fs s d, T <+: d → (∀ x ∈ d, isName x) → noLinksAround fs T →
      sameOutside T fs (rec fs s d).2)
    (src : Path) {dst : Path} (hdn : ∀ x ∈ dst, isName x) (hTd : T <+: dst) :
    ∀ (es : List DirEntry) (fs : FS), (∀ e ∈ es, isName e.name) → noLinksAround fs T →
      sameOutside T fs (copyEntries rec src dst es fs).2 := by
  intro es
  induction es with
  | nil => intro fs _ _; exact sameOutside_refl T fs
  | cons e es ih =>
    intro fs hes hl
    have hen : isName e.name := hes e (List.mem_cons_self _ _)
    have hes2 : ∀ e2 ∈ es, isName e2.name := fun e2 h2 => hes e2 (List.mem_cons_of_mem _ h2)
    have hjd : join dst [e.name] = dst ++ [e.name] := join_of_valid hdn (by simpa using hen)
    have hdn2 := names_snoc hdn hen
    have hTd2 : T <+: dst ++ [e.name] := hTd.trans (List.prefix_append _ _)
    rw [copyEntries_cons, hjd]
    split
    · have h1 := hrec fs (join src [e.name]) (dst ++ [e.name]) hTd2 hdn2 hl
      have hg1 := hrecg fs (join src [e.name]) (dst ++ [e.name])
      cases hr : rec fs (join src [e.name]) (dst ++ [e.name]) with
      | mk r fs1 =>
        rw [hr] at h1 hg1
        cases r with
        | some err => exact h1
        | none => exact sameOutside_trans h1 (ih fs1 hes2 (noLinksAround_grows hg1 hl))
    · have h1 : sameOutside T fs (copyFile fs (join src [e.name]) (dst ++ [e.name])).2 :=
        fun x hx1 _ => copyFile_frame _ hdn2 (noLinks_of_around hl hTd2) x
          (by rintro rfl; exact hx1 hTd2)
      have hg1 := copyFile_grows fs (join src [e.name]) (dst ++ [e.name])
      cases hr : copyFile fs (join src [e.name]) (dst ++ [e.name]) with
      | mk r fsa =>
        rw [hr] at h1 hg1
        cases r with
        | some err => exact h1
        | none =>
          simp only
          cases hs : stat fsa (join src [e.name]) with
          | error e2 => exact h1
          | ok info =>
            simp only
            cases hc : chmod fsa (dst ++ [e.name]) (nodeMode info) with
            | error e2 => exact h1
            | ok fsb =>
              simp only
              have h2 : sameOutside T fsa fsb :=
                fun x hx1 _ => chmod_frame hdn2
                  (noLinks_of_around (noLinksAround_grows hg1 hl) hTd2) hc x
                  (by rintro rfl; exact hx1 hTd2)
              exact sameOutside_trans (sameOutside_trans h1 h2)
                (ih fsb hes2 (noLinksAround_grows (grows_trans hg1 (chmod_grows hc)) hl))

/-- `copyDir` into a destination inside `T`, where no link lies on the way
to `T` or inside `T`, changes nothing outside `T`. -/
theorem copyDir_frame {T : Path} (depth : Nat) :
    ∀ (fs : FS) (src dst : Path), T <+: dst → (∀ x ∈ dst, isName x) → noLinksAround fs T →
      sameOutside T fs (copyDir depth fs src dst).2 := by
  induction depth with
  | zero => intro fs src dst _ _ _; exact sameOutside_refl T fs
  | succ k ih =>
    intro fs src dst hTd hdn hl
    rw [copyDir_succ]
    cases hs : stat fs src with
    | error e => exact sameOutside_refl T fs
    | ok info =>
      simp only
      have h1 : sameOutside T fs (mkdirAll fs dst (nodeMode info)).2 :=
        fun x hx1 hx2 => mkdirAll_frame _ hdn (noLinks_of_around hl hTd) x (fun hxd => by
          rcases List.prefix_or_prefix_of_prefix hxd hTd with h | h
          · exact hx2 h
          · exact hx1 h)
      have hg1 := mkdirAll_grows fs dst (nodeMode info)
      cases hm : mkdirAll fs dst (nodeMode info) with
      | mk r fs1 =>
        rw [hm] at h1 hg1
        cases r with
        | some e => exact h1
        | none =>
          simp only
          cases hr : readDir fs1 src with
          | error e => exact h1
          | ok entries =>
            exact sameOutside_trans h1
              (copyEntries_frame (copyDir_grows k) (fun fs s d => ih fs s d) src hdn hTd
                entries fs1 (readDir_names hr) (noLinksAround_grows hg1 hl))

/-! ## Claim about the other versions -/

theorem snoc_eq_of_common {D y : Path} {a b : String} (ha : D ++ [a] <+: y)
    (hb : D ++ [b] <+: y) : a = b := by
  have h1 : D ++ [a] <+: D ++ [b] :=
    List.prefix_of_prefix_length_le ha hb (by simp)
  have h2 := h1.eq_of_length (by simp)
  simpa using h2

/-- The facts about a path `x` at or below `R/A/V2` that the frame argument
uses. -/
theorem other_version_facts {D x : Path} {v v2 : String} (hne : v2 ≠ v)
    (hnc : v2 ≠ "current") (hx : D ++ [v2] <+: x) :
    ¬ (D ++ [v] <+: x) ∧ ¬ (x <+: D ++ [v]) ∧ x ≠ D ++ ["current"] ∧ D <+: x := by
  refine ⟨fun h => hne (snoc_eq_of_common hx h), fun h => ?_, ?_, ?_⟩
  · exact hne (snoc_eq_of_common (hx.trans h) (List.prefix_refl _))
  · rintro rfl
    exact hnc (snoc_eq_of_common hx (List.prefix_refl _))
  · exact (List.prefix_append D [v2]).trans hx

/-- The current link and the publication link of `installBinary`, from a
state in which `R/A` is reached through directories: nothing at or below
another version changes. -/
theorem publish_binary_frame {home : Option Path} {fs3 : FS} {baseDir : Path}
    {app version name : String} {x : Path}
    (hd3 : DirsFrom fs3 [] (join baseDir [app]))
    (hname : isName name ∨ name = "/")
    (hBl : ∀ hm, home = some hm → noLinks fs3 (join hm [".local", "bin"]))
    (hB : ∀ hm F, home = some hm →
      ¬ (join baseDir [app] <+: join hm [".local", "bin"] ++ [F]))
    (hxc : x ≠ join baseDir [app] ++ ["current"]) (hxD : join baseDir [app] <+: x) :
    (match replaceSymlink fs3 [version] (join (join baseDir [app]) ["current"])
        (.wrap "failed to remove existing symlink")
        (.wrap "failed to create current symlink") with
      | (some e, fs4) => (some e, fs4)
      | (none, fs4) =>
        match home with
        | none => (some (.wrap "failed to get home directory" .home), fs4)
        | some h =>
          match mkdirAll fs4 (join h [".local", "bin"]) 0o755 with
          | (some e, fs5) => (some (.wrap "failed to create ~/.local/bin" (.sys e)), fs5)
          | (none, fs5) =>
            replaceSymlink fs5
              (joinRel ["..", "share", "lav", app, "current", "bin", name])
              (join (join h [".local", "bin"]) [name])
              (.wrap "failed to remove existing bin symlink")
              (.wrap "failed to create bin symlink")).2.get x = fs3.get x := by
  rw [join_app_version baseDir app isName_current]
  obtain ⟨hf4, hk4, _⟩ := replaceSymlink_real [version]
    (.wrap "failed to remove existing symlink") (.wrap "failed to create current symlink")
    (join_valid baseDir [app]) isName_current hd3
  cases h4 : replaceSymlink fs3 [version] (join baseDir [app] ++ ["current"])
      (.wrap "failed to remove existing symlink")
      (.wrap "failed to create current symlink") with
  | mk r4 fs4 =>
    rw [h4] at hf4 hk4
    have f4 : fs4.get x = fs3.get x := hf4 x hxc
    cases r4 with
    | some e => exact f4
    | none =>
      simp only
      cases home with
      | none => exact f4
      | some hm =>
        simp only
        have hBn : ∀ y ∈ join hm [".local", "bin"], isName y := join_valid _ _
        have hB4 : noLinks fs4 (join hm [".local", "bin"]) := by
          intro q hq t ht
          have hqc : q ≠ join baseDir [app] ++ ["current"] := by
            rintro rfl
            exact hB hm "" rfl
              (((List.prefix_append _ _).trans hq).trans (List.prefix_append _ _))
          rw [hf4 q hqc] at ht
          exact hBl hm rfl q hq t ht
        have hxB : ∀ F, ¬ (x <+: join hm [".local", "bin"] ++ [F]) :=
          fun F h => hB hm F rfl (hxD.trans h)
        have f5 : (mkdirAll fs4 (join hm [".local", "bin"]) 0o755).2.get x = fs4.get x :=
          mkdirAll_frame _ hBn hB4 x (fun h => hxB "" (h.trans (List.prefix_append _ _)))
        have hg5 := mkdirAll_grows fs4 (join hm [".local", "bin"]) 0o755
        cases h5 : mkdirAll fs4 (join hm [".local", "bin"]) 0o755 with
        | mk r5 fs5 =>
          rw [h5] at f5 hg5
          cases r5 with
          | some e => exact f5.trans f4
          | none =>
            simp only
            obtain ⟨m5, hst5⟩ := mkdirAll_ok_stat h5
            have hdB : DirsFrom fs5 [] (join hm [".local", "bin"]) :=
              dirs_of_stat_dir hBn (noLinks_grows hg5 hB4) hst5
            rcases hname with hnm | hroot
            · rw [join_join_name hm [".local", "bin"] hnm]
              obtain ⟨hf6, _, _⟩ := replaceSymlink_real
                (joinRel ["..", "share", "lav", app, "current", "bin", name])
                (.wrap "failed to remove existing bin symlink")
                (.wrap "failed to create bin symlink") hBn hnm hdB
              rw [hf6 x (fun heq => hxB name (by rw [heq])), f5, f4]
            · subst hroot
              rw [join_sep]
              obtain ⟨m6, hls⟩ := lstat_of_dirs hBn hdB
              obtain ⟨e, he⟩ := replaceSymlink_fails hls (by simp)
                (joinRel ["..", "share", "lav", app, "current", "bin", "/"])
                (.wrap "failed to remove existing bin symlink")
                (.wrap "failed to create bin symlink")
              rw [he]
              exact f5.trans f4

theorem join3_bin (baseDir : Path) (app : String) {version : String} (hv : isName version) :
    join baseDir [app, version, "bin"] = join baseDir [app] ++ [version] ++ ["bin"] := by
  rw [show [app, version, "bin"] = [app, version] ++ ["bin"] from rfl,
    join_snoc baseDir [app, version] isName_bin,
    show [app, version] = [app] ++ [version] from rfl, join_snoc baseDir [app] hv]

theorem not_prefix_of_outside {T x p : Path} (hTp : T <+: p) (h1 : ¬ (T <+: x))
    (h2 : ¬ (x <+: T)) : ¬ (x <+: p) := by
  intro h
  rcases List.prefix_or_prefix_of_prefix h hTp with h | h
  · exact h2 h
  · exact h1 h

/-- The frame of `installBinary`: nothing at or below another version
changes. -/
theorem installBinary_frame {home : Option Path} {fs : FS} {baseDir binaryPath : Path}
    {app version v2 : String} {x : Path} (hv : isName version) (hv2 : isName v2)
    (hne : v2 ≠ version) (hnc : v2 ≠ "current")
    (hlinks : noLinksAround fs (join baseDir [app, version]))
    (hBl : ∀ hm, home = some hm → noLinks fs (join hm [".local", "bin"]))
    (hB : ∀ hm F, home = some hm →
      ¬ (join baseDir [app] <+: join hm [".local", "bin"] ++ [F]))
    (hx : join baseDir [app, v2] <+: x) :
    (installBinary home fs baseDir binaryPath app version).2.get x = fs.get x := by
  have hjv : join baseDir [app, version] = join baseDir [app] ++ [version] :=
    join_snoc baseDir [app] hv
  have hjv2 : join baseDir [app, v2] = join baseDir [app] ++ [v2] := join_snoc baseDir [app] hv2
  rw [hjv] at hlinks
  rw [hjv2] at hx
  obtain ⟨hx1, hx2, hxc, hxD⟩ := other_version_facts hne hnc hx
  have hDn : ∀ y ∈ join baseDir [app], isName y := join_valid _ _
  have hTb : join baseDir [app] ++ [version] <+: join baseDir [app, version, "bin"] := by
    rw [join3_bin baseDir app hv]
    exact List.prefix_append _ _
  have hname : isName (pathBase (join binaryPath [])) ∨ pathBase (join binaryPath []) = "/" := by
    by_cases hroot : join binaryPath [] = []
    · right; rw [hroot]; rfl
    · left; exact pathBase_name (join_valid _ _) hroot
  have hTdst : join baseDir [app] ++ [version] <+:
      join (join baseDir [app, version, "bin"]) [pathBase (join binaryPath [])] := by
    rcases hname with hnm | hroot
    · rw [join_join_name _ _ hnm]
      exact hTb.trans (List.prefix_append _ _)
    · rw [hroot, join_sep]
      exact hTb
  have hdstn : ∀ y ∈ join (join baseDir [app, version, "bin"]) [pathBase (join binaryPath [])],
      isName y := join_valid _ _
  have hxdst : x ≠ join (join baseDir [app, version, "bin"]) [pathBase (join binaryPath [])] := by
    rintro rfl
    exact hx1 hTdst
  unfold installBinary
  simp only
  split
  · rfl
  · have f1 : (mkdirAll fs (join baseDir [app, version, "bin"]) 0o755).2.get x = fs.get x :=
      mkdirAll_frame _ (join_valid _ _) (noLinks_of_around hlinks hTb) x
        (not_prefix_of_outside hTb hx1 hx2)
    have hg1 := mkdirAll_grows fs (join baseDir [app, version, "bin"]) 0o755
    cases h1 : mkdirAll fs (join baseDir [app, version, "bin"]) 0o755 with
    | mk r1 fs1 =>
      rw [h1] at f1 hg1
      cases r1 with
      | some e => exact f1
      | none =>
        simp only
        have f2 := copyFile_frame (join binaryPath []) hdstn
          (noLinks_of_around (noLinksAround_grows hg1 hlinks) hTdst) x hxdst
        have hg2 := copyFile_grows fs1 (join binaryPath [])
          (join (join baseDir [app, version, "bin"]) [pathBase (join binaryPath [])])
        cases h2 : copyFile fs1 (join binaryPath [])
            (join (join baseDir [app, version, "bin"]) [pathBase (join binaryPath [])]) with
        | mk r2 fs2 =>
          rw [h2] at f2 hg2
          cases r2 with
          | some e => exact f2.trans f1
          | none =>
            simp only
            cases h3 : chmod fs2 (join (join baseDir [app, version, "bin"])
                [pathBase (join binaryPath [])]) 0o755 with
            | error e => exact f2.trans f1
            | ok fs3 =>
              simp only
              have hg3 : Grows fs fs3 := grows_trans (grows_trans hg1 hg2) (chmod_grows h3)
              have f3 : fs3.get x = fs2.get x :=
                chmod_frame hdstn (noLinks_of_around
                  (noLinksAround_grows (grows_trans hg1 hg2) hlinks) hTdst) h3 x hxdst
              obtain ⟨m, hst⟩ := mkdirAll_ok_stat h1
              rw [join3_bin baseDir app hv, List.append_assoc] at hst
              obtain ⟨q, hq, _⟩ := stat_ok.mp hst
              have hlD : noLinks fs1 (join baseDir [app]) :=
                noLinks_of_take (noLinks_of_around (noLinksAround_grows hg1 hlinks)
                  (List.prefix_refl _)) _ (List.prefix_append _ _)
              have hd1 : DirsFrom fs1 [] (join baseDir [app]) :=
                dirs_of_resolve_below hDn hlD (by simp) hq
              have hd3 : DirsFrom fs3 [] (join baseDir [app]) :=
                dirsFrom_ext (chmod_grows h3).1 (dirsFrom_ext hg2.1 hd1)
              have := @publish_binary_frame _ _ _ _ version _ _ hd3 hname
                (fun hm hh => noLinks_grows hg3 (hBl hm hh)) hB hxc hxD
              rw [this, f3, f2, f1]

/-- The frame of `createBinSymlinks` where the user bin directory is reached
without links: only initial segments of `B` and entries of `B` can have
changed. -/
theorem createBinSymlinks_frame {home : Option Path} {fs : FS} (baseDir : Path)
    (app : String) {x : Path}
    (hBl : ∀ hm, home = some hm → noLinks fs (join hm [".local", "bin"]))
    (hxB : ∀ hm F, home = some hm → ¬ (x <+: join hm [".local", "bin"] ++ [F])) :
    (createBinSymlinks home fs baseDir app).2.get x = fs.get x := by
  unfold createBinSymlinks
  cases home with
  | none => rfl
  | some hm =>
    simp only
    have hBn : ∀ y ∈ join hm [".local", "bin"], isName y := join_valid _ _
    have f1 : (mkdirAll fs (join hm [".local", "bin"]) 0o755).2.get x = fs.get x :=
      mkdirAll_frame _ hBn (hBl hm rfl) x
        (fun h => hxB hm "" rfl (h.trans (List.prefix_append _ _)))
    have hg1 := mkdirAll_grows fs (join hm [".local", "bin"]) 0o755
    cases h1 : mkdirAll fs (join hm [".local", "bin"]) 0o755 with
    | mk r1 fs1 =>
      rw [h1] at f1 hg1
      cases r1 with
      | some e => exact f1
      | none =>
        simp only
        cases hr : readDir fs1 (join baseDir [app, "current", "bin"]) with
        | error e => exact f1
        | ok entries =>
          simp only
          obtain ⟨m, hst⟩ := mkdirAll_ok_stat h1
          have hdB : DirsFrom fs1 [] (join hm [".local", "bin"]) :=
            dirs_of_stat_dir hBn (noLinks_grows hg1 (hBl hm rfl)) hst
          obtain ⟨hf, _⟩ := linkEntries_real app hBn entries fs1 (readDir_names hr) hdB
          rw [hf x (fun F heq => hxB hm F rfl (by rw [heq])), f1]

/-- The frame of `installDirectory`: nothing at or below another version
changes. -/
theorem installDirectory_frame {home : Option Path} {depth : Nat} {fs : FS}
    {baseDir srcDir : Path} {app version v2 : String} {x : Path} (hv : isName version)
    (hv2 : isName v2) (hne : v2 ≠ version) (hnc : v2 ≠ "current")
    (hlinks : noLinksAround fs (join baseDir [app, version]))
    (hBl : ∀ hm, home = some hm → noLinks fs (join hm [".local", "bin"]))
    (hB : ∀ hm F, home = some hm →
      ¬ (join baseDir [app] <+: join hm [".local", "bin"] ++ [F]))
    (hx : join baseDir [app, v2] <+: x) :
    (installDirectory home depth fs baseDir srcDir app version).2.get x = fs.get x := by
  have hjv : join baseDir [app, version] = join baseDir [app] ++ [version] :=
    join_snoc baseDir [app] hv
  have hjv2 : join baseDir [app, v2] = join baseDir [app] ++ [v2] := join_snoc baseDir [app] hv2
  have hTn : ∀ y ∈ join baseDir [app, version], isName y := join_valid _ _
  rw [hjv2] at hx
  obtain ⟨hx1, hx2, hxc, hxD⟩ := other_version_facts hne hnc hx
  rw [← hjv] at hx1 hx2
  have hDn : ∀ y ∈ join baseDir [app], isName y := join_valid _ _
  unfold installDirectory
  simp only
  cases h0 : stat fs (join srcDir []) with
  | error e => rfl
  | ok nd =>
    simp only
    split
    · rfl
    · split
      · rfl
      · have f1 : (mkdirAll fs (join baseDir [app, version]) 0o755).2.get x = fs.get x :=
          mkdirAll_frame _ hTn (noLinks_of_around hlinks (List.prefix_refl _)) x hx2
        have hg1 := mkdirAll_grows fs (join baseDir [app, version]) 0o755
        cases h1 : mkdirAll fs (join baseDir [app, version]) 0o755 with
        | mk r1 fs1 =>
          rw [h1] at f1 hg1
          cases r1 with
          | some e => exact f1
          | none =>
            simp only
            have f2 : (copyDir depth fs1 (join srcDir []) (join baseDir [app, version])).2.get x
                = fs1.get x :=
              copyDir_frame depth fs1 _ _ (List.prefix_refl _) hTn
                (noLinksAround_grows hg1 hlinks) x hx1 hx2
            have hg2 := copyDir_grows depth fs1 (join srcDir []) (join baseDir [app, version])
            cases h2 : copyDir depth fs1 (join srcDir []) (join baseDir [app, version]) with
            | mk r2 fs2 =>
              rw [h2] at f2 hg2
              cases r2 with
              | some e => exact f2.trans f1
              | none =>
                simp only
                obtain ⟨m, hst⟩ := mkdirAll_ok_stat h1
                rw [hjv] at hst
                obtain ⟨q, hq, _⟩ := stat_ok.mp hst
                have hlD : noLinks fs1 (join baseDir [app]) :=
                  noLinks_of_take (noLinks_of_around (noLinksAround_grows hg1 hlinks)
                    (List.prefix_refl _)) _ (hjv ▸ List.prefix_append _ _)
                have hd2 : DirsFrom fs2 [] (join baseDir [app]) :=
                  dirsFrom_ext hg2.1 (dirs_of_resolve_below hDn hlD (by simp) hq)
                rw [join_app_version baseDir app isName_current]
                obtain ⟨hf3, _, _⟩ := replaceSymlink_real [version]
                  (.wrap "failed to remove existing symlink")
                  (.wrap "failed to create current symlink") hDn isName_current hd2
                cases h3 : replaceSymlink fs2 [version] (join baseDir [app] ++ ["current"])
                    (.wrap "failed to remove existing symlink")
                    (.wrap "failed to create current symlink") with
                | mk r3 fs3 =>
                  rw [h3] at hf3
                  have f3 : fs3.get x = fs2.get x := hf3 x hxc
                  cases r3 with
                  | some e => exact f3.trans (f2.trans f1)
                  | none =>
                    simp only
                    have hB3 : ∀ hm, home = some hm → noLinks fs3 (join hm [".local", "bin"]) := by
                      intro hm hh q hq t ht
                      have hqc : q ≠ join baseDir [app] ++ ["current"] := by
                        rintro rfl
                        exact hB hm "" hh
                          (((List.prefix_append _ _).trans hq).trans (List.prefix_append _ _))
                      rw [hf3 q hqc] at ht
                      exact noLinks_grows (grows_trans hg1 hg2) (hBl hm hh) q hq t ht
                    have f4 := @createBinSymlinks_frame home fs3 baseDir app x
                      hB3 (fun hm F hh h => hB hm F hh (hxD.trans h))
                    cases h4 : createBinSymlinks home fs3 baseDir app with
                    | mk r4 fs4 =>
                      rw [h4] at f4
                      cases r4 with
                      | some e => exact f4.trans (f3.trans (f2.trans f1))
                      | none => exact f4.trans (f3.trans (f2.trans f1))

/-- Soundness of the check `noLinksAroundB`. -/
theorem assoc_mem {fs : FS} {p : Path} {n : Node} (h : assoc fs p = some n) :
    (p, some n) ∈ fs := by
  induction fs with
  | nil => simp [assoc] at h
  | cons b fs ih =>
    obtain ⟨q, v⟩ := b
    by_cases hq : q = p
    · simp only [assoc, if_pos hq] at h
      rw [hq, h]
      exact List.mem_cons_self _ _
    · simp only [assoc, if_neg hq] at h
      exact List.mem_cons_of_mem _ (ih h)

theorem noLinksAround_of_check {fs : FS} {T : Path} (h : noLinksAroundB fs T = true) :
    noLinksAround fs T := by
  unfold noLinksAroundB at h
  rw [Bool.and_eq_true] at h
  obtain ⟨h1, h2⟩ := h
  intro q t hq hg
  rcases hq with hq | hq
  · exact noLinks_of_check h1 q hq t hg
  · by_cases hnil : q = []
    · subst hnil
      rw [get_root] at hg
      cases hg
    · have hassoc : assoc fs q = some (.link t) := by
        simpa [FS.get, hnil] using hg
      have hmem := assoc_mem hassoc
      rw [List.all_eq_true] at h2
      have := h2 _ hmem
      simp only [hg, bne_self_eq_false, Bool.or_false, Bool.not_eq_true',
        List.isPrefixOf_iff_prefix] at this
      have hp : T.isPrefixOf q = true := List.isPrefixOf_iff_prefix.mpr hq
      rw [hp] at this
      cases this

/-- C5 (amended): installing version `V` of `A` (`installBinary` or
`installDirectory`, whatever the outcome) leaves every node at or below
`R/A/V2` as it was, for every version name `V2` other than `V` and `current`,
provided that before the call no symbolic link lies on the way to `R/A/V` or
inside it, the user bin directory `B` is reached without symbolic links, and
`R/A` is neither `B`, nor an entry of `B`, nor a directory on the way to
`B`. -/
theorem install_leaves_other_versions (home : Option Path) (depth : Nat) (fs : FS)
    (baseDir binaryPath srcDir : Path) (app version v2 : String) (hv : isName version)
    (hv2 : isName v2) (hne : v2 ≠ version) (hnc : v2 ≠ "current")
    (hlinks : noLinksAround fs (join baseDir [app, version]))
    (hBl : ∀ hm, home = some hm → noLinks fs (join hm [".local", "bin"]))
    (hB : ∀ hm F, home = some hm →
      ¬ (join baseDir [app] <+: join hm [".local", "bin"] ++ [F]))
    (x : Path) (hx : join baseDir [app, v2] <+: x) :
    (installBinary home fs baseDir binaryPath app version).2.get x = fs.get x ∧
    (installDirectory home depth fs baseDir srcDir app version).2.get x = fs.get x :=
  ⟨installBinary_frame hv hv2 hne hnc hlinks hBl hB hx,
   installDirectory_frame hv hv2 hne hnc hlinks hBl hB hx⟩

/-- Witness of C5 (amended): installing version `2.0` next to version `1.0`. -/
theorem install_leaves_other_versions_witness :
    (installBinary (some ["home"]) fsCurrentLink ["r"] ["tmp", "tool"] "app" "2.0").2.get
      ["r", "app", "1.0"] = fsCurrentLink.get ["r", "app", "1.0"] ∧
    (installDirectory (some ["home"]) 8 fsCurrentLink ["r"] ["tmp", "dist"] "app" "2.0").2.get
      ["r", "app", "1.0"] = fsCurrentLink.get ["r", "app", "1.0"] :=
  install_leaves_other_versions (some ["home"]) 8 fsCurrentLink ["r"] ["tmp", "tool"]
    ["tmp", "dist"] "app" "2.0" "1.0" (by decide) (by decide) (by decide) (by decide)
    (noLinksAround_of_check (by decide))
    (fun hm hh => by
      injection hh with hh
      subst hh
      exact noLinks_of_check (by decide))
    (fun hm F hh h => by
      injection hh with hh
      subst hh
      simp [join, cleanStep] at h)
    ["r", "app", "1.0"] (by decide)

/-- C5 as stated fails: with the data root `~` and the application `.local`,
the user bin directory `~/.local/bin` is the directory of a version named
`bin`; installing version `1.0` creates `~/.local/bin` and the publication
link `~/.local/bin/tool` in it. -/
theorem install_leaves_other_versions_counterexample :
    "bin" ≠ "1.0" ∧
    join ["home"] [".local", "bin"] <+: ["home", ".local", "bin", "tool"] ∧
    (installBinary (some ["home"]) fsHomeRoot ["home"] ["tmp", "tool"] ".local" "1.0").1 =
      none ∧
    fsHomeRoot.get ["home", ".local", "bin", "tool"] = none ∧
    (installBinary (some ["home"]) fsHomeRoot ["home"] ["tmp", "tool"] ".local" "1.0").2.get
      ["home", ".local", "bin", "tool"] =
        some (.link ["..", "share", "lav", ".local", "current", "bin", "tool"]) := by
  decide

/-! ## Claim about the data root -/

theorem isName_lav : isName "lav" := by decide
theorem isName_dotlocal : isName ".local" := by decide
theorem isName_share : isName "share" := by decide

/-- Joining proper names to a clean absolute path appends them. -/
theorem joinPieces_clean {comps : List String} (hne : comps ≠ [])
    (hc : ∀ c ∈ comps, isName c) {elems : List String} (he : ∀ c ∈ elems, isName c) :
    joinPieces ("" :: comps) elems = "" :: (comps ++ elems) := by
  have h1 : ¬ isEmptyString ("" :: comps) := by
    unfold isEmptyString
    simp [hne]
  have h2 : join ("" :: comps) elems = comps ++ elems := by
    unfold join
    rw [List.cons_append, List.foldl_cons]
    have : cleanStep [] "" = [] := by simp [cleanStep]
    rw [this, foldl_cleanStep_names]
    · simp
    · intro c hx
      rcases List.mem_append.mp hx with hx | hx
      · exact hc c hx
      · exact he c hx
  unfold joinPieces
  rw [if_neg h1, if_pos (by simp), h2]
  cases hcomps : comps ++ elems with
  | nil => simp at hcomps; exact absurd hcomps.1 hne
  | cons a l => rfl

/-- C11: `getBaseDir` is a function of the environment with first-match-wins
precedence.  It returns `LAV_ROOT` unchanged when that is not empty; otherwise
`XDG_DATA_HOME` joined with `lav` when `XDG_DATA_HOME` is not empty; otherwise
the home directory joined with `.local/share/lav`.  For a clean absolute
value the joined path is the value followed by the added names.  It returns
an error exactly when both variables are empty and the home directory cannot
be determined, and the error is that of `os.UserHomeDir`. -/
theorem getBaseDir_precedence (env : Env) :
    (¬ isEmptyString env.lavRoot → getBaseDir env = .ok env.lavRoot) ∧
    (isEmptyString env.lavRoot → ¬ isEmptyString env.xdgDataHome →
      getBaseDir env = .ok (joinPieces env.xdgDataHome ["lav"])) ∧
    (isEmptyString env.lavRoot → isEmptyString env.xdgDataHome →
      ∀ home, env.userHomeDir = some home →
        getBaseDir env = .ok (joinPieces home [".local", "share", "lav"])) ∧
    (∀ e, getBaseDir env = .error e ↔
      (isEmptyString env.lavRoot ∧ isEmptyString env.xdgDataHome ∧
        env.userHomeDir = none ∧ e = .home)) ∧
    (∀ comps : List String, comps ≠ [] → (∀ c ∈ comps, isName c) →
      joinPieces ("" :: comps) ["lav"] = "" :: (comps ++ ["lav"]) ∧
      joinPieces ("" :: comps) [".local", "share", "lav"]
        = "" :: (comps ++ [".local", "share", "lav"])) := by
  refine ⟨?_, ?_, ?_, ?_, ?_⟩
  · intro h
    unfold getBaseDir
    rw [if_pos h]
  · intro h1 h2
    unfold getBaseDir
    rw [if_neg (not_not.mpr h1), if_pos h2]
  · intro h1 h2 home hh
    unfold getBaseDir
    rw [if_neg (not_not.mpr h1), if_neg (not_not.mpr h2), hh]
  · intro e
    unfold getBaseDir
    by_cases h1 : isEmptyString env.lavRoot
    · rw [if_neg (not_not.mpr h1)]
      by_cases h2 : isEmptyString env.xdgDataHome
      · rw [if_neg (not_not.mpr h2)]
        cases hh : env.userHomeDir with
        | none =>
          constructor
          · intro h
            injection h with h
            exact ⟨h1, h2, rfl, h.symm⟩
          · rintro ⟨_, _, _, rfl⟩
            rfl
        | some home =>
          constructor
          · intro h; cases h
          · rintro ⟨_, _, h, _⟩; cases h
      · rw [if_pos h2]
        constructor
        · intro h; cases h
        · rintro ⟨_, h, _⟩; exact absurd h h2
    · rw [if_pos h1]
      constructor
      · intro h; cases h
      · rintro ⟨h, _⟩; exact absurd h h1
  · intro comps hne hc
    constructor
    · apply joinPieces_clean hne hc
      intro c hx
      simp at hx; rw [hx]; exact isName_lav
    · apply joinPieces_clean hne hc
      intro c hx
      simp at hx
      rcases hx with rfl | rfl | rfl
      · exact isName_dotlocal
      · exact isName_share
      · exact isName_lav

theorem getBaseDir_precedence_witness :
    ¬ isEmptyString envXdg.xdgDataHome ∧ isEmptyString envXdg.lavRoot ∧
    getBaseDir envXdg = .ok (joinPieces envXdg.xdgDataHome ["lav"]) :=
  ⟨by decide, by decide, (getBaseDir_precedence envXdg).2.1 (by decide) (by decide)⟩

/-! ## Claim about the selector -/

theorem index_in_range {versions : List String} {i : Int} (h0 : 0 ≤ i)
    (h1 : i ≤ (versions.length : Int) - 1) : ∃ v, index versions i = some v := by
  unfold index
  rw [if_neg (by omega)]
  have hlt : i.toNat < versions.length := by omega
  exact ⟨versions.get ⟨i.toNat, hlt⟩, List.get?_eq_get hlt⟩

/-- C13: the selector cursor stays in bounds.  For a model with a non-empty
version list and a cursor between 0 and the last index, `Update` returns a
model for every key message, with the same version list and a cursor in the
same range; `up` and `k` decrease the cursor by one except at 0, where it
stays, `down` and `j` increase it by one except at the last index, where it
stays, and every other key leaves it where it is. -/
theorem update_cursor_in_bounds (m : versionSelectModel) (s : String)
    (_hne : m.versions ≠ []) (h0 : 0 ≤ m.cursor)
    (h1 : m.cursor ≤ (m.versions.length : Int) - 1) :
    ∃ m2 cmd, Update m (.key s) = some (m2, cmd) ∧
      m2.versions = m.versions ∧
      0 ≤ m2.cursor ∧ m2.cursor ≤ (m2.versions.length : Int) - 1 ∧
      (s = "up" ∨ s = "k" →
        m2.cursor = if m.cursor = 0 then 0 else m.cursor - 1) ∧
      (s = "down" ∨ s = "j" →
        m2.cursor = if m.cursor = (m.versions.length : Int) - 1 then m.cursor
          else m.cursor + 1) ∧
      (¬ (s = "up" ∨ s = "k") → ¬ (s = "down" ∨ s = "j") → m2.cursor = m.cursor) := by
  have hud : ¬ ((s = "up" ∨ s = "k") ∧ (s = "down" ∨ s = "j")) := by
    rintro ⟨h | h, h2 | h2⟩ <;> subst h <;> simp at h2
  unfold Update
  by_cases hu : s = "up" ∨ s = "k"
  · have hd : ¬ (s = "down" ∨ s = "j") := fun hd => hud ⟨hu, hd⟩
    simp only [if_pos hu]
    by_cases hc : m.cursor > 0
    · rw [if_pos hc]
      refine ⟨_, _, rfl, rfl, ?_, ?_, ?_, ?_, ?_⟩
      · show 0 ≤ m.cursor - 1
        omega
      · show m.cursor - 1 ≤ (m.versions.length : Int) - 1
        omega
      · intro _
        show m.cursor - 1 = _
        rw [if_neg (by omega)]
      · intro h; exact absurd h hd
      · intro h; exact absurd hu h
    · rw [if_neg hc]
      refine ⟨_, _, rfl, rfl, h0, h1, ?_, ?_, ?_⟩
      · intro _
        rw [if_pos (by omega)]
        omega
      · intro h; exact absurd h hd
      · intro h; exact absurd hu h
  · simp only [if_neg hu]
    by_cases hd : s = "down" ∨ s = "j"
    · simp only [if_pos hd]
      by_cases hc : m.cursor < (m.versions.length : Int) - 1
      · rw [if_pos hc]
        refine ⟨_, _, rfl, rfl, ?_, ?_, ?_, ?_, ?_⟩
        · show 0 ≤ m.cursor + 1
          omega
        · show m.cursor + 1 ≤ (m.versions.length : Int) - 1
          omega
        · intro h; exact absurd h hu
        · intro _
          show m.cursor + 1 = _
          rw [if_neg (by omega)]
        · intro _ h; exact absurd hd h
      · rw [if_neg hc]
        refine ⟨_, _, rfl, rfl, h0, h1, ?_, ?_, ?_⟩
        · intro h; exact absurd h hu
        · intro _
          rw [if_pos (by omega)]
        · intro _ h; exact absurd hd h
    · simp only [if_neg hd]
      by_cases he : s = "enter"
      · simp only [if_pos he]
        obtain ⟨v, hv⟩ := index_in_range h0 h1
        rw [hv]
        exact ⟨_, _, rfl, rfl, h0, h1, fun h => absurd h hu, fun h => absurd h hd,
          fun _ _ => rfl⟩
      · simp only [if_neg he]
        by_cases hq : s = "esc" ∨ s = "q" ∨ s = "ctrl+c"
        · simp only [if_pos hq]
          exact ⟨_, _, rfl, rfl, h0, h1, fun h => absurd h hu, fun h => absurd h hd,
            fun _ _ => rfl⟩
        · simp only [if_neg hq]
          exact ⟨_, _, rfl, rfl, h0, h1, fun h => absurd h hu, fun h => absurd h hd,
            fun _ _ => rfl⟩

theorem update_cursor_in_bounds_witness :
    ∃ m2 cmd, Update (navModel 2) (.key "k") = some (m2, cmd) ∧
      m2.versions = (navModel 2).versions ∧
      0 ≤ m2.cursor ∧ m2.cursor ≤ (m2.versions.length : Int) - 1 ∧
      ("k" = "up" ∨ "k" = "k" →
        m2.cursor = if (navModel 2).cursor = 0 then 0 else (navModel 2).cursor - 1) ∧
      ("k" = "down" ∨ "k" = "j" →
        m2.cursor = if (navModel 2).cursor = ((navModel 2).versions.length : Int) - 1
          then (navModel 2).cursor else (navModel 2).cursor + 1) ∧
      (¬ ("k" = "up" ∨ "k" = "k") → ¬ ("k" = "down" ∨ "k" = "j") →
        m2.cursor = (navModel 2).cursor) :=
  update_cursor_in_bounds (navModel 2) "k" (by decide) (by decide) (by decide)

/-! ## The round trip of `copyDir` -/

theorem noLinksAround_mono {fs : FS} {T T2 : Path} (h : T <+: T2)
    (hl : noLinksAround fs T) : noLinksAround fs T2 := by
  intro q t hq
  rcases hq with hq | hq
  · exact hl q t (List.prefix_or_prefix_of_prefix hq h)
  · exact hl q t (Or.inr (h.trans hq))

theorem copyEntries_nil (rec : FS → Path → Path → Option Err × FS) (src dst : Path)
    (fs : FS) : copyEntries rec src dst [] fs = (none, fs) := rfl

/-- The loop over `e :: es` succeeds exactly when the step for `e` does and
the loop over `es` succeeds from the state it leaves. -/
theorem copyEntries_cons_ok (rec : FS → Path → Path → Option Err × FS) (src dst : Path)
    (e : DirEntry) (es : List DirEntry) (fs fs2 : FS) :
    copyEntries rec src dst (e :: es) fs = (none, fs2) ↔
      ∃ fsm, copyEntries rec src dst [e] fs = (none, fsm) ∧
        copyEntries rec src dst es fsm = (none, fs2) := by
  rw [copyEntries_cons, copyEntries_cons]
  by_cases hdir : e.isDir = true
  · simp only [if_pos hdir]
    cases hr : rec fs (join src [e.name]) (join dst [e.name]) with
    | mk r fs1 =>
      cases r with
      | some err => simp
      | none => simp [copyEntries_nil]
  · simp only [if_neg hdir]
    cases hr : copyFile fs (join src [e.name]) (join dst [e.name]) with
    | mk r fsa =>
      cases r with
      | some err => simp
      | none =>
        simp only
        cases hs : stat fsa (join src [e.name]) with
        | error e2 => simp
        | ok info =>
          simp only
          cases hc : chmod fsa (join dst [e.name]) (nodeMode info) with
          | error e2 => simp
          | ok fsb => simp [copyEntries_nil]

theorem copyEntries_append_ok (rec : FS → Path → Path → Option Err × FS) (src dst : Path)
    (es2 : List DirEntry) :
    ∀ (es1 : List DirEntry) (fs fs2 : FS),
      copyEntries rec src dst (es1 ++ es2) fs = (none, fs2) →
      ∃ fsm, copyEntries rec src dst es1 fs = (none, fsm) ∧
        copyEntries rec src dst es2 fsm = (none, fs2) := by
  intro es1
  induction es1 with
  | nil => intro fs fs2 h; exact ⟨fs, rfl, h⟩
  | cons e es1 ih =>
    intro fs fs2 h
    rw [List.cons_append] at h
    obtain ⟨fsa, h1, h2⟩ := (copyEntries_cons_ok rec src dst e _ fs fs2).mp h
    obtain ⟨fsm, h3, h4⟩ := ih fsa fs2 h2
    exact ⟨fsm, (copyEntries_cons_ok rec src dst e es1 fs fsm).mpr ⟨fsa, h1, h3⟩, h4⟩

/-- A successful loop, cut at one of its entries: the entries before it, its
own step, and the entries after it. -/
theorem copyEntries_split (rec : FS → Path → Path → Option Err × FS) {src dst : Path}
    {es : List DirEntry} {fs fs2 : FS} (h : copyEntries rec src dst es fs = (none, fs2))
    {e : DirEntry} (he : e ∈ es) :
    ∃ es1 es2 fsx fsy, es = es1 ++ e :: es2 ∧
      copyEntries rec src dst es1 fs = (none, fsx) ∧
      copyEntries rec src dst [e] fsx = (none, fsy) ∧
      copyEntries rec src dst es2 fsy = (none, fs2) := by
  obtain ⟨es1, es2, rfl⟩ := List.append_of_mem he
  obtain ⟨fsx, h1, h2⟩ := copyEntries_append_ok rec src dst _ es1 fs fs2 h
  obtain ⟨fsy, h3, h4⟩ := (copyEntries_cons_ok rec src dst e es2 fsx fs2).mp h2
  exact ⟨es1, es2, fsx, fsy, rfl, h1, h3, h4⟩

/-- The step of the loop for a directory entry is the recursive call. -/
theorem copyEntries_single_dir {rec : FS → Path → Path → Option Err × FS} {src dst : Path}
    {e : DirEntry} {fs fs2 : FS} (hd : e.isDir = true)
    (h : copyEntries rec src dst [e] fs = (none, fs2)) :
    rec fs (join src [e.name]) (join dst [e.name]) = (none, fs2) := by
  rw [copyEntries_cons, if_pos hd] at h
  cases hr : rec fs (join src [e.name]) (join dst [e.name]) with
  | mk r fs1 =>
    rw [hr] at h
    cases r with
    | some err => cases h
    | none =>
      simp only [copyEntries_nil] at h
      rw [h]

/-- The step of the loop for any other entry: `copyFile`, `os.Stat` of the
source, `os.Chmod` of the destination. -/
theorem copyEntries_single_file {rec : FS → Path → Path → Option Err × FS} {src dst : Path}
    {e : DirEntry} {fs fs2 : FS} (hd : e.isDir = false)
    (h : copyEntries rec src dst [e] fs = (none, fs2)) :
    ∃ fsz info, copyFile fs (join src [e.name]) (join dst [e.name]) = (none, fsz) ∧
      stat fsz (join src [e.name]) = .ok info ∧
      chmod fsz (join dst [e.name]) (nodeMode info) = .ok fs2 := by
  rw [copyEntries_cons, if_neg (by simp [hd])] at h
  cases hr : copyFile fs (join src [e.name]) (join dst [e.name]) with
  | mk r fsa =>
    rw [hr] at h
    cases r with
    | some err => cases h
    | none =>
      simp only at h
      cases hs : stat fsa (join src [e.name]) with
      | error e2 => simp [hs] at h
      | ok info =>
        simp only [hs] at h
        cases hc : chmod fsa (join dst [e.name]) (nodeMode info) with
        | error e2 => simp [hc] at h
        | ok fsb =>
          simp only [hc, copyEntries_nil] at h
          injection h with _ h2
          subst h2
          exact ⟨fsa, info, rfl, hs, hc⟩

theorem sibling_outside {dst x : Path} {c c2 : String} (hne : c2 ≠ c)
    (hx : dst ++ [c] <+: x) : ¬ (dst ++ [c2] <+: x) ∧ ¬ (x <+: dst ++ [c2]) := by
  constructor
  · intro h
    exact hne (snoc_eq_of_common h hx)
  · intro h
    exact hne (snoc_eq_of_common (List.prefix_refl _) (hx.trans h))

/-- The loop over entries whose names differ from `c` changes nothing at or
below the entry `c` of the destination. -/
theorem copyEntries_sibling {rec : FS → Path → Path → Option Err × FS}
    (hrecg : ∀ fs s d, Grows fs (rec fs s d).2)
    (hrec : ∀ (T : Path) fs s d, T <+: d → (∀ x ∈ d, isName x) → noLinksAround fs T →
      sameOutside T fs (rec fs s d).2)
    (src : Path) {dst : Path} (hdn : ∀ x ∈ dst, isName x) (c : String) :
    ∀ (es : List DirEntry) (fs : FS), (∀ e ∈ es, isName e.name ∧ e.name ≠ c) →
      noLinksAround fs dst →
      ∀ x, dst ++ [c] <+: x → (copyEntries rec src dst es fs).2.get x = fs.get x := by
  intro es
  induction es with
  | nil => intro fs _ _ x _; rfl
  | cons e es ih =>
    intro fs hes hl x hx
    obtain ⟨hen, hec⟩ := hes e (List.mem_cons_self _ _)
    have hes2 : ∀ e2 ∈ es, isName e2.name ∧ e2.name ≠ c :=
      fun e2 h2 => hes e2 (List.mem_cons_of_mem _ h2)
    have hjd : join dst [e.name] = dst ++ [e.name] := join_of_valid hdn (by simpa using hen)
    have hdn2 := names_snoc hdn hen
    have hpre : dst <+: dst ++ [e.name] := List.prefix_append _ _
    obtain ⟨ho1, ho2⟩ := @sibling_outside dst x c e.name hec hx
    have hxne : x ≠ dst ++ [e.name] := by
      rintro rfl
      exact ho1 (List.prefix_refl _)
    rw [copyEntries_cons, hjd]
    split
    · have h1 := hrec (dst ++ [e.name]) fs (join src [e.name]) (dst ++ [e.name])
        (List.prefix_refl _) hdn2 (noLinksAround_mono hpre hl) x ho1 ho2
      have hg1 := hrecg fs (join src [e.name]) (dst ++ [e.name])
      cases hr : rec fs (join src [e.name]) (dst ++ [e.name]) with
      | mk r fs1 =>
        rw [hr] at h1 hg1
        cases r with
        | some err => exact h1
        | none =>
          simp only
          rw [ih fs1 hes2 (noLinksAround_grows hg1 hl) x hx]
          exact h1
    · have h1 : (copyFile fs (join src [e.name]) (dst ++ [e.name])).2.get x = fs.get x :=
        copyFile_frame _ hdn2 (noLinks_of_around hl hpre) x hxne
      have hg1 := copyFile_grows fs (join src [e.name]) (dst ++ [e.name])
      cases hr : copyFile fs (join src [e.name]) (dst ++ [e.name]) with
      | mk r fsa =>
        rw [hr] at h1 hg1
        cases r with
        | some err => exact h1
        | none =>
          simp only
          cases hs : stat fsa (join src [e.name]) with
          | error e2 => exact h1
          | ok info =>
            simp only
            cases hc : chmod fsa (dst ++ [e.name]) (nodeMode info) with
            | error e2 => exact h1
            | ok fsb =>
              simp only
              have h2 : fsb.get x = fsa.get x :=
                chmod_frame hdn2 (noLinks_of_around (noLinksAround_grows hg1 hl) hpre) hc x hxne
              rw [ih fsb hes2
                (noLinksAround_grows (grows_trans hg1 (chmod_grows hc)) hl) x hx, h2]
              exact h1

/-- What a successful `os.Chmod` does to the node it reaches. -/
theorem chmod_node {fs fs2 : FS} {p : Path} {mode : Nat} (h : chmod fs p mode = .ok fs2) :
    ∃ q, resolve fs true p = .ok q ∧
      ((∃ d m0, fs.get q = some (.file d m0) ∧ fs2 = fs.set q (some (.file d mode))) ∨
       (∃ m0, fs.get q = some (.dir m0) ∧ fs2 = fs.set q (some (.dir mode)))) := by
  unfold chmod at h
  cases hr : resolve fs true p with
  | error e => simp [hr] at h
  | ok q =>
    simp only [hr] at h
    cases hg : fs.get q with
    | none => simp [hg] at h
    | some n =>
      simp only [hg] at h
      cases n with
      | file d m0 =>
        injection h with h
        exact ⟨q, rfl, Or.inl ⟨d, m0, hg, h.symm⟩⟩
      | dir m0 =>
        injection h with h
        exact ⟨q, rfl, Or.inr ⟨m0, hg, h.symm⟩⟩
      | link t => cases h

/-- On a path reached without links, `os.Lstat` reports the node bound to
the path, once it is known to succeed in a filesystem this one extends. -/
theorem lstat_of_get {fs fs2 : FS} {p : Path} {n n2 : Node} (hn : ∀ x ∈ p, isName x)
    (hl : noLinks fs2 p) (he : Ext fs fs2) (hs : lstat fs p = .ok n)
    (hg : fs2.get p = some n2) : lstat fs2 p = .ok n2 := by
  obtain ⟨n3, hs3, _⟩ := lstat_ext he hs
  obtain ⟨q, hq, hgq⟩ := lstat_ok.mp hs3
  have hqp : q = p := resolve_false_real hn hl hq
  subst hqp
  rw [hg] at hgq
  injection hgq with hgq
  rw [hs3, hgq]

/-- The step of `copyDir` for a regular file: where the source leads to a
regular file that is not the destination, and the destination is reached
without links, the destination afterwards holds the contents and the mode of
the source. -/
theorem copy_file_step {fs fsz fsy : FS} {srcp dstp qs : Path} {data : List Nat}
    {mode : Nat} {info : Node} (hn : ∀ x ∈ dstp, isName x) (hl : noLinks fs dstp)
    (hres : resolve fs false srcp = .ok qs) (hget : fs.get qs = some (.file data mode))
    (hne : qs ≠ dstp) (hcopy : copyFile fs srcp dstp = (none, fsz))
    (hstat : stat fsz srcp = .ok info) (hch : chmod fsz dstp (nodeMode info) = .ok fsy) :
    fsy.get dstp = some (.file data mode) ∧ lstat fsy dstp = .ok (.file data mode) := by
  have hnl : ∀ t, fs.get qs ≠ some (.link t) := by
    intro t ht
    rw [hget] at ht
    cases ht
  have hrt : resolve fs true srcp = .ok qs := walk_false_to_true fs maxLinks [] srcp qs hres hnl
  have hg1 : Grows fs fsz := by
    have := copyFile_grows fs srcp dstp
    rwa [hcopy] at this
  -- the copy
  have hz : ∃ m, fsz.get dstp = some (.file data m) ∧ fsz.get qs = some (.file data mode) := by
    rcases copyFile_cases fs srcp dstp with ⟨e, he⟩ | ⟨qs2, fs1, qd, hr2, hc, hrest⟩
    · rw [he] at hcopy; cases hcopy
    · rw [hrt] at hr2
      injection hr2 with hr2
      subst hr2
      obtain ⟨hrd, hqd, m1, hfs1, _⟩ := create_ok hc
      have hqd2 : qd = dstp := resolve_true_real hn hl hrd
      subst hqd2
      rcases hrest with ⟨e, he⟩ | ⟨d, m0, m, hg, _, he⟩
      · rw [he] at hcopy; cases hcopy
      · rw [he] at hcopy
        injection hcopy with _ h2
        subst h2
        rw [hfs1, get_set_ne _ _ hne, hget] at hg
        injection hg with hg
        injection hg with hd hm
        subst hd
        refine ⟨m, get_set_eq _ _ hqd, ?_⟩
        rw [get_set_ne _ _ hne, hfs1, get_set_ne _ _ hne]
        exact hget
  obtain ⟨m, hzd, hzs⟩ := hz
  -- the mode of the source
  have hrz : resolve fsz true srcp = .ok qs :=
    walk_ext hg1.1 true maxLinks [] srcp qs hrt (Or.inr (by
      intro t ht
      rw [hzs] at ht
      cases ht))
  have hinfo : info = .file data mode := by
    obtain ⟨q2, hq2, hg2⟩ := stat_ok.mp hstat
    rw [hrz] at hq2
    injection hq2 with hq2
    subst hq2
    rw [hzs] at hg2
    injection hg2 with hg2
    exact hg2.symm
  subst hinfo
  -- the change of mode
  obtain ⟨q, hq, hcase⟩ := chmod_node hch
  have hqd : q = dstp := resolve_true_real hn (noLinks_grows hg1 hl) hq
  subst hqd
  have hq0 : q ≠ [] := by
    rintro rfl
    rw [show FS.get fsz [] = some (.dir 0o755) from rfl] at hzd
    cases hzd
  have hy : fsy.get q = some (.file data mode) := by
    rcases hcase with ⟨d, m0, hg, rfl⟩ | ⟨m0, hg, _⟩
    · rw [hzd] at hg
      injection hg with hg
      injection hg with hd _
      subst hd
      exact get_set_eq _ _ hq0
    · rw [hzd] at hg
      cases hg
  obtain ⟨n, hln, _⟩ := copyFile_lstat hcopy
  exact ⟨hy, lstat_of_get hn (noLinks_grows (chmod_grows hch) (noLinks_grows hg1 hl))
    (chmod_grows hch).1 hln hy⟩

/-- The steps of a successful `copyDir`, with the state `os.MkdirAll` leaves. -/
theorem copyDir_start {depth : Nat} {fs fs2 : FS} {src dst : Path}
    (h : copyDir depth fs src dst = (none, fs2)) :
    ∃ k mode fs1 entries, depth = k + 1 ∧ mkdirAll fs dst mode = (none, fs1) ∧
      readDir fs1 src = .ok entries ∧
      copyEntries (copyDir k) src dst entries fs1 = (none, fs2) := by
  cases depth with
  | zero => simp [copyDir] at h
  | succ k =>
    rw [copyDir_succ] at h
    cases hs : stat fs src with
    | error e => simp [hs] at h
    | ok info =>
      simp only [hs] at h
      cases hm : mkdirAll fs dst (nodeMode info) with
      | mk r fs1 =>
        rw [hm] at h
        cases r with
        | some e => simp at h
        | none =>
          simp only at h
          cases hr : readDir fs1 src with
          | error e => simp [hr] at h
          | ok entries =>
            simp only [hr] at h
            exact ⟨k, nodeMode info, fs1, entries, rfl, hm, hr, h⟩

/-- The entries after `e` in a listing have other names. -/
theorem names_after {es1 es2 : List DirEntry} {e : DirEntry}
    (hnd : ((es1 ++ e :: es2).map fun e => e.name).Nodup)
    (hn : ∀ x ∈ es1 ++ e :: es2, isName x.name) :
    ∀ e2 ∈ es2, isName e2.name ∧ e2.name ≠ e.name := by
  intro e2 he2
  refine ⟨hn e2 (by simp [he2]), ?_⟩
  rw [List.map_append, List.map_cons] at hnd
  have h1 := (List.nodup_append.mp hnd).2.1
  have h2 := (List.nodup_cons.mp h1).1
  intro heq
  exact h2 (List.mem_map.mpr ⟨e2, he2, heq⟩)

/-- The state of a successful loop before one of its entries differs from
the initial one only on the way to the destination and inside it. -/
theorem copyEntries_before {T : Path} (k : Nat) (src : Path) {dst : Path}
    (hdn : ∀ x ∈ dst, isName x) (hTd : T <+: dst) {es : List DirEntry} {fs fsx : FS}
    (hes : ∀ e ∈ es, isName e.name) (hl : noLinksAround fs T)
    (h : copyEntries (copyDir k) src dst es fs = (none, fsx)) :
    Grows fs fsx ∧ sameOutside T fs fsx := by
  have h1 := copyEntries_grows (copyDir k) (copyDir_grows k) src dst es fs
  have h2 := copyEntries_frame (copyDir_grows k) (fun fs s d => copyDir_frame k fs s d) src
    hdn hTd es fs hes hl
  rw [h] at h1 h2
  exact ⟨h1, h2⟩

/-- What the loop holds at or below an entry of the destination when it
leaves that entry, it still holds when it ends. -/
theorem copyEntries_after {T : Path} (k : Nat) (src : Path) {dst : Path}
    (hdn : ∀ x ∈ dst, isName x) (hTd : T <+: dst) {es2 : List DirEntry} {fsy fs2 : FS}
    {c : String} (hes : ∀ e ∈ es2, isName e.name ∧ e.name ≠ c) (hl : noLinksAround fsy T)
    (h : copyEntries (copyDir k) src dst es2 fsy = (none, fs2)) {x : Path} {n : Node}
    (hx : dst ++ [c] <+: x) (hxn : ∀ y ∈ x, isName y) (hs : lstat fsy x = .ok n) :
    lstat fs2 x = .ok n := by
  have hg := copyEntries_grows (copyDir k) (copyDir_grows k) src dst es2 fsy
  have hf := copyEntries_sibling (copyDir_grows k)
    (fun T fs s d => @copyDir_frame T k fs s d) src hdn c es2 fsy hes
    (noLinksAround_mono hTd hl) x hx
  rw [h] at hg hf
  have hTx : T <+: x := hTd.trans ((List.prefix_append dst [c]).trans hx)
  obtain ⟨q, hq, hgq⟩ := lstat_ok.mp hs
  have hqx : q = x := resolve_false_real hxn (noLinks_of_around hl hTx) hq
  subst hqx
  exact lstat_of_get hxn (noLinks_of_around (noLinksAround_grows hg hl) hTx) hg.1 hs
    (hf.trans hgq)

/-- A regular file of the source tree that lies outside the destination
region `T` is copied by `copyDir` to the mirrored path, with its contents and
its mode, when no link lies on the way to `T` or inside it. -/
theorem copyDir_file {T : Path} :
    ∀ (rel : List String), rel ≠ [] → (∀ c ∈ rel, isName c) →
      ∀ (depth : Nat) (fs fs2 : FS) (src dst qs : Path) (data : List Nat) (mode : Nat),
      (∀ x ∈ src, isName x) → (∀ x ∈ dst, isName x) → T <+: dst → noLinksAround fs T →
      (∀ k, 0 < k → k < rel.length → ∃ m, lstat fs (src ++ rel.take k) = .ok (.dir m)) →
      resolve fs false (src ++ rel) = .ok qs → fs.get qs = some (.file data mode) →
      ¬ (T <+: qs) → ¬ (qs <+: T) →
      copyDir depth fs src dst = (none, fs2) →
      lstat fs2 (dst ++ rel) = .ok (.file data mode) := by
  intro rel
  induction rel with
  | nil => intro h; exact absurd rfl h
  | cons c rest ih =>
    intro _ hrel depth fs fs2 src dst qs data mode hsn hdn hTd hl hdirs hres hget ho1 ho2 hcopy
    have hc : isName c := hrel c (List.mem_cons_self _ _)
    have hrn : ∀ x ∈ rest, isName x := fun x hx => hrel x (List.mem_cons_of_mem _ hx)
    obtain ⟨k, md, fs1, entries, rfl, hmk, hrd, hloop⟩ := copyDir_start hcopy
    have hg1 : Grows fs fs1 := by
      have := mkdirAll_grows fs dst md
      rwa [hmk] at this
    have hso1 : sameOutside T fs fs1 := by
      intro x hx1 hx2
      have := mkdirAll_frame md hdn (noLinks_of_around hl hTd) x (fun hxd => by
        rcases List.prefix_or_prefix_of_prefix hxd hTd with h | h
        · exact hx2 h
        · exact hx1 h)
      rwa [hmk] at this
    have hl1 := noLinksAround_grows hg1 hl
    have hnames := readDir_names hrd
    have hjs : join src [c] = src ++ [c] := join_of_valid hsn (by simpa using hc)
    have hjd : join dst [c] = dst ++ [c] := join_of_valid hdn (by simpa using hc)
    have hsn2 := names_snoc hsn hc
    have hdn2 := names_snoc hdn hc
    have hTd2 : T <+: dst ++ [c] := hTd.trans (List.prefix_append _ _)
    -- the facts that hold in every state reached before the entry `c`
    have hkeep : ∀ fsx, Grows fs1 fsx → sameOutside T fs1 fsx →
        resolve fsx false (src ++ c :: rest) = .ok qs ∧
        fsx.get qs = some (.file data mode) ∧ noLinksAround fsx T := by
      intro fsx hgx hsx
      refine ⟨walk_ext (ext_trans hg1.1 hgx.1) false maxLinks [] _ qs hres (Or.inl rfl), ?_,
        noLinksAround_grows hgx hl1⟩
      rw [hsx qs ho1 ho2, hso1 qs ho1 ho2]
      exact hget
    by_cases hrest : rest = []
    · subst hrest
      have hls : lstat fs (src ++ [c]) = .ok (.file data mode) := lstat_ok.mpr ⟨qs, hres, hget⟩
      obtain ⟨n1, hl1s, hs1⟩ := lstat_ext hg1.1 hls
      obtain ⟨d1, m1, rfl⟩ := sameShape_file hs1
      have hmem := readDir_mem_of_lstat hc hrd hl1s
      obtain ⟨es1, es2, fsx, fsy, hsplit, hbefore, hstep, hafter⟩ :=
        copyEntries_split (copyDir k) hloop hmem
      have hes1 : ∀ e ∈ es1, isName e.name := fun e he => hnames e (by rw [hsplit]; simp [he])
      obtain ⟨hgx, hsx⟩ := copyEntries_before k src hdn hTd hes1 hl1 hbefore
      obtain ⟨hrx, hgetx, hlx⟩ := hkeep fsx hgx hsx
      obtain ⟨fsz, info, hcf, hst, hch⟩ := copyEntries_single_file rfl hstep
      simp only [hjs, hjd] at hcf hst hch
      have hne : qs ≠ dst ++ [c] := by
        rintro rfl
        exact ho1 hTd2
      obtain ⟨_, hly⟩ := copy_file_step hdn2 (noLinks_of_around hlx hTd2) hrx hgetx hne hcf
        hst hch
      have hgz : Grows fsx fsz := by
        have := copyFile_grows fsx (src ++ [c]) (dst ++ [c])
        rwa [hcf] at this
      have hly2 := noLinksAround_grows (grows_trans hgz (chmod_grows hch)) hlx
      have hnd := readDir_nodup hrd
      rw [hsplit] at hnd hnames
      exact copyEntries_after k src hdn hTd (names_after hnd hnames) hly2 hafter
        (List.prefix_refl _) hdn2 hly
    · have hlen : 1 < (c :: rest).length := by
        cases rest with
        | nil => exact absurd rfl hrest
        | cons a l => simp
      obtain ⟨m0, hls⟩ := hdirs 1 (by omega) hlen
      have htake : src ++ List.take 1 (c :: rest) = src ++ [c] := by simp
      rw [htake] at hls
      obtain ⟨n1, hl1s, hs1⟩ := lstat_ext hg1.1 hls
      obtain ⟨m1, rfl⟩ := sameShape_dir hs1
      have hmem := readDir_mem_of_lstat hc hrd hl1s
      obtain ⟨es1, es2, fsx, fsy, hsplit, hbefore, hstep, hafter⟩ :=
        copyEntries_split (copyDir k) hloop hmem
      have hes1 : ∀ e ∈ es1, isName e.name := fun e he => hnames e (by rw [hsplit]; simp [he])
      obtain ⟨hgx, hsx⟩ := copyEntries_before k src hdn hTd hes1 hl1 hbefore
      obtain ⟨hrx, hgetx, hlx⟩ := hkeep fsx hgx hsx
      have hrec := copyEntries_single_dir rfl hstep
      simp only [hjs, hjd] at hrec
      have hdirs2 : ∀ j, 0 < j → j < rest.length →
          ∃ m, lstat fsx (src ++ [c] ++ rest.take j) = .ok (.dir m) := by
        intro j hj0 hj
        obtain ⟨m, hm⟩ := hdirs (j + 1) (by omega) (by simp; omega)
        have hp : src ++ List.take (j + 1) (c :: rest) = src ++ [c] ++ rest.take j := by simp
        rw [hp] at hm
        obtain ⟨n2, hn2, hs2⟩ := lstat_ext (ext_trans hg1.1 hgx.1) hm
        obtain ⟨m2, rfl⟩ := sameShape_dir hs2
        exact ⟨m2, hn2⟩
      have hrx2 : resolve fsx false (src ++ [c] ++ rest) = .ok qs := by
        rw [List.append_assoc]
        exact hrx
      have hly := ih hrest hrn k fsx fsy (src ++ [c]) (dst ++ [c]) qs data mode hsn2 hdn2 hTd2
        hlx hdirs2 hrx2 hgetx ho1 ho2 hrec
      have hgy : Grows fsx fsy := by
        have := copyDir_grows k fsx (src ++ [c]) (dst ++ [c])
        rwa [hrec] at this
      have hnd := readDir_nodup hrd
      rw [hsplit] at hnd hnames
      have hxn : ∀ y ∈ dst ++ [c] ++ rest, isName y := by
        intro y hy
        rcases List.mem_append.mp hy with hy | hy
        · exact hdn2 y hy
        · exact hrn y hy
      have := copyEntries_after k src hdn hTd (names_after hnd hnames)
        (noLinksAround_grows hgy hlx) hafter (List.prefix_append _ rest) hxn hly
      rw [List.append_assoc] at this
      exact this

/-! ## What the publication steps keep -/

theorem keepsNodes_refl (fs : FS) : KeepsNodes fs fs := fun _ _ h _ => h

theorem keepsNodes_trans {fs1 fs2 fs3 : FS} (h1 : KeepsNodes fs1 fs2)
    (h2 : KeepsNodes fs2 fs3) : KeepsNodes fs1 fs3 :=
  fun x n hx hn => h2 x n (h1 x n hx hn) hn

/-- A successful `os.MkdirAll` only binds paths that were free. -/
theorem mkdirAllN_keeps (mode : Nat) (p : Path) (n : Nat) :
    ∀ (fs fs2 : FS), mkdirAllN mode p n fs = (none, fs2) →
      ∀ x nd, fs.get x = some nd → fs2.get x = some nd := by
  induction n with
  | zero =>
    intro fs fs2 h x nd hx
    have : fs2 = fs := by
      have h0 : mkdirAllN mode p 0 fs = (none, fs) := rfl
      rw [h0] at h
      injection h with _ h2
      exact h2.symm
    rw [this]
    exact hx
  | succ n ih =>
    intro fs fs2 h x nd hx
    rcases mkdirAllN_none h with ⟨_, _, rfl⟩ | ⟨e, fs1, _, hrec, hmk | ⟨rfl, _⟩⟩
    · exact hx
    · obtain ⟨q, _, hq, rfl⟩ := mkdir_ok.mp hmk
      have h1 := ih fs fs1 hrec x nd hx
      rw [get_set_ne _ _ (by
        rintro rfl
        rw [hq] at h1
        cases h1)]
      exact h1
    · exact ih fs _ hrec x nd hx

theorem mkdirAll_keeps {fs fs2 : FS} {p : Path} {mode : Nat}
    (h : mkdirAll fs p mode = (none, fs2)) : KeepsNodes fs fs2 :=
  fun x n hx _ => mkdirAllN_keeps mode p p.length fs fs2 h x n hx

/-- A successful replace-symlink sequence only binds a path that was free or
held a link. -/
theorem replaceSymlink_keeps {fs fs2 : FS} {t : List String} {p : Path} {wr wc : Err → Err}
    (h : replaceSymlink fs t p wr wc = (none, fs2)) : KeepsNodes fs fs2 := by
  intro x n hx hn
  obtain ⟨fs1, q, h1, _, hq, rfl, _⟩ := replaceSymlink_ok h
  have hx1 : fs1.get x = some n := by
    rcases h1 with rfl | ⟨q0, t0, _, hq0, rfl⟩
    · exact hx
    · rw [get_set_ne _ _ (by
        rintro rfl
        rw [hq0] at hx
        injection hx with hx
        exact hn t0 hx.symm)]
      exact hx
  rw [get_set_ne _ _ (by
    rintro rfl
    rw [hq] at hx1
    cases hx1)]
  exact hx1

theorem linkEntries_keeps (B : Path) (appName : String) :
    ∀ (es : List DirEntry) (fs fs2 : FS), linkEntries B appName es fs = (none, fs2) →
      KeepsNodes fs fs2 := by
  intro es
  induction es with
  | nil =>
    intro fs fs2 h
    have h0 : linkEntries B appName [] fs = (none, fs) := rfl
    rw [h0] at h
    injection h with _ h2
    rw [← h2]
    exact keepsNodes_refl fs
  | cons e es ih =>
    intro fs fs2 h
    rw [linkEntries_cons] at h
    by_cases hd : e.isDir = true
    · rw [if_pos hd] at h
      exact ih fs fs2 h
    · rw [if_neg hd] at h
      cases hr : replaceSymlink fs
          (joinRel ["..", "share", "lav", appName, "current", "bin", e.name])
          (join B [e.name])
          (.wrap "failed to remove existing bin symlink")
          (.wrap ("failed to create bin symlink for " ++ e.name)) with
      | mk r fs1 =>
        rw [hr] at h
        cases r with
        | some err => cases h
        | none => exact keepsNodes_trans (replaceSymlink_keeps hr) (ih fs1 fs2 h)

theorem createBinSymlinks_keeps {home : Option Path} {fs fs2 : FS} {baseDir : Path}
    {appName : String} (h : createBinSymlinks home fs baseDir appName = (none, fs2)) :
    KeepsNodes fs fs2 := by
  obtain ⟨hd, fs1, entries, _, hmk, _, hle⟩ := createBinSymlinks_ok h
  exact keepsNodes_trans (mkdirAll_keeps hmk) (linkEntries_keeps _ _ entries fs1 fs2 hle)

/-- A directory or regular file reached without links is found unchanged in
a filesystem that keeps the directories and regular files. -/
theorem keepsNodes_stat {fs fs2 : FS} (hk : KeepsNodes fs fs2) {d : Path} {c : String}
    {n : Node} (hd : ∀ x ∈ d, isName x) (hc : isName c) (hl : noLinks fs (d ++ [c]))
    (hs : lstat fs (d ++ [c]) = .ok n) (hn : ∀ t, n ≠ .link t) :
    lstat fs2 (d ++ [c]) = .ok n ∧ stat fs2 (d ++ [c]) = .ok n := by
  obtain ⟨q, hq, hgq⟩ := lstat_ok.mp hs
  have hqx : q = d ++ [c] := resolve_false_real (names_snoc hd hc) hl hq
  subst hqx
  obtain ⟨qd, hqd, _⟩ := walk_snoc_nofollow_inv fs maxLinks [] d hc hq
  have hld : noLinks fs d := noLinks_of_take hl d ⟨[c], rfl⟩
  obtain ⟨_, hdirs⟩ := walkDir_real fs maxLinks d [] qd hd
    (noLinkFrom_of_noLinks [] d (by simpa using hld)) hqd
  have hdirs2 : DirsFrom fs2 [] d :=
    dirsFrom_kept (fun x m hx => ⟨m, hk x _ hx (by intro t ht; cases ht)⟩) hdirs
  have hr2 := resolve_real_snoc hd hc hdirs2
  have hg2 := hk _ n hgq hn
  refine ⟨lstat_ok.mpr ⟨_, hr2, hg2⟩, stat_ok.mpr ⟨_, ?_, hg2⟩⟩
  exact walk_false_to_true fs2 maxLinks [] _ _ hr2 (by
    intro t ht
    rw [hg2] at ht
    injection ht with ht
    exact hn t ht)

/-! ## Claim about the round trip of a directory install -/

/-- C12 (amended): directory-install round trip.  Let `rel` be a relative path
of names along which the source `P` holds directories up to a regular file with
contents `data` and mode `mode`, bound at the resolved location `qs`.  If
before the call no symbolic link lies on the way to `R/A/V` or inside it and
`qs` does not lie inside `R/A/V`, then after a successful `installDirectory`
the path `R/A/V/rel` is a regular file with contents `data` and mode `mode`,
and the source file is unchanged. -/
theorem install_round_trip (home : Option Path) (depth : Nat) (fs fs4 : FS) (R P : Path)
    (A V : String) (rel : List String) (qs : Path) (data : List Nat) (mode : Nat)
    (hne : rel ≠ []) (hrel : ∀ c ∈ rel, isName c)
    (hl : noLinksAround fs (join R [A, V]))
    (hdirs : ∀ k, 0 < k → k < rel.length →
      ∃ m, lstat fs (join P [] ++ rel.take k) = .ok (.dir m))
    (hres : resolve fs false (join P [] ++ rel) = .ok qs)
    (hget : fs.get qs = some (.file data mode))
    (hout : ¬ (join R [A, V] <+: qs))
    (h : installDirectory home depth fs R P A V = (none, fs4)) :
    stat fs4 (join R [A, V] ++ rel) = .ok (.file data mode) ∧
    lstat fs4 (join R [A, V] ++ rel) = .ok (.file data mode) ∧
    fs4.get qs = some (.file data mode) := by
  obtain ⟨m, fs1, fs2, fs3, _, hmk, hcopy, hrs, hbin⟩ := installDirectory_ok h
  have hVn : ∀ x ∈ join R [A, V], isName x := join_valid R [A, V]
  have hPn : ∀ x ∈ join P [], isName x := join_valid P []
  have hlV : noLinks fs (join R [A, V]) := noLinks_of_around hl (List.prefix_refl _)
  have hg1 : Grows fs fs1 := by
    have := mkdirAll_grows fs (join R [A, V]) 0o755
    rwa [hmk] at this
  -- the file is not on the way to `R/A/V` either: those are directories
  have hout2 : ¬ (qs <+: join R [A, V]) := by
    rintro ⟨r, hr⟩
    obtain ⟨m1, hs1⟩ := mkdirAll_ok_stat hmk
    have hd1 := dirs_of_stat_dir hVn (noLinks_grows hg1 hlV) hs1
    rw [← hr] at hd1
    obtain ⟨m2, hm2⟩ := dirsFrom_last (dirsFrom_split hd1).1 ⟨0o755, rfl⟩
    obtain ⟨n2, hn2, hsh⟩ := hg1.1 qs _ hget
    rw [List.nil_append, hn2] at hm2
    injection hm2 with hm2
    subst hm2
    exact hsh
  have hso1 : sameOutside (join R [A, V]) fs fs1 := by
    intro x hx1 hx2
    have := mkdirAll_frame 0o755 hVn hlV x hx2
    rwa [hmk] at this
  have hl1 := noLinksAround_grows hg1 hl
  have hdirs1 : ∀ k, 0 < k → k < rel.length →
      ∃ m, lstat fs1 (join P [] ++ rel.take k) = .ok (.dir m) := by
    intro k hk0 hk
    obtain ⟨m0, hm0⟩ := hdirs k hk0 hk
    obtain ⟨n2, hn2, hs2⟩ := lstat_ext hg1.1 hm0
    obtain ⟨m2, rfl⟩ := sameShape_dir hs2
    exact ⟨m2, hn2⟩
  have hres1 : resolve fs1 false (join P [] ++ rel) = .ok qs :=
    walk_ext hg1.1 false maxLinks [] _ qs hres (Or.inl rfl)
  have hget1 : fs1.get qs = some (.file data mode) := by
    rw [hso1 qs hout hout2]
    exact hget
  -- the copy
  have hl2 := copyDir_file rel hne hrel depth fs1 fs2 (join P []) (join R [A, V]) qs data mode
    hPn hVn (List.prefix_refl _) hl1 hdirs1 hres1 hget1 hout hout2 hcopy
  have hg2 : Grows fs1 fs2 := by
    have := copyDir_grows depth fs1 (join P []) (join R [A, V])
    rwa [hcopy] at this
  have hget2 : fs2.get qs = some (.file data mode) := by
    have := copyDir_frame depth fs1 (join P []) (join R [A, V]) (List.prefix_refl _) hVn hl1
      qs hout hout2
    rw [hcopy] at this
    rw [this]
    exact hget1
  -- the current link and the publication links
  have hk : KeepsNodes fs2 fs4 :=
    keepsNodes_trans (replaceSymlink_keeps hrs) (createBinSymlinks_keeps hbin)
  have hfile : ∀ t, Node.file data mode ≠ .link t := by
    intro t ht
    cases ht
  rcases List.eq_nil_or_concat rel with hnil | ⟨d, c, hdc⟩
  · exact absurd hnil hne
  · rw [List.concat_eq_append] at hdc
    subst hdc
    have hc : isName c := hrel c (by simp)
    have hdn : ∀ x ∈ join R [A, V] ++ d, isName x := by
      intro x hx
      rcases List.mem_append.mp hx with hx | hx
      · exact hVn x hx
      · exact hrel x (by simp [hx])
    have hnl : noLinks fs2 (join R [A, V] ++ d ++ [c]) :=
      noLinks_of_around (noLinksAround_grows hg2 hl1)
        ⟨d ++ [c], by simp⟩
    rw [← List.append_assoc] at hl2 ⊢
    obtain ⟨h1, h2⟩ := keepsNodes_stat hk hdn hc hnl hl2 hfile
    exact ⟨h2, h1, hk qs _ hget2 hfile⟩
/-- Witness of C12 (amended): installing `dist` with `bin/t` as version `2.0`. -/
theorem install_round_trip_witness :
    stat (installDirectory (some ["home"]) 8 fsCurrentLink ["r"] ["tmp", "dist"] "app"
        "2.0").2 (join ["r"] ["app", "2.0"] ++ ["bin", "t"]) = .ok (.file [7] 0o755) ∧
    lstat (installDirectory (some ["home"]) 8 fsCurrentLink ["r"] ["tmp", "dist"] "app"
        "2.0").2 (join ["r"] ["app", "2.0"] ++ ["bin", "t"]) = .ok (.file [7] 0o755) ∧
    (installDirectory (some ["home"]) 8 fsCurrentLink ["r"] ["tmp", "dist"] "app"
        "2.0").2.get ["tmp", "dist", "bin", "t"] = some (.file [7] 0o755) :=
  install_round_trip (some ["home"]) 8 fsCurrentLink _ ["r"] ["tmp", "dist"] "app" "2.0"
    ["bin", "t"] ["tmp", "dist", "bin", "t"] [7] 0o755 (by decide) (by decide)
    (noLinksAround_of_check (by decide))
    (fun k hk0 hk => by
      have hk1 : k = 1 := by
        simp at hk
        omega
      subst hk1
      exact ⟨0o755, by decide⟩)
    (by decide) (by decide) (by decide) (by decide)

/-- C12 as stated fails.  Where the version directory already holds a link `a`
to its sibling `b`, the copy of the source file `a` is written through the link
and then overwritten by the copy of `b`: `installDirectory` succeeds, the
source is unchanged, and `R/A/V/a` reads as the contents of `b`.  Where the
source is the version directory itself, `copyFile` truncates each file before
reading it: `installDirectory` succeeds and the file is left empty. -/
theorem install_round_trip_counterexample :
    lstat fsDestLink ["tmp", "dist", "a"] = .ok (.file [1] 0o644) ∧
    (installDirectory (some ["home"]) 8 fsDestLink ["r"] ["tmp", "dist"] "app" "1.0").1 = none ∧
    stat (installDirectory (some ["home"]) 8 fsDestLink ["r"] ["tmp", "dist"] "app" "1.0").2
      ["tmp", "dist", "a"] = .ok (.file [1] 0o644) ∧
    stat (installDirectory (some ["home"]) 8 fsDestLink ["r"] ["tmp", "dist"] "app" "1.0").2
      (join ["r"] ["app", "1.0"] ++ ["a"]) = .ok (.file [2] 0o644) ∧
    lstat (installDirectory (some ["home"]) 8 fsDestLink ["r"] ["tmp", "dist"] "app" "1.0").2
      (join ["r"] ["app", "1.0"] ++ ["a"]) = .ok (.link ["b"]) ∧
    lstat fsInstalled ["r", "app", "1.0", "bin", "t"] = .ok (.file [7] 0o755) ∧
    (installDirectory (some ["home"]) 8 fsInstalled ["r"] ["r", "app", "1.0"] "app" "1.0").1 =
      none ∧
    stat (installDirectory (some ["home"]) 8 fsInstalled ["r"] ["r", "app", "1.0"] "app"
      "1.0").2 (join ["r"] ["app", "1.0"] ++ ["bin", "t"]) = .ok (.file [] 0o755) := by
  decide

/-! ## The entries `os.MkdirAll` passes -/

/-- An entry that a successful resolution passes on the way is a directory
or a link. -/
theorem lstat_inner {fs : FS} {f : Bool} {d : Path} {c : String} {rest : List String}
    {q : Path} (hc : isName c) (hr : rest ≠ [])
    (h : resolve fs f (d ++ c :: rest) = .ok q) :
    (∃ t, lstat fs (d ++ [c]) = .ok (.link t)) ∨ (∃ m, lstat fs (d ++ [c]) = .ok (.dir m)) := by
  unfold resolve at h
  cases hd : walkDir fs maxLinks [] d with
  | error e =>
    rw [walk_append_error fs f (List.cons_ne_nil c rest) maxLinks [] d e hd] at h
    cases h
  | ok qd =>
    obtain ⟨k, _, hk⟩ := walk_append_dir fs maxLinks [] d qd hd
    rw [hk f (c :: rest) (List.cons_ne_nil c rest)] at h
    have hls : resolve fs false (d ++ [c]) = .ok (qd ++ [c]) :=
      walk_snoc_nofollow fs maxLinks [] d hc hd
    have key : ∀ L, walkAux fs f L qd (c :: rest) = .ok q →
        (∃ t, fs.get (qd ++ [c]) = some (.link t)) ∨
        (∃ m, fs.get (qd ++ [c]) = some (.dir m)) := by
      intro L hL
      obtain ⟨h1, h2, h3, _⟩ := hc
      rw [walkAux_cons] at hL
      simp only [h1, h2, h3, false_or, if_false] at hL
      cases hg : fs.get (qd ++ [c]) with
      | none => simp [hg, hr] at hL
      | some n =>
        cases n with
        | file dt m => simp [hg, hr] at hL
        | dir m => exact Or.inr ⟨m, rfl⟩
        | link t => exact Or.inl ⟨t, rfl⟩
    have hnode : (∃ t, fs.get (qd ++ [c]) = some (.link t)) ∨
        (∃ m, fs.get (qd ++ [c]) = some (.dir m)) := by
      cases k with
      | zero => rw [walk_zero] at h; exact key _ h
      | succ k => rw [walk_succ] at h; exact key _ h
    rcases hnode with ⟨t, ht⟩ | ⟨m, hm⟩
    · exact Or.inl ⟨t, lstat_ok.mpr ⟨_, hls, ht⟩⟩
    · exact Or.inr ⟨m, lstat_ok.mpr ⟨_, hls, hm⟩⟩

/-- A path that leads to a directory is a directory or a link. -/
theorem lstat_of_stat_dir {fs : FS} {p : Path} {m : Nat} (h : stat fs p = .ok (.dir m)) :
    (∃ t, lstat fs p = .ok (.link t)) ∨ (∃ m, lstat fs p = .ok (.dir m)) := by
  obtain ⟨q, hq, hg⟩ := stat_ok.mp h
  obtain ⟨q0, hq0, hcase⟩ := walk_false_of_true fs maxLinks [] p q hq
  rcases hcase with rfl | ⟨t, ht⟩
  · exact Or.inr ⟨m, lstat_ok.mpr ⟨_, hq0, hg⟩⟩
  · exact Or.inl ⟨t, lstat_ok.mpr ⟨_, hq0, ht⟩⟩

/-- After a successful `os.MkdirAll`, every initial segment of the path is a
directory, unless it was a link before. -/
theorem mkdirAllN_prefix (mode : Nat) (a b : List String) (ha : a ≠ [])
    (hn : ∀ x ∈ a, isName x) :
    ∀ (n : Nat) (fs fs2 : FS), mkdirAllN mode (a ++ b) n fs = (none, fs2) → a.length ≤ n →
      (∃ t, lstat fs a = .ok (.link t)) ∨ (∃ m, lstat fs2 a = .ok (.dir m)) := by
  intro n
  induction n with
  | zero =>
    intro fs fs2 _ hlen
    have : a = [] := List.eq_nil_of_length_eq_zero (by omega)
    exact absurd this ha
  | succ n ih =>
    intro fs fs2 h hlen
    have htake : List.take (n + 1) (a ++ b) = a ++ List.take (n + 1 - a.length) b := by
      rw [List.take_append_eq_append_take, List.take_of_length_le hlen]
    rcases mkdirAllN_none h with ⟨m, hs, rfl⟩ | ⟨e, fs1, _, hrec, hstep⟩
    · rw [htake] at hs
      by_cases hrest : List.take (n + 1 - a.length) b = []
      · rw [hrest, List.append_nil] at hs
        exact lstat_of_stat_dir hs
      · rcases List.eq_nil_or_concat a with hnil | ⟨d, c, hdc⟩
        · exact absurd hnil ha
        · rw [List.concat_eq_append] at hdc
          subst hdc
          obtain ⟨q, hq, _⟩ := stat_ok.mp hs
          rw [List.append_assoc, List.singleton_append] at hq
          exact lstat_inner (hn c (by simp)) hrest hq
    · by_cases hle : a.length ≤ n
      · rcases ih fs fs1 hrec hle with hl | ⟨m, hm⟩
        · exact Or.inl hl
        · right
          have hext : Ext fs1 fs2 := by
            rcases hstep with hmk | ⟨rfl, _⟩
            · obtain ⟨q, _, hg, rfl⟩ := mkdir_ok.mp hmk
              exact ext_set_none hg _
            · exact ext_refl _
          obtain ⟨n2, hn2, hs2⟩ := lstat_ext hext hm
          obtain ⟨m2, rfl⟩ := sameShape_dir hs2
          exact ⟨m2, hn2⟩
      · have hlen2 : a.length = n + 1 := by omega
        have htake2 : List.take (n + 1) (a ++ b) = a := by
          rw [← hlen2, List.take_left]
        rw [htake2] at hstep
        right
        rcases hstep with hmk | ⟨rfl, m, hl⟩
        · obtain ⟨q, hq, hg, rfl⟩ := mkdir_ok.mp hmk
          have hnil := ne_nil_of_get_none hg
          exact ⟨mode, lstat_ok.mpr ⟨q,
            walk_ext (ext_set_none hg _) false maxLinks [] _ q hq (Or.inl rfl),
            get_set_eq fs1 _ hnil⟩⟩
        · exact ⟨m, hl⟩

theorem mkdirAll_prefix {fs fs2 : FS} {mode : Nat} {a b : List String} (ha : a ≠ [])
    (hn : ∀ x ∈ a, isName x) (h : mkdirAll fs (a ++ b) mode = (none, fs2)) :
    (∃ t, lstat fs a = .ok (.link t)) ∨ (∃ m, lstat fs2 a = .ok (.dir m)) :=
  mkdirAllN_prefix mode a b ha hn (a ++ b).length fs fs2 h (by simp)

/-- Where `os.Lstat` does not report `R/A/current` as a link, a successful
`os.MkdirAll` of it, or of a path below it, leaves it a directory. -/
theorem current_dir_of_mkdirAll {fs fs1 : FS} {baseDir : Path} {app : String}
    {b : List String}
    (hnl : ∀ t, lstat fs (join baseDir [app, "current"]) ≠ .ok (.link t))
    (h : mkdirAll fs (join baseDir [app, "current"] ++ b) 0o755 = (none, fs1)) :
    ∃ m, lstat fs1 (join baseDir [app, "current"]) = .ok (.dir m) := by
  have hne : join baseDir [app, "current"] ≠ [] := by
    rw [show [app, "current"] = [app] ++ ["current"] from rfl,
      join_snoc baseDir [app] isName_current]
    simp
  rcases mkdirAll_prefix hne (join_valid baseDir [app, "current"]) h with ⟨t, ht⟩ | hd
  · exact absurd ht (hnl t)
  · exact hd

/-- The replace-symlink sequence on an entry that `os.Lstat` does not report
as a link removes nothing: it is the call of `os.Symlink`. -/
theorem replaceSymlink_no_link {fs : FS} {p : Path} (hnl : ∀ t, lstat fs p ≠ .ok (.link t))
    (target : List String) (wr wc : Err → Err) :
    replaceSymlink fs target p wr wc =
      match symlink fs target p with
      | .error e => (some (wc (.sys e)), fs)
      | .ok fs2 => (none, fs2) := by
  unfold replaceSymlink
  cases hl : lstat fs p with
  | error e => rfl
  | ok n =>
    cases n with
    | file d m => rfl
    | dir m => rfl
    | link t => exact absurd hl (hnl t)

/-- With the version argument `current`, `switchVersion` fails and changes
nothing, where `os.Lstat` does not report `R/A/current` as a link. -/
theorem switchVersion_reserved (fs : FS) (baseDir : Path) (app : String)
    (hnl : ∀ t, lstat fs (join baseDir [app, "current"]) ≠ .ok (.link t)) :
    ∃ e, switchVersion fs baseDir app "current" = (some e, fs) := by
  unfold switchVersion
  simp only [join_app_current]
  by_cases hc : (match stat fs (join baseDir [app, "current"]) with
      | .error e => isNotExist (.sys e)
      | .ok _ => false) = true
  · rw [if_pos hc]
    exact ⟨_, rfl⟩
  · rw [if_neg hc, replaceSymlink_no_link hnl]
    cases hs : symlink fs ["current"] (join baseDir [app, "current"]) with
    | error e => exact ⟨_, rfl⟩
    | ok fs2 =>
      exfalso
      obtain ⟨_, q, hq, hg, _⟩ := symlink_ok.mp hs
      have hq2 := walk_false_to_true fs maxLinks [] _ q hq (by simp [hg])
      have hst : stat fs (join baseDir [app, "current"]) = .error .ENOENT := by
        simp [stat, resolve, hq2, hg]
      simp [hst, isNotExist] at hc

/-- With the version argument `current`, `installBinary` fails where
`os.Lstat` does not report `R/A/current` as a link; when it fails at the
current link, `R/A/current` is a directory by then. -/
theorem installBinary_reserved (home : Option Path) (fs : FS) (baseDir binaryPath : Path)
    (app : String) (hnl : ∀ t, lstat fs (join baseDir [app, "current"]) ≠ .ok (.link t)) :
    ∃ e, (installBinary home fs baseDir binaryPath app "current").1 = some e ∧
      (e = .wrap "failed to create current symlink" (.sys .EEXIST) →
        ∃ m, lstat (installBinary home fs baseDir binaryPath app "current").2
          (join baseDir [app, "current"]) = .ok (.dir m)) := by
  have hjb : join baseDir [app, "current", "bin"] = join baseDir [app, "current"] ++ ["bin"] :=
    join_snoc baseDir [app, "current"] isName_bin
  unfold installBinary
  simp only [join_app_current]
  by_cases hc : (match stat fs (join binaryPath []) with
      | .error e => isNotExist (.sys e)
      | .ok _ => false) = true
  · rw [if_pos hc]
    exact ⟨_, rfl, fun h => by cases h⟩
  · rw [if_neg hc]
    cases h1 : mkdirAll fs (join baseDir [app, "current", "bin"]) 0o755 with
    | mk r1 fs1 =>
      cases r1 with
      | some e => exact ⟨_, rfl, fun h => by simp at h⟩
      | none =>
        simp only
        cases h2 : copyFile fs1 (join binaryPath [])
            (join (join baseDir [app, "current", "bin"]) [pathBase (join binaryPath [])]) with
        | mk r2 fs2 =>
          cases r2 with
          | some e => exact ⟨_, rfl, fun h => by simp at h⟩
          | none =>
            simp only
            cases h3 : chmod fs2 (join (join baseDir [app, "current", "bin"])
                [pathBase (join binaryPath [])]) 0o755 with
            | error e => exact ⟨_, rfl, fun h => by simp at h⟩
            | ok fs3 =>
              simp only
              rw [hjb] at h1
              obtain ⟨m1, hd1⟩ := current_dir_of_mkdirAll hnl h1
              have hg2 : Grows fs1 fs2 := by
                have := copyFile_grows fs1 (join binaryPath [])
                  (join (join baseDir [app, "current", "bin"]) [pathBase (join binaryPath [])])
                rwa [h2] at this
              obtain ⟨n3, hl3, hs3⟩ := lstat_ext (ext_trans hg2.1 (chmod_grows h3).1) hd1
              obtain ⟨m3, rfl⟩ := sameShape_dir hs3
              obtain ⟨e, he⟩ := replaceSymlink_fails hl3 (by simp) ["current"]
                (.wrap "failed to remove existing symlink")
                (.wrap "failed to create current symlink")
              rw [he]
              exact ⟨e, rfl, fun _ => ⟨m3, hl3⟩⟩

/-- With the version argument `current`, `installDirectory` fails where
`os.Lstat` does not report `R/A/current` as a link; when it fails at the
current link, `R/A/current` is a directory by then. -/
theorem installDirectory_reserved (home : Option Path) (depth : Nat) (fs : FS)
    (baseDir srcDir : Path) (app : String)
    (hnl : ∀ t, lstat fs (join baseDir [app, "current"]) ≠ .ok (.link t)) :
    ∃ e, (installDirectory home depth fs baseDir srcDir app "current").1 = some e ∧
      (e = .wrap "failed to create current symlink" (.sys .EEXIST) →
        ∃ m, lstat (installDirectory home depth fs baseDir srcDir app "current").2
          (join baseDir [app, "current"]) = .ok (.dir m)) := by
  unfold installDirectory
  simp only [join_app_current]
  cases h0 : stat fs (join srcDir []) with
  | error e => exact ⟨_, rfl, fun h => by cases h⟩
  | ok nd =>
    cases nd with
    | file d m => exact ⟨_, rfl, fun h => by cases h⟩
    | link t => exact ⟨_, rfl, fun h => by cases h⟩
    | dir m =>
      simp only
      by_cases hc : (match stat fs (join (join srcDir []) ["bin"]) with
          | .error e => isNotExist (.sys e)
          | .ok _ => false) = true
      · simp only [hc]
        exact ⟨_, rfl, fun h => by cases h⟩
      · simp only [hc]
        cases h1 : mkdirAll fs (join baseDir [app, "current"]) 0o755 with
        | mk r1 fs1 =>
          cases r1 with
          | some e1 => exact ⟨_, rfl, fun h => by simp at h⟩
          | none =>
            simp only
            cases h2 : copyDir depth fs1 (join srcDir []) (join baseDir [app, "current"]) with
            | mk r2 fs2 =>
              cases r2 with
              | some e2 => exact ⟨_, rfl, fun h => by simp at h⟩
              | none =>
                simp only
                have h1b : mkdirAll fs (join baseDir [app, "current"] ++ []) 0o755 =
                    (none, fs1) := by
                  rw [List.append_nil]
                  exact h1
                obtain ⟨m1, hd1⟩ := current_dir_of_mkdirAll hnl h1b
                have hg2 : Grows fs1 fs2 := by
                  have := copyDir_grows depth fs1 (join srcDir []) (join baseDir [app, "current"])
                  rwa [h2] at this
                obtain ⟨n3, hl3, hs3⟩ := lstat_ext hg2.1 hd1
                obtain ⟨m3, rfl⟩ := sameShape_dir hs3
                obtain ⟨e, he⟩ := replaceSymlink_fails hl3 (by simp) ["current"]
                  (.wrap "failed to remove existing symlink")
                  (.wrap "failed to create current symlink")
                rw [he]
                exact ⟨e, rfl, fun _ => ⟨m3, hl3⟩⟩

/-! ## Claim about the reserved name -/

/-- C7 (amended): no operation rejects the name `current`.  With the version
argument `current`, none of `switchVersion`, `installBinary` and
`installDirectory` succeeds as long as `os.Lstat` does not report `R/A/current`
as a symbolic link before the call (it may be absent, a directory or a file).
`switchVersion` then changes nothing.  The installers fail at the latest when
they create the current link, and when they fail there with `file exists`,
`R/A/current` is a directory in the filesystem they leave behind. -/
theorem current_not_accepted (home : Option Path) (depth : Nat) (fs : FS)
    (baseDir binaryPath srcDir : Path) (app : String)
    (hnl : ∀ t, lstat fs (join baseDir [app, "current"]) ≠ .ok (.link t)) :
    (∃ e, switchVersion fs baseDir app "current" = (some e, fs)) ∧
    (∃ e, (installBinary home fs baseDir binaryPath app "current").1 = some e ∧
      (e = .wrap "failed to create current symlink" (.sys .EEXIST) →
        ∃ m, lstat (installBinary home fs baseDir binaryPath app "current").2
          (join baseDir [app, "current"]) = .ok (.dir m))) ∧
    (∃ e, (installDirectory home depth fs baseDir srcDir app "current").1 = some e ∧
      (e = .wrap "failed to create current symlink" (.sys .EEXIST) →
        ∃ m, lstat (installDirectory home depth fs baseDir srcDir app "current").2
          (join baseDir [app, "current"]) = .ok (.dir m))) :=
  ⟨switchVersion_reserved fs baseDir app hnl,
   installBinary_reserved home fs baseDir binaryPath app hnl,
   installDirectory_reserved home depth fs baseDir srcDir app hnl⟩

/-- Witness of C7 (amended).  In a store without an entry `current`, all three
operations succeed for version `1.0`; for `current`, `switchVersion` finds no
such version, and the installers fail with `file exists` at the current link,
after they have copied into `current/bin`.  In a store in which `current` is a
directory, `switchVersion` gets as far as `os.Symlink` and fails there. -/
theorem current_not_accepted_witness :
    (lstat fsNoLink (join ["r"] ["app", "current"]) = .error .ENOENT ∧
     (switchVersion fsNoLink ["r"] "app" "1.0").1 = none ∧
     (installBinary (some ["home"]) fsNoLink ["r"] ["tmp", "tool"] "app" "1.0").1 = none ∧
     (installDirectory (some ["home"]) 8 fsNoLink ["r"] ["tmp", "dist"] "app" "1.0").1 = none ∧
     (installBinary (some ["home"]) fsNoLink ["r"] ["tmp", "tool"] "app" "current").1 =
       some (.wrap "failed to create current symlink" (.sys .EEXIST)) ∧
     (installDirectory (some ["home"]) 8 fsNoLink ["r"] ["tmp", "dist"] "app" "current").1 =
       some (.wrap "failed to create current symlink" (.sys .EEXIST))) ∧
    ((∃ e, switchVersion fsNoLink ["r"] "app" "current" = (some e, fsNoLink)) ∧
     (∃ e, (installBinary (some ["home"]) fsNoLink ["r"] ["tmp", "tool"] "app"
         "current").1 = some e ∧
       (e = .wrap "failed to create current symlink" (.sys .EEXIST) →
         ∃ m, lstat (installBinary (some ["home"]) fsNoLink ["r"] ["tmp", "tool"] "app"
           "current").2 (join ["r"] ["app", "current"]) = .ok (.dir m))) ∧
     (∃ e, (installDirectory (some ["home"]) 8 fsNoLink ["r"] ["tmp", "dist"] "app"
         "current").1 = some e ∧
       (e = .wrap "failed to create current symlink" (.sys .EEXIST) →
         ∃ m, lstat (installDirectory (some ["home"]) 8 fsNoLink ["r"] ["tmp", "dist"] "app"
           "current").2 (join ["r"] ["app", "current"]) = .ok (.dir m)))) ∧
    (lstat fsReserved (join ["r"] ["app", "current"]) = .ok (.dir 0o755) ∧
     switchVersion fsReserved ["r"] "app" "current" = (some (.sys .EEXIST), fsReserved)) ∧
    (∃ e, switchVersion fsReserved ["r"] "app" "current" = (some e, fsReserved)) :=
  ⟨by decide,
   current_not_accepted (some ["home"]) 8 fsNoLink ["r"] ["tmp", "tool"] ["tmp", "dist"]
     "app" (fun t h => by
       have h2 : lstat fsNoLink (join ["r"] ["app", "current"]) = .error .ENOENT := by
         decide
       rw [h2] at h
       cases h),
   by decide,
   (current_not_accepted (some ["home"]) 8 fsReserved ["r"] ["tmp", "tool"] ["tmp", "dist"]
     "app" (fun t h => by
       have h2 : lstat fsReserved (join ["r"] ["app", "current"]) = .ok (.dir 0o755) := by
         decide
       rw [h2] at h
       cases h)).1⟩

/-- C7 as stated fails.  Where `R/A/current` is a link to an installed version,
`switchVersion` and `installBinary` succeed with the version argument
`current` and leave `current` as a link to itself, which `getCurrentVersion`
then reports as the current version.  Where `R/A` has no entry named
`current`, the installers fail with that version argument, but only after
they have created the directory `R/A/current` and copied into it. -/
theorem current_not_accepted_counterexample :
    lstat fsCurrentLink ["r", "app", "current"] = .ok (.link ["1.0"]) ∧
    (switchVersion fsCurrentLink ["r"] "app" "current").1 = none ∧
    getCurrentVersion (switchVersion fsCurrentLink ["r"] "app" "current").2 ["r"] "app" =
      .ok "current" ∧
    (installBinary (some ["home"]) fsCurrentLink ["r"] ["tmp", "tool"] "app" "current").1 =
      none ∧
    readlink (installBinary (some ["home"]) fsCurrentLink ["r"] ["tmp", "tool"] "app"
      "current").2 ["r", "app", "current"] = .ok ["current"] ∧
    lstat fsNoLink ["r", "app", "current"] = .error .ENOENT ∧
    (installBinary (some ["home"]) fsNoLink ["r"] ["tmp", "tool"] "app" "current").1 =
      some (.wrap "failed to create current symlink" (.sys .EEXIST)) ∧
    lstat (installBinary (some ["home"]) fsNoLink ["r"] ["tmp", "tool"] "app" "current").2
      ["r", "app", "current", "bin", "tool"] = .ok (.file [7] 0o755) ∧
    (installDirectory (some ["home"]) 8 fsNoLink ["r"] ["tmp", "dist"] "app" "current").1 =
      some (.wrap "failed to create current symlink" (.sys .EEXIST)) ∧
    lstat (installDirectory (some ["home"]) 8 fsNoLink ["r"] ["tmp", "dist"] "app"
      "current").2 ["r", "app", "current", "bin", "t"] = .ok (.file [7] 0o755) := by
  decide

end Lav
